import Mathlib

/-!
# Dotted / indexed path access into JSON documents

A verification development for `main.go`: the two public operations `Get` and
`Set`, the segment classifier (`isListKey`, `getIndexFromKey`) and the
recursive per-segment resolvers (`get`, `getList`, `getMap`, `setNewVal`,
`setList`, `setMap`).

The Go standard library functions the program calls (`encoding/json`,
`regexp`, `strconv`, `strings`) are modelled first; the program itself follows,
function by function.
-/

namespace JqLike

/-! ## Decimal digits (`strconv`, number tokens) -/

/-- The character is an ASCII decimal digit. -/
def isDigit (c : Char) : Bool := decide (48 ≤ c.toNat) && decide (c.toNat ≤ 57)

/-- Value of a decimal digit character. -/
def digitVal (c : Char) : Nat := c.toNat - 48

/-- Decimal digit character of a number below ten. -/
def digitChar (d : Nat) : Char := Char.ofNat (48 + d)

/-- Number denoted by a run of decimal digits, most significant first, added
to the accumulator `acc`. -/
def digitsToNat : List Char → Nat → Nat
  | [], acc => acc
  | c :: cs, acc => digitsToNat cs (10 * acc + digitVal c)

/-- Decimal digits of `n`, most significant first, in front of `acc`. -/
def natToDigits : Nat → Nat → List Char → List Char
  | 0, _, acc => acc
  | f + 1, n, acc =>
    if n < 10 then digitChar n :: acc
    else natToDigits f (n / 10) (digitChar (n % 10) :: acc)

/-- Decimal text of a natural number. -/
def showNat (n : Nat) : List Char := natToDigits (n + 1) n []

/-- Longest prefix of decimal digits, and what follows it. -/
def spanDigits : List Char → List Char × List Char
  | [] => ([], [])
  | c :: cs =>
    if isDigit c then ((spanDigits cs).1.cons c, (spanDigits cs).2)
    else ([], c :: cs)

/-! ## Numbers

A JSON number text denotes a decimal number.  `json.Unmarshal` into
`interface{}` converts it with `strconv.ParseFloat(s, 64)` to the nearest
`float64`, and fails when the number is out of range; `json.Marshal` writes a
`float64` with `strconv.AppendFloat(b, f, fmt, -1, 64)`, the shortest decimal
that `ParseFloat` reads back as the same `float64`.  A `float64` is kept as the
decimal number it is equal to, so that a value passed to `Set` may also hold a
number that is not a `float64` (a Go integer such as `9007199254740993`). -/

/-- The decimal number `(-1)^neg * m * 10^e`.  The sign is kept for zero, as a
`float64` does. -/
structure Dec where
  /-- The sign bit. -/
  neg : Bool
  /-- The digits, as a natural number. -/
  m : Nat
  /-- The power of ten. -/
  e : Int
  deriving DecidableEq, Repr, Inhabited

/-- Remove factors of ten from `m` and count them in `e`; the first argument
bounds the number of steps. -/
def stripZeros : Nat → Nat → Int → Nat × Int
  | 0, m, e => (m, e)
  | f + 1, m, e => if m % 10 = 0 then stripZeros f (m / 10) (e + 1) else (m, e)

/-- The decimal `(-1)^neg * m * 10^e` in lowest terms: `m` has no factor of
ten, and zero has exponent zero. -/
def Dec.norm (neg : Bool) (m : Nat) (e : Int) : Dec :=
  if m = 0 then ⟨neg, 0, 0⟩ else ⟨neg, (stripZeros m m e).1, (stripZeros m m e).2⟩

/-- The decimal is in lowest terms. -/
def Dec.canonical (c : Dec) : Bool :=
  if c.m = 0 then decide (c.e = 0) else decide (c.m % 10 ≠ 0)

/-- Numeral `n` as a decimal. -/
instance (n : Nat) : OfNat Dec n := ⟨Dec.norm false n 0⟩

/-- Number of binary digits of `n`; the first argument bounds the number of
steps. -/
def bitLen : Nat → Nat → Nat
  | 0, _ => 0
  | f + 1, n => if n = 0 then 0 else bitLen f (n / 2) + 1

/-- Numerator and denominator of `m * 10^e`. -/
def decFrac (m : Nat) (e : Int) : Nat × Nat :=
  if 0 ≤ e then (m * 10 ^ e.toNat, 1) else (m, 10 ^ (-e).toNat)

/-- The test `2^p ≤ a / b`. -/
def geTwoPow (a b : Nat) (p : Int) : Bool :=
  if 0 ≤ p then decide (b * 2 ^ p.toNat ≤ a) else decide (b ≤ a * 2 ^ (-p).toNat)

/-- The integer `p` with `2^p ≤ a / b < 2^(p+1)`, for positive `a` and `b`:
the difference of the bit lengths or one less. -/
def floorLog2 (a b : Nat) : Int :=
  if geTwoPow a b ((bitLen a a : Int) - (bitLen b b : Int)) then
    (bitLen a a : Int) - (bitLen b b : Int)
  else (bitLen a a : Int) - (bitLen b b : Int) - 1

/-- Exponent of the last binary place of the `float64` values around `a / b`:
53 significant binary digits, and no place below `2^-1074`. -/
def quantum (a b : Nat) : Int := max (floorLog2 a b - 52) (-1074)

/-- Numerator and denominator of `(a / b) / 2^q`. -/
def scaleTwo (a b : Nat) (q : Int) : Nat × Nat :=
  if 0 ≤ q then (a, b * 2 ^ q.toNat) else (a * 2 ^ (-q).toNat, b)

/-- The integer nearest to `a / b`, the even one of two equally near. -/
def roundHalfEven (a b : Nat) : Nat :=
  if 2 * (a % b) > b ∨ (2 * (a % b) = b ∧ (a / b) % 2 = 1) then a / b + 1 else a / b

/-- The decimal equal to `(-1)^neg * M * 2^q`. -/
def Dec.ofBinary (neg : Bool) (M : Nat) (q : Int) : Dec :=
  if 0 ≤ q then Dec.norm neg (M * 2 ^ q.toNat) 0 else Dec.norm neg (M * 5 ^ (-q).toNat) q

/-- Position of the decimal point: a non-zero number lies in
`[10^(p-1), 10^p)` for `p = c.point`. -/
def Dec.point (c : Dec) : Int := ((showNat c.m).length : Int) + c.e

/-- The number is a `float64`: written in lowest terms, it is zero or a
multiple of the last binary place around it, below `2^1024`.  (Every non-zero
`float64` lies between `10^-324` and `10^309`.) -/
def Dec.isF64 (c : Dec) : Bool :=
  c.canonical &&
    (decide (c.m = 0) ||
      (decide (c.point ≤ 310) && decide (-330 ≤ c.point) &&
        decide (floorLog2 (decFrac c.m c.e).1 (decFrac c.m c.e).2 ≤ 1023) &&
        decide ((scaleTwo (decFrac c.m c.e).1 (decFrac c.m c.e).2
            (quantum (decFrac c.m c.e).1 (decFrac c.m c.e).2)).1 %
          (scaleTwo (decFrac c.m c.e).1 (decFrac c.m c.e).2
            (quantum (decFrac c.m c.e).1 (decFrac c.m c.e).2)).2 = 0)))

/-- The number rounded to the nearest multiple of the last binary place around
it, ties to the even multiple (IEEE 754 round to nearest even, the exponent not
bounded above). -/
def Dec.round (c : Dec) : Dec :=
  Dec.ofBinary c.neg
    (roundHalfEven
      (scaleTwo (decFrac c.m c.e).1 (decFrac c.m c.e).2
        (quantum (decFrac c.m c.e).1 (decFrac c.m c.e).2)).1
      (scaleTwo (decFrac c.m c.e).1 (decFrac c.m c.e).2
        (quantum (decFrac c.m c.e).1 (decFrac c.m c.e).2)).2)
    (quantum (decFrac c.m c.e).1 (decFrac c.m c.e).2)

/-- Model of `strconv.ParseFloat(s, 64)` on the number that `s` denotes: a
`float64` is returned as it is, any other number is rounded to the nearest
`float64`, and `none` is the range error.  A number of `10^310` or more is out
of range and a number below `10^-330` rounds to zero. -/
def parseFloat (c : Dec) : Option Dec :=
  if c.isF64 then some c
  else if c.m = 0 then some ⟨c.neg, 0, 0⟩
  else if c.point > 310 then none
  else if c.point < -330 then some ⟨c.neg, 0, 0⟩
  else if c.round.isF64 then some c.round else none

/-- Search for the shortest decimal that `ParseFloat` reads as the `float64`
`c`, whose digits are `ds`: with `n` digits, the first `n` digits of `c` as
they are (rounded down) or increased by one (rounded up); when both are read
as `c`, the one nearer to `c`, and the even one of two equally near; when
neither is, one more digit.  With all its digits the number is `c` itself.
The first argument bounds the number of steps. -/
def shortestFrom (c : Dec) (ds : List Char) : Nat → Nat → Dec
  | 0, _ => c
  | f + 1, n =>
    if ds.length ≤ n then c
    else if parseFloat (Dec.norm c.neg (digitsToNat (ds.take n) 0)
        (c.e + ((ds.length - n : Nat) : Int))) = some c then
      if parseFloat (Dec.norm c.neg (digitsToNat (ds.take n) 0 + 1)
          (c.e + ((ds.length - n : Nat) : Int))) = some c then
        if 2 * digitsToNat (ds.drop n) 0 < 10 ^ (ds.length - n) ∨
            (2 * digitsToNat (ds.drop n) 0 = 10 ^ (ds.length - n) ∧
              digitsToNat (ds.take n) 0 % 2 = 0) then
          Dec.norm c.neg (digitsToNat (ds.take n) 0) (c.e + ((ds.length - n : Nat) : Int))
        else Dec.norm c.neg (digitsToNat (ds.take n) 0 + 1) (c.e + ((ds.length - n : Nat) : Int))
      else Dec.norm c.neg (digitsToNat (ds.take n) 0) (c.e + ((ds.length - n : Nat) : Int))
    else if parseFloat (Dec.norm c.neg (digitsToNat (ds.take n) 0 + 1)
        (c.e + ((ds.length - n : Nat) : Int))) = some c then
      Dec.norm c.neg (digitsToNat (ds.take n) 0 + 1) (c.e + ((ds.length - n : Nat) : Int))
    else shortestFrom c ds f (n + 1)

/-- The digits that `strconv.AppendFloat` with precision `-1` writes for the
`float64` `c`: the shortest decimal that `ParseFloat` reads as `c`. -/
def shortest (c : Dec) : Dec :=
  if c.m = 0 then c else shortestFrom c (showNat c.m) (showNat c.m).length 1

/-- The sign of a number text. -/
def printSign (neg : Bool) : List Char := if neg then ['-'] else []

/-- The digits of `m * 10^e` with the decimal point in place, no exponent. -/
def fixedBody (m : Nat) (e : Int) : List Char :=
  if m = 0 then ['0']
  else if 0 ≤ e then showNat m ++ List.replicate e.toNat '0'
  else if (-e).toNat < (showNat m).length then
    (showNat m).take ((showNat m).length - (-e).toNat) ++
      '.' :: (showNat m).drop ((showNat m).length - (-e).toNat)
  else '0' :: '.' :: (List.replicate ((-e).toNat - (showNat m).length) '0' ++ showNat m)

/-- The format `%f` of `AppendFloat` with precision `-1` on the decimal `c`. -/
def printFixed (c : Dec) : List Char :=
  printSign c.neg ++ fixedBody c.m c.e

/-- Digits of the format `%e`: the point after the first digit. -/
def printMantissa : List Char → List Char
  | [] => ['0']
  | [d] => [d]
  | d :: t => d :: '.' :: t

/-- Exponent digits of the format `%e`: at least two. -/
def expDigits (n : Nat) : List Char := if n < 10 then ['0', digitChar n] else showNat n

/-- The clean-up of `encoding/json` after `%e`: `e-09` becomes `e-9`. -/
def cleanExp : List Char → List Char
  | [a, b] => if a = '0' then [b] else [a, b]
  | ds => ds

/-- Exponent part of a number text of `encoding/json`. -/
def printExp (x : Int) : List Char :=
  'e' :: (if x < 0 then '-' else '+') :: cleanExp (expDigits x.natAbs)

/-- The format `%e` of `AppendFloat` with precision `-1` on the decimal `c`,
after the clean-up of `encoding/json`. -/
def printSci (c : Dec) : List Char :=
  printSign c.neg ++ printMantissa (showNat c.m) ++ printExp (c.point - 1)

/-- The comparison `|a| < |b|`. -/
def Dec.absLt (a b : Dec) : Bool :=
  decide (a.m * 10 ^ (a.e - min a.e b.e).toNat < b.m * 10 ^ (b.e - min a.e b.e).toNat)

/-- The `float64` constant `1e-6` of the encoder. -/
def f64Micro : Dec := Dec.round ⟨false, 1, -6⟩

/-- The `float64` constant `1e21` of the encoder. -/
def f64Sextillion : Dec := ⟨false, 1, 21⟩

/-- Number text of `json.Marshal`.  A `float64` is written as `floatEncoder`
does: format `%e` when it is not zero and `abs < 1e-6 || abs >= 1e21`, format
`%f` otherwise, with the shortest digits.  A number that is not a `float64` (a
Go integer) is written with all its digits. -/
def encodeNumber (c : Dec) : List Char :=
  if c.isF64 then
    if c.m ≠ 0 ∧ (c.absLt f64Micro ∨ ¬ c.absLt f64Sextillion) then printSci (shortest c)
    else printFixed (shortest c)
  else printFixed c

/-- Integer part of a number token: `0`, or a digit from 1 to 9 and the digits
after it. -/
def parseInt (cs : List Char) : Option (List Char × List Char) :=
  match cs with
  | [] => none
  | d :: r =>
    if d = '0' then some (['0'], r)
    else if isDigit d then some (spanDigits (d :: r))
    else none

/-- Fraction part of a number token: a point and one or more digits, or
nothing. -/
def parseFrac (cs : List Char) : Option (List Char × List Char) :=
  match cs with
  | '.' :: r => if (spanDigits r).1 = [] then none else some (spanDigits r)
  | _ => some ([], cs)

/-- Digits of an exponent, one or more. -/
def parseExpDigits (neg : Bool) (cs : List Char) : Option (Int × List Char) :=
  if (spanDigits cs).1 = [] then none
  else some (if neg then -((digitsToNat (spanDigits cs).1 0 : Nat) : Int)
    else ((digitsToNat (spanDigits cs).1 0 : Nat) : Int), (spanDigits cs).2)

/-- Exponent part of a number token: `e` or `E`, an optional sign and one or
more digits, or nothing. -/
def parseExp (cs : List Char) : Option (Int × List Char) :=
  match cs with
  | [] => some (0, [])
  | c :: r =>
    if c = 'e' ∨ c = 'E' then
      match r with
      | '+' :: r1 => parseExpDigits false r1
      | '-' :: r1 => parseExpDigits true r1
      | _ => parseExpDigits false r
    else some (0, c :: r)

/-- The number token after its sign. -/
def parseUnsigned (neg : Bool) (cs : List Char) : Option (Dec × List Char) :=
  match parseInt cs with
  | none => none
  | some (ip, r1) =>
    match parseFrac r1 with
    | none => none
    | some (fp, r2) =>
      match parseExp r2 with
      | none => none
      | some (x, r3) =>
        some (Dec.norm neg (digitsToNat (ip ++ fp) 0) (x - (fp.length : Int)), r3)

/-- Decode a number token
`-?(0|[1-9][0-9]*)(\.[0-9]+)?([eE][+-]?[0-9]+)?`: the decimal number it
denotes, in lowest terms, and what follows it. -/
def parseNumber (cs : List Char) : Option (Dec × List Char) :=
  match cs with
  | '-' :: r => parseUnsigned true r
  | _ => parseUnsigned false cs

/-! ## JSON values

The dynamic values `encoding/json` produces when it decodes into
`interface{}`: `nil`, `bool`, `float64`, `string`, `[]interface{}` and
`map[string]interface{}`.  A Go map is kept as an association list ordered by
key, the order in which `json.Marshal` emits it.  The same type holds the
value a JSON text denotes, whose numbers are any decimals. -/

inductive JSON where
  | null
  | bool (b : Bool)
  | num (n : Dec)
  | str (s : String)
  | arr (xs : List JSON)
  | obj (kvs : List (String × JSON))
  deriving Repr, Inhabited

/-- Reading `m[k]` from a Go map: `none` when the key is absent. -/
def lookupKey (k : String) : List (String × JSON) → Option JSON
  | [] => none
  | (k', v) :: t => if k = k' then some v else lookupKey k t

/-- Lexicographic order on character sequences by code point, which is the
byte order of their UTF-8 encodings: the order in which `json.Marshal` sorts
map keys. -/
def ltChars : List Char → List Char → Bool
  | _, [] => false
  | [], _ :: _ => true
  | a :: as, b :: bs =>
    if a.toNat < b.toNat then true
    else if a.toNat = b.toNat then ltChars as bs
    else false

/-- Key order of `json.Marshal`. -/
def keyLt (a b : String) : Bool := ltChars a.toList b.toList

/-- The assignment `m[k] = v` on a Go map kept in key order: an existing
binding is replaced, a new one is placed at its sorted position. -/
def insertKey (k : String) (v : JSON) : List (String × JSON) → List (String × JSON)
  | [] => [(k, v)]
  | (k', v') :: t =>
    if keyLt k k' then (k, v) :: (k', v') :: t
    else if k = k' then (k, v) :: t
    else (k', v') :: insertKey k v t

/-- The map obtained by assigning the members of a JSON object text in the
order they are written (a repeated key keeps its last value). -/
def buildMap (raw : List (String × JSON)) : List (String × JSON) :=
  raw.foldl (fun m kv => insertKey kv.1 kv.2 m) []

/-- Keys strictly increasing: the association list is a well-formed map. -/
def sortedKeys : List (String × JSON) → Bool
  | [] => true
  | [_] => true
  | (k, _) :: (k', v') :: t => keyLt k k' && sortedKeys ((k', v') :: t)

mutual
/-- A value is well formed when it is a value as `json.Unmarshal` produces
them: every number in it is a `float64`, and every object in it has strictly
increasing keys, which is what a Go `map[string]interface{}` tree looks like
when its keys are listed in order. -/
def JSON.wf : JSON → Bool
  | .null => true
  | .bool _ => true
  | .num n => n.isF64
  | .str _ => true
  | .arr xs => wfList xs
  | .obj kvs => sortedKeys kvs && wfMembers kvs
/-- Every element of the list is well formed. -/
def wfList : List JSON → Bool
  | [] => true
  | x :: t => x.wf && wfList t
/-- Every member value of the object is well formed. -/
def wfMembers : List (String × JSON) → Bool
  | [] => true
  | (_, x) :: t => x.wf && wfMembers t
end

mutual
/-- Every object in the value has strictly increasing keys. -/
def JSON.keysOk : JSON → Bool
  | .null => true
  | .bool _ => true
  | .num _ => true
  | .str _ => true
  | .arr xs => keysOkList xs
  | .obj kvs => sortedKeys kvs && keysOkMembers kvs
/-- Every element of the list has objects with increasing keys. -/
def keysOkList : List JSON → Bool
  | [] => true
  | x :: t => x.keysOk && keysOkList t
/-- Every member value of the object has objects with increasing keys. -/
def keysOkMembers : List (String × JSON) → Bool
  | [] => true
  | (_, x) :: t => x.keysOk && keysOkMembers t
end

/-! ## `encoding/json`: encoder -/

/-- Hexadecimal digit character (lower case) of a number below sixteen. -/
def hexChar (d : Nat) : Char :=
  if d < 10 then Char.ofNat (48 + d) else Char.ofNat (87 + d)

/-- Escape of one character inside a JSON string literal, as `json.Marshal`
writes it (HTML-sensitive characters and the line separators included). -/
def escapeChar (c : Char) : List Char :=
  if c = '"' then ['\\', '"']
  else if c = '\\' then ['\\', '\\']
  else if c = '\n' then ['\\', 'n']
  else if c = '\r' then ['\\', 'r']
  else if c = '\t' then ['\\', 't']
  else if c = Char.ofNat 8 then ['\\', 'b']
  else if c = Char.ofNat 12 then ['\\', 'f']
  else if c.toNat < 32 then ['\\', 'u', '0', '0', hexChar (c.toNat / 16), hexChar (c.toNat % 16)]
  else if c = '<' then ['\\', 'u', '0', '0', '3', 'c']
  else if c = '>' then ['\\', 'u', '0', '0', '3', 'e']
  else if c = '&' then ['\\', 'u', '0', '0', '2', '6']
  else if c.toNat = 0x2028 then ['\\', 'u', '2', '0', '2', '8']
  else if c.toNat = 0x2029 then ['\\', 'u', '2', '0', '2', '9']
  else [c]

/-- Body of a JSON string literal followed by its closing quote. -/
def encodeChars : List Char → List Char
  | [] => ['"']
  | c :: cs => escapeChar c ++ encodeChars cs

/-- JSON string literal for `s`. -/
def encodeString (s : String) : List Char := '"' :: encodeChars s.toList

mutual
/-- Compact JSON text of a value, as `json.Marshal` writes it. -/
def encodeValue : JSON → List Char
  | .null => ['n', 'u', 'l', 'l']
  | .bool true => ['t', 'r', 'u', 'e']
  | .bool false => ['f', 'a', 'l', 's', 'e']
  | .num n => encodeNumber n
  | .str s => encodeString s
  | .arr xs => '[' :: encodeElems xs
  | .obj kvs => '{' :: encodeMembers kvs
/-- Elements of an array separated by commas, then the closing bracket. -/
def encodeElems : List JSON → List Char
  | [] => [']']
  | [x] => encodeValue x ++ [']']
  | x :: y :: t => encodeValue x ++ ',' :: encodeElems (y :: t)
/-- Members of an object separated by commas, then the closing brace. -/
def encodeMembers : List (String × JSON) → List Char
  | [] => ['}']
  | [(k, x)] => encodeString k ++ ':' :: encodeValue x ++ ['}']
  | (k, x) :: y :: t => encodeString k ++ ':' :: encodeValue x ++ ',' :: encodeMembers (y :: t)
end

/-! ## `encoding/json`: decoder -/

/-- JSON insignificant whitespace. -/
def isWs (c : Char) : Bool := c = ' ' || c = '\t' || c = '\n' || c = '\r'

/-- Drop leading whitespace. -/
def skipWs : List Char → List Char
  | [] => []
  | c :: cs => if isWs c then skipWs cs else c :: cs

/-- Value of a hexadecimal digit character, either case. -/
def hexVal (c : Char) : Option Nat :=
  if 48 ≤ c.toNat ∧ c.toNat ≤ 57 then some (c.toNat - 48)
  else if 97 ≤ c.toNat ∧ c.toNat ≤ 102 then some (c.toNat - 87)
  else if 65 ≤ c.toNat ∧ c.toNat ≤ 70 then some (c.toNat - 55)
  else none

/-- Number written by four hexadecimal digits. -/
def hex4 (a b c d : Char) : Option Nat :=
  match hexVal a, hexVal b, hexVal c, hexVal d with
  | some x, some y, some z, some w => some (((x * 16 + y) * 16 + z) * 16 + w)
  | _, _, _, _ => none

/-- Character of a single-letter escape. -/
def unescape (e : Char) : Option Char :=
  if e = '"' then some '"'
  else if e = '\\' then some '\\'
  else if e = '/' then some '/'
  else if e = 'b' then some (Char.ofNat 8)
  else if e = 'f' then some (Char.ofNat 12)
  else if e = 'n' then some '\n'
  else if e = 'r' then some '\r'
  else if e = 't' then some '\t'
  else none

/-- Code point of a `\uXXXX` escape that stands alone; a surrogate half
becomes the replacement character U+FFFD. -/
def uChar (n : Nat) : Char :=
  if 0xd800 ≤ n ∧ n ≤ 0xdfff then Char.ofNat 0xfffd else Char.ofNat n

/-- Low half of a surrogate pair: when the input starts with an escape
`\uXXXX` whose value lies in DC00..DFFF, that value. -/
def lowSurrogate : List Char → Option Nat
  | bs :: u :: a :: b :: c :: d :: _ =>
    if bs = '\\' ∧ u = 'u' then
      match hex4 a b c d with
      | some m => if 0xdc00 ≤ m ∧ m ≤ 0xdfff then some m else none
      | none => none
    else none
  | _ => none

/-- Decode the character at the front of a string body, which is not the
closing quote: the character, and how many further input characters its escape
takes.  Control characters must be escaped; an unpaired surrogate escape is
the replacement character. -/
def nextChar (cs : List Char) : Option (Char × Nat) :=
  match cs with
  | [] => none
  | c :: r =>
    if c = '\\' then
      match r with
      | [] => none
      | e :: r1 =>
        if e = 'u' then
          match r1 with
          | a :: b :: c2 :: d :: r2 =>
            match hex4 a b c2 d with
            | none => none
            | some n =>
              if 0xd800 ≤ n ∧ n ≤ 0xdbff then
                match lowSurrogate r2 with
                | some m => some (Char.ofNat (0x10000 + (n - 0xd800) * 0x400 + (m - 0xdc00)), 11)
                | none => some (Char.ofNat 0xfffd, 5)
              else some (uChar n, 5)
          | _ => none
        else
          match unescape e with
          | some x => some (x, 1)
          | none => none
    else if c.toNat < 32 then none
    else some (c, 0)

/-- Decode the body of a string literal up to its closing quote.  `skip` is
the number of input characters still belonging to the escape just decoded;
`acc` holds the characters read so far, last first. -/
def parseChars : List Char → Nat → List Char → Option (String × List Char)
  | [], _, _ => none
  | _ :: r, skip + 1, acc => parseChars r skip acc
  | c :: r, 0, acc =>
    if c = '"' then some (String.mk acc.reverse, r)
    else
      match nextChar (c :: r) with
      | none => none
      | some (x, n) => parseChars r n (x :: acc)

mutual
/-- Decode one JSON value from the front of the input, returning what is
left.  The first argument bounds the number of nested calls. -/
def parseValue : Nat → List Char → Option (JSON × List Char)
  | 0, _ => none
  | f + 1, cs =>
    match skipWs cs with
    | [] => none
    | c :: r =>
      if c = 'n' then
        match r with
        | 'u' :: 'l' :: 'l' :: r' => some (.null, r')
        | _ => none
      else if c = 't' then
        match r with
        | 'r' :: 'u' :: 'e' :: r' => some (.bool true, r')
        | _ => none
      else if c = 'f' then
        match r with
        | 'a' :: 'l' :: 's' :: 'e' :: r' => some (.bool false, r')
        | _ => none
      else if c = '"' then
        match parseChars r 0 [] with
        | some (s, r') => some (.str s, r')
        | none => none
      else if c = '[' then
        match skipWs r with
        | ']' :: r' => some (.arr [], r')
        | r1 =>
          match parseElems f r1 with
          | some (xs, r') => some (.arr xs, r')
          | none => none
      else if c = '{' then
        match skipWs r with
        | '}' :: r' => some (.obj [], r')
        | r1 =>
          match parseMembers f r1 with
          | some (raw, r') => some (.obj (buildMap raw), r')
          | none => none
      else
        match parseNumber (c :: r) with
        | some (n, r') => some (.num n, r')
        | none => none
/-- Decode the elements of a non-empty array up to its closing bracket. -/
def parseElems : Nat → List Char → Option (List JSON × List Char)
  | 0, _ => none
  | f + 1, cs =>
    match parseValue f cs with
    | none => none
    | some (v, r) =>
      match skipWs r with
      | ',' :: r' =>
        match parseElems f r' with
        | some (vs, r'') => some (v :: vs, r'')
        | none => none
      | ']' :: r' => some ([v], r')
      | _ => none
/-- Decode the members of a non-empty object up to its closing brace, in the
order written. -/
def parseMembers : Nat → List Char → Option (List (String × JSON) × List Char)
  | 0, _ => none
  | f + 1, cs =>
    match skipWs cs with
    | '"' :: r =>
      match parseChars r 0 [] with
      | none => none
      | some (k, r1) =>
        match skipWs r1 with
        | ':' :: r2 =>
          match parseValue f r2 with
          | none => none
          | some (v, r3) =>
            match skipWs r3 with
            | ',' :: r4 =>
              match parseMembers f r4 with
              | some (kvs, r5) => some ((k, v) :: kvs, r5)
              | none => none
            | '}' :: r4 => some ([(k, v)], r4)
            | _ => none
        | _ => none
    | _ => none
end

/-- The value a whole JSON text denotes: one value, then only whitespace.
`none` is a syntax error. -/
def parseText (s : String) : Option JSON :=
  match parseValue (s.length + 1) s.toList with
  | some (v, r) => if skipWs r = [] then some v else none
  | none => none

mutual
/-- The conversion of every number of a value to `float64`, as `json.Unmarshal`
into `interface{}` does with `strconv.ParseFloat`; `none` when some number is
out of range. -/
def float64s : JSON → Option JSON
  | .null => some .null
  | .bool b => some (.bool b)
  | .num n =>
    match parseFloat n with
    | some x => some (.num x)
    | none => none
  | .str s => some (.str s)
  | .arr xs =>
    match float64sList xs with
    | some ys => some (.arr ys)
    | none => none
  | .obj kvs =>
    match float64sMembers kvs with
    | some m => some (.obj m)
    | none => none
/-- The conversion on the elements of an array. -/
def float64sList : List JSON → Option (List JSON)
  | [] => some []
  | x :: t =>
    match float64s x with
    | none => none
    | some y =>
      match float64sList t with
      | none => none
      | some ys => some (y :: ys)
/-- The conversion on the members of an object. -/
def float64sMembers : List (String × JSON) → Option (List (String × JSON))
  | [] => some []
  | (k, x) :: t =>
    match float64s x with
    | none => none
    | some y =>
      match float64sMembers t with
      | none => none
      | some m => some ((k, y) :: m)
end

/-- The value `json.Unmarshal` decodes a JSON text to: the value the text
denotes with every number converted to `float64`.  `none` is an error: a
syntax error, or a number out of the range of `float64`. -/
def parseJSON (s : String) : Option JSON :=
  match parseText s with
  | none => none
  | some raw => float64s raw

/-! ## `regexp`, `strconv`, `strings` -/

/-- Match of the pattern `\[([\-]?[0-9]+)\]` starting at the first character
of the input: the text of its capture group (sign and digits).  Both
quantifiers are greedy and what follows each cannot be matched by what it
consumes, so there is one way to match at a given position. -/
def matchListKeyAt (cs : List Char) : Option (List Char) :=
  match cs with
  | '[' :: r =>
    match r with
    | '-' :: r1 =>
      match spanDigits r1 with
      | (ds, ']' :: _) => if ds = [] then none else some ('-' :: ds)
      | _ => none
    | _ =>
      match spanDigits r with
      | (ds, ']' :: _) => if ds = [] then none else some ds
      | _ => none
  | _ => none

/-- Model of `listKeyPattern.FindStringSubmatch`: the capture group of the
leftmost match anywhere in the input (the pattern carries no anchors). -/
def findListKey : List Char → Option (List Char)
  | [] => none
  | c :: cs =>
    match matchListKeyAt (c :: cs) with
    | some g => some g
    | none => findListKey cs

/-- Model of `strconv.Atoi` for a 64-bit `int`: an optional sign, then one or
more decimal digits; `none` is a syntax or a range error. -/
def atoi (s : List Char) : Option Int :=
  match s with
  | '-' :: ds =>
    if ds = [] ∨ ds.all isDigit = false then none
    else if digitsToNat ds 0 ≤ 2 ^ 63 then some (-((digitsToNat ds 0 : Nat) : Int)) else none
  | '+' :: ds =>
    if ds = [] ∨ ds.all isDigit = false then none
    else if digitsToNat ds 0 < 2 ^ 63 then some ((digitsToNat ds 0 : Nat) : Int) else none
  | ds =>
    if ds = [] ∨ ds.all isDigit = false then none
    else if digitsToNat ds 0 < 2 ^ 63 then some ((digitsToNat ds 0 : Nat) : Int) else none

/-- Pieces of the input between the dots; there is always at least one. -/
def splitDots : List Char → List (List Char)
  | [] => [[]]
  | c :: cs =>
    if c = '.' then [] :: splitDots cs
    else
      match splitDots cs with
      | seg :: rest => (c :: seg) :: rest
      | [] => [[c]]

/-- Model of `strings.Split(key, ".")`. -/
def stringsSplit (key : String) : List String :=
  (splitDots key.toList).map String.mk

/-! ## Errors, panics and the `encoding/json` entry points -/

/-- The `error` values the program can return. -/
inductive GoError where
  /-- The function `*json.SyntaxError`: the text is not JSON. -/
  | syntaxError
  /-- The function `*json.UnmarshalTypeError`: the JSON value does not fit the target. -/
  | unmarshalType
  /-- The function `fmt.Errorf("list index out of bound")`. -/
  | indexOutOfBound
  /-- The function `fmt.Errorf("key not found on %s: %#v", jsonStr, keys)`. -/
  | keyNotFound (jsonStr : String) (keys : List String)
  /-- The function `fmt.Errorf("cannot fetch key %s from %s: %#v", key, jsonStr, err)`. -/
  | cannotFetch (key jsonStr : String) (cause : GoError)
  deriving Repr, DecidableEq

/-- Run-time panics of the Go program. -/
inductive GoPanic where
  /-- Indexing a slice outside `[0, len)`. -/
  | indexOutOfRange (index : Int) (len : Nat)
  /-- Assignment to an entry in a nil map. -/
  | nilMapAssign
  deriving Repr, DecidableEq

/-- Outcome of a call that may panic instead of returning. -/
inductive Exec (α : Type) where
  | ret (a : α)
  | panic (p : GoPanic)
  deriving Repr

/-- Model of `json.Marshal` on a decoded value; it has no failing case on
these values. -/
def jsonMarshal (v : JSON) : Except GoError String :=
  .ok (String.mk (encodeValue v))

/-- What a decoded JSON value stores into a `[]interface{}` target: an array
gives its elements, `null` leaves a nil slice of length zero, anything else is
a type error. -/
def asList : JSON → Except GoError (List JSON)
  | .arr xs => .ok xs
  | .null => .ok []
  | _ => .error .unmarshalType

/-- What a decoded JSON value stores into a `map[string]interface{}` target:
an object gives its map, `null` leaves the nil map (`none`), anything else is
a type error. -/
def asMap : JSON → Except GoError (Option (List (String × JSON)))
  | .obj kvs => .ok (some kvs)
  | .null => .ok none
  | _ => .error .unmarshalType

/-- The error of `json.Unmarshal` on a text it does not decode: a syntax error
when the text is not JSON, else the type error for a number out of the range
of `float64`. -/
def unmarshalError (jsonStr : String) : GoError :=
  match parseText jsonStr with
  | none => .syntaxError
  | some _ => .unmarshalType

/-- Model of `json.Unmarshal` into a `*[]interface{}`: the slice afterwards. -/
def unmarshalList (jsonStr : String) : Except GoError (List JSON) :=
  match parseJSON jsonStr with
  | none => .error (unmarshalError jsonStr)
  | some d => asList d

/-- Model of `json.Unmarshal` into a `*map[string]interface{}`: the map
afterwards. -/
def unmarshalMap (jsonStr : String) : Except GoError (Option (List (String × JSON))) :=
  match parseJSON jsonStr with
  | none => .error (unmarshalError jsonStr)
  | some d => asMap d

/-- The expression `(*jsonMap)[key]`: the nil interface when the key is absent
or the map is nil. -/
def mapIndex (jsonMap : Option (List (String × JSON))) (key : String) : JSON :=
  match jsonMap with
  | none => .null
  | some kvs => (lookupKey key kvs).getD .null

/-! ## The program -/

/-- The function `isListKey`: the pattern matches somewhere in the key. -/
def isListKey (key : String) : Bool :=
  (findListKey key.toList).isSome

/-- The function `getIndexFromKey`: the integer of the leftmost match, or `-1` when there
is no match or `strconv.Atoi` fails. -/
def getIndexFromKey (key : String) : Int :=
  match findListKey key.toList with
  | some g =>
    match atoi g with
    | none => -1
    | some index => index
  | none => -1

/-- The function `getList`. -/
def getList (jsonStr key : String) : JSON × Option GoError :=
  let index := getIndexFromKey key
  match unmarshalList jsonStr with
  | .error err => (.null, some err)
  | .ok jsonList =>
    let index := if index < 0 then (jsonList.length : Int) + index else index
    if index ≥ (jsonList.length : Int) ∨ index < 0 then
      (.null, some .indexOutOfBound)
    else (jsonList.getD index.toNat .null, none)

/-- The function `getMap`. -/
def getMap (jsonStr key : String) : JSON × Option GoError :=
  match unmarshalMap jsonStr with
  | .error err => (.null, some err)
  | .ok jsonMap => (mapIndex jsonMap key, none)

/-- The function `getNewVal`. -/
def getNewVal (key jsonStr : String) : JSON × Option GoError :=
  if isListKey key then getList jsonStr key
  else getMap jsonStr key

/-- The function `get`. -/
def get (jsonStr : String) : List String → JSON × Option GoError
  | [] => (.null, some (.keyNotFound jsonStr []))
  | key :: newKeys =>
    match getNewVal key jsonStr with
    | (_, some err) => (.null, some err)
    | (newVal, none) =>
      if newKeys.length = 0 then (newVal, none)
      else
        match jsonMarshal newVal with
        | .error err => (.null, some err)
        | .ok newJsonBytes => get newJsonBytes newKeys

/-- The function `Get`. -/
def Get (jsonStr key : String) : JSON × Option GoError :=
  let keys := stringsSplit key
  match get jsonStr keys with
  | (val, some err) => (val, some (.cannotFetch key jsonStr err))
  | (val, none) => (val, none)

/-- The function `setList`.  The recursive call `setNewVal(string(subJsonByte), keys, val)`
is the argument `recur`, applied to the text of the sub-value. -/
def setList (jsonStr key : String) (keys : List String) (val : JSON)
    (recur : String → Exec (JSON × Option GoError)) : Exec (JSON × Option GoError) :=
  let index := getIndexFromKey key
  match unmarshalList jsonStr with
  | .error err => .ret (.null, some err)
  | .ok jsonList =>
    let index := if index < 0 then (jsonList.length : Int) + index else index
    if keys.length = 0 then
      if index < 0 ∨ index ≥ (jsonList.length : Int) then
        .panic (.indexOutOfRange index jsonList.length)
      else .ret (.arr (jsonList.set index.toNat val), none)
    else if index < 0 ∨ index ≥ (jsonList.length : Int) then
      .panic (.indexOutOfRange index jsonList.length)
    else
      match jsonMarshal (jsonList.getD index.toNat .null) with
      | .error err => .ret (.null, some err)
      | .ok subJsonByte =>
        match recur subJsonByte with
        | .panic p => .panic p
        | .ret (_, some err) => .ret (.null, some err)
        | .ret (newSubVal, none) => .ret (.arr (jsonList.set index.toNat newSubVal), none)

/-- The function `setMap`.  The recursive call `setNewVal(string(subJsonByte), keys, val)`
is the argument `recur`, applied to the text of the sub-value. -/
def setMap (jsonStr key : String) (keys : List String) (val : JSON)
    (recur : String → Exec (JSON × Option GoError)) : Exec (JSON × Option GoError) :=
  match unmarshalMap jsonStr with
  | .error err => .ret (.null, some err)
  | .ok jsonMap =>
    if keys.length = 0 then
      match jsonMap with
      | none => .panic .nilMapAssign
      | some kvs => .ret (.obj (insertKey key val kvs), none)
    else
      match jsonMarshal (mapIndex jsonMap key) with
      | .error err => .ret (.null, some err)
      | .ok subJsonByte =>
        match recur subJsonByte with
        | .panic p => .panic p
        | .ret (_, some err) => .ret (.null, some err)
        | .ret (newSubVal, none) =>
          match jsonMap with
          | none => .panic .nilMapAssign
          | some kvs => .ret (.obj (insertKey key newSubVal kvs), none)

/-- The function `setNewVal`.  On an empty key list `keys[0]` is out of range. -/
def setNewVal (jsonStr : String) : List String → JSON → Exec (JSON × Option GoError)
  | [], _ => .panic (.indexOutOfRange 0 0)
  | key :: newKeys, val =>
    if isListKey key then
      setList jsonStr key newKeys val (fun sub => setNewVal sub newKeys val)
    else
      setMap jsonStr key newKeys val (fun sub => setNewVal sub newKeys val)

/-- The function `set`. -/
def set (jsonStr : String) (keys : List String) (val : JSON) : Exec (String × Option GoError) :=
  if keys.length = 0 then .ret (jsonStr, some (.keyNotFound jsonStr keys))
  else
    match setNewVal jsonStr keys val with
    | .panic p => .panic p
    | .ret (_, some err) => .ret (jsonStr, some err)
    | .ret (newVal, none) =>
      match jsonMarshal newVal with
      | .error err => .ret (jsonStr, some err)
      | .ok newJsonBytes => .ret (newJsonBytes, none)

/-- The function `Set`. -/
def Set (jsonStr key : String) (val : JSON) : Exec (String × Option GoError) :=
  let keys := stringsSplit key
  match set jsonStr keys val with
  | .panic p => .panic p
  | .ret (newJsonStr, some err) => .ret (newJsonStr, some (.cannotFetch key jsonStr err))
  | .ret (newJsonStr, none) => .ret (newJsonStr, none)

/-- The variable `jsonSample`: the sample document of the program. -/
def jsonSample : String :=
  "\n\x7b\n\t\"name\": \"Naruto\",\n\t\"hobby\": [\n\t\t\x7b\n\t\t\t\"name\": \"eating ramen\",\n\t\t\t\"description\": \"makan ichiraku ramen\"\n\t\t\x7d,\n\t\t\x7b\n\t\t\t\"name\": \"vandalism\",\n\t\t\t\"description\": \"coret-coret patung hokage\"\n\t\t\x7d\n\t]\n\x7d\n"

/-! ## Auxiliary notions used in the proofs -/

/-- Every key of the list is below `k`. -/
def keysBelow (k : String) (m : List (String × JSON)) : Prop :=
  ∀ p ∈ m, keyLt p.1 k = true

/-- Every key of the list is above `k`. -/
def keysAbove (k : String) (m : List (String × JSON)) : Prop :=
  ∀ p ∈ m, keyLt k p.1 = true

/-- The input starts with a decimal digit. -/
def headIsDigit : List Char → Bool
  | [] => false
  | c :: _ => isDigit c

/-- A number token cannot go on into the input: it is empty or starts with a
character that is not a digit, a point or an exponent letter. -/
def numberEnds : List Char → Bool
  | [] => true
  | c :: _ => !isDigit c && !decide (c = '.') && !decide (c = 'e') && !decide (c = 'E')

mutual
/-- The value that the text `json.Marshal` writes for a well-formed value
denotes: each `float64` is replaced by the shortest decimal written for it. -/
def JSON.asWritten : JSON → JSON
  | .null => .null
  | .bool b => .bool b
  | .num n => .num (shortest n)
  | .str s => .str s
  | .arr xs => .arr (asWrittenList xs)
  | .obj kvs => .obj (asWrittenMembers kvs)
/-- The elements as written. -/
def asWrittenList : List JSON → List JSON
  | [] => []
  | x :: t => x.asWritten :: asWrittenList t
/-- The members as written. -/
def asWrittenMembers : List (String × JSON) → List (String × JSON)
  | [] => []
  | (k, x) :: t => (k, x.asWritten) :: asWrittenMembers t
end

mutual
/-- Number of nested decoder calls that decoding the text of a value takes. -/
def JSON.weight : JSON → Nat
  | .null => 1
  | .bool _ => 1
  | .num _ => 1
  | .str _ => 1
  | .arr xs => 1 + weightList xs
  | .obj kvs => 1 + weightMembers kvs
/-- Decoder calls for the elements of an array. -/
def weightList : List JSON → Nat
  | [] => 0
  | x :: t => 1 + x.weight + weightList t
/-- Decoder calls for the members of an object. -/
def weightMembers : List (String × JSON) → Nat
  | [] => 0
  | (_, x) :: t => 1 + x.weight + weightMembers t
end

/-! ## Value-level counterparts

The program re-encodes each sub-value to text and decodes it again at the next
level.  The functions below do the same walk directly on the decoded value;
the proofs show that the program computes exactly these. -/

/-- Sign-normalised index: `len + index` for a negative index. -/
def normIndex (index : Int) (len : Nat) : Int :=
  if index < 0 then (len : Int) + index else index

/-- One level of `get` on a decoded value: what `getNewVal` returns on the text
of `d`. -/
def stepVal (key : String) (d : JSON) : JSON × Option GoError :=
  if isListKey key then
    match asList d with
    | .error err => (.null, some err)
    | .ok xs =>
      if normIndex (getIndexFromKey key) xs.length ≥ (xs.length : Int) ∨
          normIndex (getIndexFromKey key) xs.length < 0 then
        (.null, some .indexOutOfBound)
      else (xs.getD (normIndex (getIndexFromKey key) xs.length).toNat .null, none)
  else
    match asMap d with
    | .error err => (.null, some err)
    | .ok m => (mapIndex m key, none)

/-- The walk of `get` on a decoded value; the empty key list yields the value
itself. -/
def getVal : JSON → List String → JSON × Option GoError
  | d, [] => (d, none)
  | d, key :: newKeys =>
    match stepVal key d with
    | (_, some err) => (.null, some err)
    | (newVal, none) => getVal newVal newKeys

/-- The walk of `setNewVal` on a decoded value. -/
def setVal : JSON → List String → JSON → Exec (JSON × Option GoError)
  | _, [], _ => .panic (.indexOutOfRange 0 0)
  | d, key :: newKeys, val =>
    if isListKey key then
      match asList d with
      | .error err => .ret (.null, some err)
      | .ok xs =>
        if normIndex (getIndexFromKey key) xs.length < 0 ∨
            normIndex (getIndexFromKey key) xs.length ≥ (xs.length : Int) then
          .panic (.indexOutOfRange (normIndex (getIndexFromKey key) xs.length) xs.length)
        else if newKeys.length = 0 then
          .ret (.arr (xs.set (normIndex (getIndexFromKey key) xs.length).toNat val), none)
        else
          match setVal (xs.getD (normIndex (getIndexFromKey key) xs.length).toNat .null)
              newKeys val with
          | .panic p => .panic p
          | .ret (_, some err) => .ret (.null, some err)
          | .ret (newSubVal, none) =>
            .ret (.arr (xs.set (normIndex (getIndexFromKey key) xs.length).toNat newSubVal), none)
    else
      match asMap d with
      | .error err => .ret (.null, some err)
      | .ok m =>
        if newKeys.length = 0 then
          match m with
          | none => .panic .nilMapAssign
          | some kvs => .ret (.obj (insertKey key val kvs), none)
        else
          match setVal (mapIndex m key) newKeys val with
          | .panic p => .panic p
          | .ret (_, some err) => .ret (.null, some err)
          | .ret (newSubVal, none) =>
            match m with
            | none => .panic .nilMapAssign
            | some kvs => .ret (.obj (insertKey key newSubVal kvs), none)

/-! ## Addressing, in the words of the specification -/

/-- The value the walk of the program reaches along a path when every segment
resolves to an existing object key or to an in-range array index (after sign
normalisation); `none` when some segment does not.  A segment is an index
segment when the pattern matches somewhere in it, which is how the program
classifies segments, and its index is the one the program extracts. -/
def resolvePath : JSON → List String → Option JSON
  | d, [] => some d
  | d, key :: rest =>
    if isListKey key then
      match d with
      | .arr xs =>
        if 0 ≤ normIndex (getIndexFromKey key) xs.length ∧
            normIndex (getIndexFromKey key) xs.length < (xs.length : Int) then
          resolvePath (xs.getD (normIndex (getIndexFromKey key) xs.length).toNat .null) rest
        else none
      | _ => none
    else
      match d with
      | .obj kvs =>
        match lookupKey key kvs with
        | some x => resolvePath x rest
        | none => none
      | _ => none

/-- The integer written in a segment of the exact form `[n]`, the pattern
`^\[-?\d+\]$` of the specification: an opening bracket, an optional `-`, one or
more decimal digits, a closing bracket, and nothing else.  The integer is not
bounded. -/
def indexOfSegment (key : String) : Option Int :=
  match key.toList with
  | '[' :: '-' :: r =>
    match spanDigits r with
    | (ds, [']']) => if ds = [] then none else some (-((digitsToNat ds 0 : Nat) : Int))
    | _ => none
  | '[' :: r =>
    match spanDigits r with
    | (ds, [']']) => if ds = [] then none else some ((digitsToNat ds 0 : Nat) : Int)
    | _ => none
  | _ => none

/-- Whole-segment match of the specification's pattern `^\[-?\d+\]$`. -/
def anchoredListKey (key : String) : Bool :=
  (indexOfSegment key).isSome

/-- Length of the slice that decoding `d` into a `[]interface{}` leaves. -/
def arrLen : JSON → Nat
  | .arr xs => xs.length
  | _ => 0

/-- The program reads two segments as the same slot of the container `d`: both
as index segments with the same sign-normalised index, or both as field
segments with the same key. -/
def walkSameSlot (d : JSON) (s t : String) : Bool :=
  if isListKey s then
    isListKey t &&
      decide (normIndex (getIndexFromKey s) (arrLen d) = normIndex (getIndexFromKey t) (arrLen d))
  else !isListKey t && decide (s = t)

/-- The walk of the program along `q` leaves the walk along `p` at some level
of the document `d`: both read the same slot level by level, down to a level
where they read different slots of the same container. -/
def walkDiverges : JSON → List String → List String → Bool
  | d, s :: ps, t :: qs =>
    if walkSameSlot d s t then
      match stepVal s d with
      | (x, none) => walkDiverges x ps qs
      | (_, some _) => false
    else true
  | _, _, _ => false

/-- The slot a segment addresses in a container, in the words of the
specification: a segment of the form `[n]` addresses the element at the
sign-normalised index `n` of an array, when that is in range; any other
segment addresses the member of an object with that key, when there is one. -/
def slot (key : String) (d : JSON) : Option JSON :=
  match indexOfSegment key with
  | some n =>
    match d with
    | .arr xs =>
      if 0 ≤ normIndex n xs.length ∧ normIndex n xs.length < (xs.length : Int) then
        some (xs.getD (normIndex n xs.length).toNat .null)
      else none
    | _ => none
  | none =>
    match d with
    | .obj kvs => lookupKey key kvs
    | _ => none

/-- The value a path addresses in a document, in the words of the
specification: every segment must resolve to an existing object key or to an
in-range array index; `none` when some segment does not. -/
def addressed : JSON → List String → Option JSON
  | d, [] => some d
  | d, key :: rest =>
    match slot key d with
    | some x => addressed x rest
    | none => none

/-- The path is valid in the document: each segment resolves. -/
def validPath (d : JSON) (keys : List String) : Bool :=
  (addressed d keys).isSome

/-- No field segment of the path contains a bracketed integer: every segment
that is not of the form `[n]` is one in which the pattern of the program
matches nowhere. -/
def fieldsPlain (keys : List String) : Bool :=
  keys.all (fun s => anchoredListKey s || !isListKey s)

/-- The program reads the segment as the specification does: a segment of the
form `[n]` has `n` in the range of a 64-bit `int`, and any other segment
contains no bracketed integer. -/
def plainSegment (s : String) : Bool :=
  match indexOfSegment s with
  | some n => decide (-(2 ^ 63 : Int) ≤ n) && decide (n < 2 ^ 63)
  | none => !isListKey s

/-- Two segments address the same slot of the container `d`, in the words of
the specification: both are of the form `[n]` with the same sign-normalised
index, or neither is and they are the same key. -/
def sameSlot (d : JSON) (s t : String) : Bool :=
  match indexOfSegment s, indexOfSegment t with
  | some a, some b => decide (normIndex a (arrLen d) = normIndex b (arrLen d))
  | none, none => decide (s = t)
  | _, _ => false

/-- The path `q` diverges from the path `p` at some level of the document `d`:
both address the same slot level by level, down to a level where they address
different slots of the same container (another key, another index, or a slot of
the other kind). -/
def diverges : JSON → List String → List String → Bool
  | d, s :: ps, t :: qs =>
    if sameSlot d s t then
      match slot s d with
      | some x => diverges x ps qs
      | none => false
    else true
  | _, _, _ => false

/-- The container `d'` is `d` with the slot of `key` holding `w`: the element
at the in-range index of an array replaced, or the key of an object
assigned. -/
def Written (key : String) (d w d' : JSON) : Prop :=
  (isListKey key = true ∧ ∃ xs, d = .arr xs ∧
      0 ≤ normIndex (getIndexFromKey key) xs.length ∧
      normIndex (getIndexFromKey key) xs.length < (xs.length : Int) ∧
      d' = .arr (xs.set (normIndex (getIndexFromKey key) xs.length).toNat w)) ∨
  (isListKey key = false ∧ ∃ kvs, d = .obj kvs ∧ d' = .obj (insertKey key w kvs))

/-- The value `jsonSample` decodes to. -/
def jsonSampleValue : JSON :=
  .obj [("hobby", .arr [
      .obj [("description", .str "makan ichiraku ramen"), ("name", .str "eating ramen")],
      .obj [("description", .str "coret-coret patung hokage"), ("name", .str "vandalism")]]),
    ("name", .str "Naruto")]

/-- What `Get` makes of the result of `get`: an error is wrapped with the key
and the document. -/
def wrapGet (key jsonStr : String) (r : JSON × Option GoError) : JSON × Option GoError :=
  match r with
  | (val, some err) => (val, some (.cannotFetch key jsonStr err))
  | (val, none) => (val, none)

/-- The value does not have the shape the segment needs: a string, number or
boolean under any segment, an array under a field segment, an object under an
index segment. -/
def shapeMismatch (x : JSON) (s : String) : Bool :=
  match x with
  | .str _ => true
  | .num _ => true
  | .bool _ => true
  | .arr _ => !isListKey s
  | .obj _ => isListKey s
  | .null => false

/-- The container `d` with the slot of `key` holding `w`: the element at the
sign-normalised index of an array replaced, or the key of an object assigned.
Other values are left as they are. -/
def writeSlot (key : String) (d w : JSON) : JSON :=
  match d with
  | .arr xs => .arr (xs.set (normIndex (getIndexFromKey key) xs.length).toNat w)
  | .obj kvs => .obj (insertKey key w kvs)
  | other => other

/-- The underlying cause of an error of `Get` or `Set`: what `fmt.Errorf`
wrapped with the key and the document. -/
def errCause : GoError → GoError
  | .cannotFetch _ _ cause => cause
  | err => err

/-! ## Key order -/

theorem char_eq_of_toNat {a b : Char} (h : a.toNat = b.toNat) : a = b := by
  rw [← Char.ofNat_toNat a, ← Char.ofNat_toNat b, h]

theorem ltChars_irrefl (a : List Char) : ltChars a a = false := by
  induction a with
  | nil => rfl
  | cons c cs ih => simp [ltChars, ih]

theorem ltChars_trans : ∀ (a b c : List Char),
    ltChars a b = true → ltChars b c = true → ltChars a c = true
  | _, [], _, h, _ => by simp [ltChars] at h
  | _, _ :: _, [], _, h => by simp [ltChars] at h
  | [], _ :: _, _ :: _, _, _ => by simp [ltChars]
  | x :: xs, y :: ys, z :: zs, h1, h2 => by
    simp only [ltChars] at h1 h2 ⊢
    by_cases hxy : x.toNat < y.toNat
    · by_cases hyz : y.toNat < z.toNat
      · have : x.toNat < z.toNat := by omega
        simp [this]
      · simp only [hyz, if_false] at h2
        by_cases hyz' : y.toNat = z.toNat
        · have : x.toNat < z.toNat := by omega
          simp [this]
        · simp [hyz'] at h2
    · simp only [hxy, if_false] at h1
      by_cases hxy' : x.toNat = y.toNat
      · simp only [hxy', if_true] at h1
        by_cases hyz : y.toNat < z.toNat
        · have : x.toNat < z.toNat := by omega
          simp [this]
        · simp only [hyz, if_false] at h2
          by_cases hyz' : y.toNat = z.toNat
          · simp only [hyz', if_true] at h2
            have h3 : ¬ x.toNat < z.toNat := by omega
            have h4 : x.toNat = z.toNat := by omega
            rw [if_neg h3, if_pos h4]
            exact ltChars_trans xs ys zs h1 h2
          · simp [hyz'] at h2
      · simp [hxy'] at h1

theorem ltChars_total : ∀ (a b : List Char),
    ltChars a b = false → a ≠ b → ltChars b a = true
  | [], [], _, h => absurd rfl h
  | [], _ :: _, h, _ => by simp [ltChars] at h
  | _ :: _, [], _, _ => by simp [ltChars]
  | x :: xs, y :: ys, h, hne => by
    simp only [ltChars] at h ⊢
    by_cases hxy : x.toNat < y.toNat
    · simp [hxy] at h
    · simp only [hxy, if_false] at h
      by_cases hxy' : x.toNat = y.toNat
      · simp only [hxy', if_true] at h
        have hc : x = y := char_eq_of_toNat hxy'
        have hne' : xs ≠ ys := fun e => hne (by rw [hc, e])
        have h3 : ¬ y.toNat < x.toNat := by omega
        rw [if_neg h3, if_pos hxy'.symm]
        exact ltChars_total xs ys h hne'
      · have : y.toNat < x.toNat := by omega
        simp [this]

theorem keyLt_irrefl (a : String) : keyLt a a = false := ltChars_irrefl _

theorem keyLt_trans {a b c : String} (h1 : keyLt a b = true) (h2 : keyLt b c = true) :
    keyLt a c = true := ltChars_trans _ _ _ h1 h2

theorem keyLt_ne {a b : String} (h : keyLt a b = true) : a ≠ b := by
  intro e
  rw [e, keyLt_irrefl] at h
  exact Bool.false_ne_true h

theorem keyLt_asymm {a b : String} (h : keyLt a b = true) : keyLt b a = false := by
  cases hb : keyLt b a with
  | false => rfl
  | true =>
    have := keyLt_trans h hb
    rw [keyLt_irrefl] at this
    exact absurd this Bool.false_ne_true

theorem keyLt_total {a b : String} (h : keyLt a b = false) (hne : a ≠ b) : keyLt b a = true :=
  ltChars_total _ _ h (fun e => hne (String.ext e))

/-! ## Maps in key order -/

theorem lookupKey_insertKey_self (k : String) (v : JSON) (m : List (String × JSON)) :
    lookupKey k (insertKey k v m) = some v := by
  induction m with
  | nil => simp [insertKey, lookupKey]
  | cons p t ih =>
    obtain ⟨k', v'⟩ := p
    simp only [insertKey]
    split
    · simp [lookupKey]
    · split
      · simp [lookupKey]
      · rename_i h1 h2
        simp [lookupKey, h2, ih]

theorem lookupKey_insertKey_ne {k k' : String} (h : k' ≠ k) (v : JSON)
    (m : List (String × JSON)) :
    lookupKey k' (insertKey k v m) = lookupKey k' m := by
  induction m with
  | nil => simp [insertKey, lookupKey, h]
  | cons p t ih =>
    obtain ⟨k1, v1⟩ := p
    simp only [insertKey]
    split
    · simp [lookupKey, h]
    · split
      · rename_i h1 h2
        subst h2
        simp [lookupKey, h]
      · simp [lookupKey, ih]

theorem sortedKeys_cons {k : String} {v : JSON} {m : List (String × JSON)} :
    sortedKeys ((k, v) :: m) = true ↔ keysAbove k m ∧ sortedKeys m = true := by
  induction m generalizing k v with
  | nil => simp [sortedKeys, keysAbove]
  | cons p t ih =>
    obtain ⟨k1, v1⟩ := p
    simp only [sortedKeys, Bool.and_eq_true]
    constructor
    · rintro ⟨h1, h2⟩
      refine ⟨?_, h2⟩
      intro q hq
      rcases List.mem_cons.1 hq with rfl | hq
      · exact h1
      · exact keyLt_trans h1 ((ih.1 h2).1 q hq)
    · rintro ⟨h1, h2⟩
      exact ⟨h1 (k1, v1) (List.mem_cons_self _ _), h2⟩

theorem insertKey_mem {k : String} {v : JSON} {m : List (String × JSON)} {p : String × JSON}
    (hp : p ∈ insertKey k v m) : p = (k, v) ∨ p ∈ m := by
  induction m with
  | nil => simpa [insertKey] using hp
  | cons q t ih =>
    obtain ⟨k1, v1⟩ := q
    simp only [insertKey] at hp
    split at hp
    · rcases List.mem_cons.1 hp with h | h
      · exact Or.inl h
      · exact Or.inr h
    · split at hp
      · rcases List.mem_cons.1 hp with h | h
        · exact Or.inl h
        · exact Or.inr (List.mem_cons_of_mem _ h)
      · rcases List.mem_cons.1 hp with h | h
        · exact Or.inr (h ▸ List.mem_cons_self _ _)
        · rcases ih h with h | h
          · exact Or.inl h
          · exact Or.inr (List.mem_cons_of_mem _ h)

theorem sortedKeys_insertKey (k : String) (v : JSON) {m : List (String × JSON)}
    (hm : sortedKeys m = true) : sortedKeys (insertKey k v m) = true := by
  induction m with
  | nil => simp [insertKey, sortedKeys]
  | cons q t ih =>
    obtain ⟨k1, v1⟩ := q
    have hq := sortedKeys_cons.1 hm
    simp only [insertKey]
    split
    · rename_i h1
      refine sortedKeys_cons.2 ⟨?_, hm⟩
      intro p hp
      rcases List.mem_cons.1 hp with rfl | hp
      · exact h1
      · exact keyLt_trans h1 (hq.1 p hp)
    · split
      · rename_i h1 h2
        subst h2
        exact sortedKeys_cons.2 hq
      · rename_i h1 h2
        refine sortedKeys_cons.2 ⟨?_, ih hq.2⟩
        intro p hp
        rcases insertKey_mem hp with rfl | hp
        · exact keyLt_total (by simpa using h1) h2
        · exact hq.1 p hp

theorem insertKey_of_keysBelow {k : String} (v : JSON) {m : List (String × JSON)}
    (h : keysBelow k m) : insertKey k v m = m ++ [(k, v)] := by
  induction m with
  | nil => rfl
  | cons q t ih =>
    obtain ⟨k1, v1⟩ := q
    have h1 : keyLt k1 k = true := h (k1, v1) (List.mem_cons_self _ _)
    have h2 : keyLt k k1 = false := keyLt_asymm h1
    have h3 : k ≠ k1 := fun e => keyLt_ne h1 e.symm
    simp only [insertKey, h2, h3, if_false, Bool.false_eq_true, List.cons_append]
    rw [ih (fun p hp => h p (List.mem_cons_of_mem _ hp))]

theorem foldl_insertKey_sorted (m acc : List (String × JSON))
    (hb : ∀ p ∈ acc, ∀ q ∈ m, keyLt p.1 q.1 = true) (hm : sortedKeys m = true) :
    m.foldl (fun a kv => insertKey kv.1 kv.2 a) acc = acc ++ m := by
  induction m generalizing acc with
  | nil => simp
  | cons q t ih =>
    obtain ⟨k, v⟩ := q
    have hq := sortedKeys_cons.1 hm
    simp only [List.foldl_cons]
    rw [insertKey_of_keysBelow v (fun p hp => hb p hp (k, v) (List.mem_cons_self _ _))]
    rw [ih _ ?_ hq.2]
    · simp
    · intro p hp r hr
      rcases List.mem_append.1 hp with hp | hp
      · exact hb p hp r (List.mem_cons_of_mem _ hr)
      · rw [List.mem_singleton.1 hp]
        exact hq.1 r hr

theorem buildMap_of_sorted {m : List (String × JSON)} (hm : sortedKeys m = true) :
    buildMap m = m := by
  unfold buildMap
  rw [foldl_insertKey_sorted m [] (fun p hp => absurd hp (List.not_mem_nil _)) hm]
  rfl

theorem sortedKeys_foldl (m acc : List (String × JSON)) (ha : sortedKeys acc = true) :
    sortedKeys (m.foldl (fun a kv => insertKey kv.1 kv.2 a) acc) = true := by
  induction m generalizing acc with
  | nil => simpa
  | cons q t ih => exact ih _ (sortedKeys_insertKey _ _ ha)

theorem sortedKeys_buildMap (m : List (String × JSON)) : sortedKeys (buildMap m) = true :=
  sortedKeys_foldl m [] rfl

/-! ## Decimal digits -/

theorem digitChar_spec (d : Nat) (h : d < 10) :
    isDigit (digitChar d) = true ∧ digitVal (digitChar d) = d ∧
      (digitChar d = '0' → d = 0) ∧ digitChar d ≠ '-' := by
  interval_cases d <;> refine ⟨rfl, rfl, ?_, ?_⟩ <;> decide

theorem isDigit_digitChar (d : Nat) (h : d < 10) : isDigit (digitChar d) = true :=
  (digitChar_spec d h).1

theorem digitVal_digitChar (d : Nat) (h : d < 10) : digitVal (digitChar d) = d :=
  (digitChar_spec d h).2.1

theorem natToDigits_acc (f n : Nat) (acc : List Char) :
    natToDigits f n acc = natToDigits f n [] ++ acc := by
  induction f generalizing n acc with
  | zero => simp [natToDigits]
  | succ f ih =>
    simp only [natToDigits]
    split
    · simp
    · rw [ih, ih (n / 10) [digitChar (n % 10)]]
      simp

theorem digitsToNat_append (xs ys : List Char) (a : Nat) :
    digitsToNat (xs ++ ys) a = digitsToNat ys (digitsToNat xs a) := by
  induction xs generalizing a with
  | nil => rfl
  | cons c cs ih => simp [digitsToNat, ih]

theorem digitsToNat_natToDigits (f n : Nat) (h : n < f) :
    digitsToNat (natToDigits f n []) 0 = n := by
  induction f generalizing n with
  | zero => omega
  | succ f ih =>
    simp only [natToDigits]
    split
    · rename_i h10
      simp [digitsToNat, digitVal_digitChar n h10]
    · rename_i h10
      rw [natToDigits_acc, digitsToNat_append, ih (n / 10) (by omega)]
      simp only [digitsToNat]
      rw [digitVal_digitChar _ (Nat.mod_lt _ (by decide))]
      omega

theorem all_isDigit_natToDigits (f n : Nat) (acc : List Char)
    (hacc : acc.all isDigit = true) : (natToDigits f n acc).all isDigit = true := by
  induction f generalizing n acc with
  | zero => simpa only [natToDigits] using hacc
  | succ f ih =>
    simp only [natToDigits]
    split
    · rename_i h10
      simp only [List.all_cons, isDigit_digitChar n h10, hacc, Bool.and_self]
    · apply ih
      simp only [List.all_cons, isDigit_digitChar _ (Nat.mod_lt n (by decide : 0 < 10)), hacc,
        Bool.and_self]

theorem natToDigits_head (f n : Nat) (acc : List Char) (hpos : 0 < n) (h : n < f) :
    ∃ d t, natToDigits f n acc = d :: t ∧ isDigit d = true ∧ d ≠ '0' ∧ d ≠ '-' := by
  induction f generalizing n acc with
  | zero => omega
  | succ f ih =>
    simp only [natToDigits]
    split
    · rename_i h10
      have hs := digitChar_spec n h10
      exact ⟨_, _, rfl, hs.1, fun e => by have := hs.2.2.1 e; omega, hs.2.2.2⟩
    · exact ih (n / 10) _ (by omega) (by omega)

theorem showNat_zero : showNat 0 = ['0'] := rfl

theorem digitsToNat_showNat (n : Nat) : digitsToNat (showNat n) 0 = n :=
  digitsToNat_natToDigits (n + 1) n (Nat.lt_succ_self n)

theorem all_isDigit_showNat (n : Nat) : (showNat n).all isDigit = true :=
  all_isDigit_natToDigits (n + 1) n [] rfl

theorem showNat_head (n : Nat) (hpos : 0 < n) :
    ∃ d t, showNat n = d :: t ∧ isDigit d = true ∧ d ≠ '0' ∧ d ≠ '-' :=
  natToDigits_head (n + 1) n [] hpos (Nat.lt_succ_self n)

theorem spanDigits_append (ds rest : List Char) (hds : ds.all isDigit = true)
    (hrest : headIsDigit rest = false) : spanDigits (ds ++ rest) = (ds, rest) := by
  induction ds with
  | nil =>
    cases rest with
    | nil => rfl
    | cons c t =>
      simp only [headIsDigit] at hrest
      simp [spanDigits, hrest]
  | cons c cs ih =>
    simp only [List.all_cons, Bool.and_eq_true] at hds
    simp [spanDigits, hds.1, ih hds.2]

theorem spanDigits_spec (cs : List Char) :
    (spanDigits cs).1 ++ (spanDigits cs).2 = cs ∧ (spanDigits cs).1.all isDigit = true ∧
      headIsDigit (spanDigits cs).2 = false := by
  induction cs with
  | nil => simp [spanDigits, headIsDigit]
  | cons c t ih =>
    simp only [spanDigits]
    by_cases hc : isDigit c = true
    · simp [hc, ih.1, ih.2.1, ih.2.2]
    · simp [hc, headIsDigit]

/-! ## Decimals in lowest terms -/

theorem stripZeros_of_mod {m : Nat} (h : m % 10 ≠ 0) (f : Nat) (e : Int) :
    stripZeros f m e = (m, e) := by
  cases f with
  | zero => rfl
  | succ f => rw [stripZeros, if_neg h]

theorem stripZeros_mul_pow {m : Nat} (h : m % 10 ≠ 0) (k : Nat) :
    ∀ (f : Nat) (e : Int), k ≤ f → stripZeros f (m * 10 ^ k) e = (m, e + k) := by
  induction k with
  | zero =>
    intro f e _
    rw [pow_zero, Nat.mul_one, stripZeros_of_mod h]
    simp
  | succ k ih =>
    intro f e hf
    obtain ⟨f', rfl⟩ : ∃ f', f = f' + 1 := ⟨f - 1, by omega⟩
    have h0 : m * 10 ^ (k + 1) % 10 = 0 := by
      rw [pow_succ, ← Nat.mul_assoc]
      exact Nat.mul_mod_left _ _
    have hd : m * 10 ^ (k + 1) / 10 = m * 10 ^ k := by
      rw [pow_succ, ← Nat.mul_assoc]
      exact Nat.mul_div_cancel _ (by decide)
    rw [stripZeros, if_pos h0, hd, ih f' (e + 1) (by omega)]
    congr 1
    push_cast
    omega

theorem stripZeros_mod (f : Nat) :
    ∀ (m : Nat) (e : Int), m ≠ 0 → m ≤ f → (stripZeros f m e).1 % 10 ≠ 0 := by
  induction f with
  | zero => intro m e hm hf; omega
  | succ f ih =>
    intro m e hm hf
    rw [stripZeros]
    split
    · rename_i h0
      exact ih (m / 10) (e + 1) (by omega) (by omega)
    · rename_i h0
      exact h0

/-- A decimal in lowest terms is its own lowest terms. -/
theorem norm_of_canonical {c : Dec} (h : c.canonical = true) : Dec.norm c.neg c.m c.e = c := by
  obtain ⟨neg, m, e⟩ := c
  unfold Dec.canonical at h
  unfold Dec.norm
  by_cases hm : m = 0
  · subst hm
    simp only [if_true, decide_eq_true_eq] at h
    simp only [if_true]
    rw [h]
  · simp only [hm, if_false, decide_eq_true_eq] at h
    simp only [hm, if_false, stripZeros_of_mod h]

theorem canonical_norm (neg : Bool) (m : Nat) (e : Int) : (Dec.norm neg m e).canonical = true := by
  unfold Dec.norm
  by_cases hm : m = 0
  · simp [hm, Dec.canonical]
  · simp only [hm, if_false]
    have h1 := stripZeros_mod m m e hm (Nat.le_refl m)
    have h2 : (stripZeros m m e).1 ≠ 0 := fun h0 => h1 (by rw [h0])
    simp only [Dec.canonical, h2, if_false, decide_eq_true_eq]
    exact h1

/-- Trailing zeros of the digits go to the exponent. -/
theorem norm_mul_pow (neg : Bool) {m : Nat} (hm : m % 10 ≠ 0) (k : Nat) (e : Int) :
    Dec.norm neg (m * 10 ^ k) e = ⟨neg, m, e + k⟩ := by
  have hm0 : m ≠ 0 := fun h => hm (by rw [h])
  have hpos : 0 < 10 ^ k := Nat.pow_pos (by decide)
  have hne : m * 10 ^ k ≠ 0 := Nat.mul_ne_zero hm0 (by omega)
  have hk : k ≤ m * 10 ^ k := by
    have h1 : k < 10 ^ k := Nat.lt_pow_self (by decide) k
    have h2 : 10 ^ k ≤ m * 10 ^ k := Nat.le_mul_of_pos_left _ (by omega)
    omega
  unfold Dec.norm
  simp only [hne, if_false, stripZeros_mul_pow hm k _ e hk]

theorem norm_zero (neg : Bool) (e : Int) : Dec.norm neg 0 e = ⟨neg, 0, 0⟩ := by
  simp [Dec.norm]

/-! ## `ParseFloat` and the shortest digits -/

theorem isF64_zero (neg : Bool) : (Dec.mk neg 0 0).isF64 = true := by
  simp [Dec.isF64, Dec.canonical]

theorem isF64_canonical {c : Dec} (h : c.isF64 = true) : c.canonical = true := by
  unfold Dec.isF64 at h
  rw [Bool.and_eq_true] at h
  exact h.1

/-- The function `ParseFloat` returns a `float64` as it is. -/
theorem parseFloat_of_isF64 {c : Dec} (h : c.isF64 = true) : parseFloat c = some c := by
  rw [parseFloat, if_pos h]

/-- Whatever `ParseFloat` returns is a `float64`. -/
theorem isF64_of_parseFloat {c x : Dec} (h : parseFloat c = some x) : x.isF64 = true := by
  unfold parseFloat at h
  split at h
  · rename_i hc
    simp only [Option.some.injEq] at h
    rw [← h]; exact hc
  · split at h
    · simp only [Option.some.injEq] at h
      rw [← h]; exact isF64_zero _
    · split at h
      · simp at h
      · split at h
        · simp only [Option.some.injEq] at h
          rw [← h]; exact isF64_zero _
        · split at h
          · rename_i hr
            simp only [Option.some.injEq] at h
            rw [← h]; exact hr
          · simp at h

theorem shortestFrom_spec (c : Dec) (hc : c.isF64 = true) (ds : List Char) (f : Nat) :
    ∀ n, parseFloat (shortestFrom c ds f n) = some c ∧
      (shortestFrom c ds f n).canonical = true := by
  induction f with
  | zero =>
    intro n
    exact ⟨parseFloat_of_isF64 hc, isF64_canonical hc⟩
  | succ f ih =>
    intro n
    rw [shortestFrom]
    split
    · exact ⟨parseFloat_of_isF64 hc, isF64_canonical hc⟩
    · split
      · rename_i hdown
        split
        · rename_i hup
          split
          · exact ⟨hdown, canonical_norm _ _ _⟩
          · exact ⟨hup, canonical_norm _ _ _⟩
        · exact ⟨hdown, canonical_norm _ _ _⟩
      · split
        · rename_i hup
          exact ⟨hup, canonical_norm _ _ _⟩
        · exact ih (n + 1)

/-- The shortest digits of a `float64` are read back by `ParseFloat` as that
`float64`. -/
theorem parseFloat_shortest {c : Dec} (hc : c.isF64 = true) : parseFloat (shortest c) = some c := by
  unfold shortest
  split
  · exact parseFloat_of_isF64 hc
  · exact (shortestFrom_spec c hc _ _ 1).1

theorem canonical_shortest {c : Dec} (hc : c.isF64 = true) : (shortest c).canonical = true := by
  unfold shortest
  split
  · exact isF64_canonical hc
  · exact (shortestFrom_spec c hc _ _ 1).2

/-! ## Number tokens -/

theorem numberEnds_head {rest : List Char} (h : numberEnds rest = true) :
    headIsDigit rest = false := by
  cases rest with
  | nil => rfl
  | cons c t =>
    simp only [numberEnds, Bool.and_eq_true, Bool.not_eq_true'] at h
    exact h.1.1.1

theorem parseFrac_end {rest : List Char} (h : numberEnds rest = true) :
    parseFrac rest = some ([], rest) := by
  cases rest with
  | nil => rfl
  | cons c t =>
    simp only [numberEnds, Bool.and_eq_true, Bool.not_eq_true', decide_eq_false_iff_not] at h
    unfold parseFrac
    split
    · rename_i heq
      simp only [List.cons.injEq] at heq
      exact absurd heq.1 h.1.1.2
    · rfl

theorem parseExp_end {rest : List Char} (h : numberEnds rest = true) :
    parseExp rest = some (0, rest) := by
  cases rest with
  | nil => rfl
  | cons c t =>
    simp only [numberEnds, Bool.and_eq_true, Bool.not_eq_true', decide_eq_false_iff_not] at h
    have hn : ¬ (c = 'e' ∨ c = 'E') := by
      intro hc
      rcases hc with hc | hc
      · exact h.1.2 hc
      · exact h.2 hc
    unfold parseExp
    dsimp only
    rw [if_neg hn]

theorem digitsToNat_replicate (k a : Nat) :
    digitsToNat (List.replicate k '0') a = a * 10 ^ k := by
  induction k generalizing a with
  | zero => simp [digitsToNat]
  | succ k ih =>
    rw [List.replicate_succ, digitsToNat, ih]
    have : digitVal '0' = 0 := rfl
    rw [this, pow_succ]
    ring

theorem all_isDigit_replicate (k : Nat) : (List.replicate k '0').all isDigit = true := by
  induction k with
  | zero => rfl
  | succ k ih =>
    rw [List.replicate_succ, List.all_cons, ih]
    rfl

theorem all_isDigit_append {xs ys : List Char} (hx : xs.all isDigit = true)
    (hy : ys.all isDigit = true) : (xs ++ ys).all isDigit = true := by
  rw [List.all_append, hx, hy]
  rfl

theorem all_isDigit_take {xs : List Char} (hx : xs.all isDigit = true) (n : Nat) :
    (xs.take n).all isDigit = true := by
  rw [List.all_eq_true] at hx ⊢
  intro c hc
  exact hx c (List.mem_of_mem_take hc)

theorem all_isDigit_drop {xs : List Char} (hx : xs.all isDigit = true) (n : Nat) :
    (xs.drop n).all isDigit = true := by
  rw [List.all_eq_true] at hx ⊢
  intro c hc
  exact hx c (List.mem_of_mem_drop hc)

theorem showNat_ne_nil (n : Nat) : showNat n ≠ [] := by
  rcases Nat.eq_zero_or_pos n with h | h
  · subst h; simp [showNat_zero]
  · obtain ⟨d, t, hdt, -⟩ := showNat_head n h
    rw [hdt]; simp

theorem showNat_head_digit (n : Nat) :
    ∃ d t, showNat n = d :: t ∧ isDigit d = true := by
  rcases Nat.eq_zero_or_pos n with h | h
  · subst h; exact ⟨'0', [], rfl, rfl⟩
  · obtain ⟨d, t, hdt, hd, -⟩ := showNat_head n h
    exact ⟨d, t, hdt, hd⟩

theorem isDigit_ne_minus {d : Char} (h : isDigit d = true) : d ≠ '-' := by
  intro e; subst e; exact absurd h (by decide)

theorem parseNumber_of_digit {d : Char} (t : List Char) (h : isDigit d = true) :
    parseNumber (d :: t) = parseUnsigned false (d :: t) := by
  unfold parseNumber
  split
  · rename_i heq
    simp only [List.cons.injEq] at heq
    exact absurd heq.1 (isDigit_ne_minus h)
  · rfl

theorem parseInt_zero (r : List Char) : parseInt ('0' :: r) = some (['0'], r) := by
  simp [parseInt]

theorem parseInt_digits {d : Char} (t rest : List Char) (hd : isDigit d = true) (hd0 : d ≠ '0')
    (ht : t.all isDigit = true) (hr : headIsDigit rest = false) :
    parseInt (d :: (t ++ rest)) = some (d :: t, rest) := by
  have hs := spanDigits_append (d :: t) rest (by rw [List.all_cons, hd, ht]; rfl) hr
  rw [List.cons_append] at hs
  rw [parseInt, if_neg hd0, if_pos hd, hs]

theorem parseFrac_digits (ds rest : List Char) (hne : ds ≠ []) (hds : ds.all isDigit = true)
    (hr : headIsDigit rest = false) :
    parseFrac ('.' :: (ds ++ rest)) = some (ds, rest) := by
  rw [parseFrac, spanDigits_append ds rest hds hr, if_neg hne]

theorem parseFrac_exp (t : List Char) : parseFrac ('e' :: t) = some ([], 'e' :: t) := by
  unfold parseFrac
  split
  · rename_i heq
    simp at heq
  · rfl

/-- The exponent digits after the clean-up are the plain decimal digits. -/
theorem cleanExp_expDigits (n : Nat) : cleanExp (expDigits n) = showNat n := by
  unfold expDigits
  by_cases h : n < 10
  · rw [if_pos h]
    interval_cases n <;> rfl
  · rw [if_neg h]
    obtain ⟨d, t, hdt, hd, hd0, -⟩ := showNat_head n (by omega)
    rw [hdt]
    unfold cleanExp
    split
    · rename_i a b heq
      simp only [List.cons.injEq] at heq
      rw [if_neg (by rw [← heq.1]; exact hd0), heq.1, heq.2]
    · rfl

theorem parseExpDigits_showNat (neg : Bool) (n : Nat) (rest : List Char)
    (hr : headIsDigit rest = false) :
    parseExpDigits neg (showNat n ++ rest) = some (if neg then -(n : Int) else (n : Int), rest) := by
  rw [parseExpDigits, spanDigits_append (showNat n) rest (all_isDigit_showNat _) hr,
    if_neg (showNat_ne_nil n), digitsToNat_showNat]

theorem parseExp_printExp (x : Int) (rest : List Char) (hr : headIsDigit rest = false) :
    parseExp (printExp x ++ rest) = some (x, rest) := by
  unfold printExp
  rw [cleanExp_expDigits]
  by_cases hx : x < 0
  · rw [if_pos hx]
    have h := parseExpDigits_showNat true x.natAbs rest hr
    have hv : -(x.natAbs : Int) = x := by omega
    rw [if_pos rfl, hv] at h
    rw [← h]
    unfold parseExp
    simp
  · rw [if_neg hx]
    have h := parseExpDigits_showNat false x.natAbs rest hr
    have hv : (x.natAbs : Int) = x := by omega
    rw [if_neg (by decide), hv] at h
    rw [← h]
    unfold parseExp
    simp

theorem canonical_zero {c : Dec} (hc : c.canonical = true) (hm : c.m = 0) : c.e = 0 := by
  unfold Dec.canonical at hc
  simpa [hm] using hc

theorem canonical_mod {c : Dec} (hc : c.canonical = true) (hm : c.m ≠ 0) : c.m % 10 ≠ 0 := by
  unfold Dec.canonical at hc
  simpa [hm] using hc

theorem parseUnsigned_parts (neg : Bool) {cs ip r1 fp r2 rest : List Char} {x : Int}
    (h1 : parseInt cs = some (ip, r1)) (h2 : parseFrac r1 = some (fp, r2))
    (h3 : parseExp r2 = some (x, rest)) :
    parseUnsigned neg cs =
      some (Dec.norm neg (digitsToNat (ip ++ fp) 0) (x - (fp.length : Int)), rest) := by
  rw [parseUnsigned, h1]
  dsimp only
  rw [h2]
  dsimp only
  rw [h3]

theorem norm_canonical_mk (neg : Bool) {m : Nat} (hm : m ≠ 0) (hmod : m % 10 ≠ 0) (e : Int) :
    Dec.norm neg m e = ⟨neg, m, e⟩ := by
  have hc : (Dec.mk neg m e).canonical = true := by
    simp [Dec.canonical, hm, hmod]
  exact norm_of_canonical hc

theorem parseUnsigned_zero (neg : Bool) (rest : List Char) (hr : numberEnds rest = true) :
    parseUnsigned neg ('0' :: rest) = some (⟨neg, 0, 0⟩, rest) := by
  rw [parseUnsigned_parts neg (parseInt_zero rest) (parseFrac_end hr) (parseExp_end hr)]
  rfl

theorem parseUnsigned_integer (neg : Bool) {m : Nat} (hmod : m % 10 ≠ 0) (k : Nat)
    (rest : List Char) (hr : numberEnds rest = true) :
    parseUnsigned neg (showNat m ++ List.replicate k '0' ++ rest) = some (⟨neg, m, k⟩, rest) := by
  have hm : m ≠ 0 := fun h => hmod (by rw [h])
  obtain ⟨d, t, hdt, hd, hd0, -⟩ := showNat_head m (by omega)
  have hall := all_isDigit_showNat m
  have hv := digitsToNat_showNat m
  rw [hdt] at hall hv
  rw [List.all_cons, Bool.and_eq_true] at hall
  have h1 := parseInt_digits (t ++ List.replicate k '0') rest hd hd0
    (all_isDigit_append hall.2 (all_isDigit_replicate k)) (numberEnds_head hr)
  rw [hdt, List.cons_append, List.cons_append,
    parseUnsigned_parts neg h1 (parseFrac_end hr) (parseExp_end hr), List.append_nil,
    ← List.cons_append, digitsToNat_append, hv, digitsToNat_replicate, norm_mul_pow neg hmod]
  simp

theorem parseUnsigned_point (neg : Bool) {m : Nat} (hm : m ≠ 0) (hmod : m % 10 ≠ 0) (k : Nat)
    (hk : 0 < k) (hkl : k < (showNat m).length) (rest : List Char)
    (hr : numberEnds rest = true) :
    parseUnsigned neg ((showNat m).take ((showNat m).length - k) ++
        '.' :: (showNat m).drop ((showNat m).length - k) ++ rest) =
      some (⟨neg, m, -(k : Int)⟩, rest) := by
  obtain ⟨d, t, hdt, hd, hd0, -⟩ := showNat_head m (by omega)
  have hall := all_isDigit_showNat m
  have hv := digitsToNat_showNat m
  have htake : (showNat m).take ((showNat m).length - k) =
      d :: t.take ((showNat m).length - k - 1) := by
    obtain ⟨j, hj⟩ : ∃ j, (showNat m).length - k = j + 1 := ⟨(showNat m).length - k - 1, by omega⟩
    rw [hj, hdt, List.take_succ_cons]
    rfl
  have hta : ((showNat m).take ((showNat m).length - k)).all isDigit = true :=
    all_isDigit_take hall _
  have hdr : ((showNat m).drop ((showNat m).length - k)).all isDigit = true :=
    all_isDigit_drop hall _
  have hdl : ((showNat m).drop ((showNat m).length - k)).length = k := by
    rw [List.length_drop]; omega
  have hdne : (showNat m).drop ((showNat m).length - k) ≠ [] := by
    intro h0
    rw [h0] at hdl
    simp at hdl
    omega
  have hta2 := hta
  rw [htake, List.all_cons, Bool.and_eq_true] at hta2
  have h1 := parseInt_digits (t.take ((showNat m).length - k - 1))
    ('.' :: ((showNat m).drop ((showNat m).length - k) ++ rest)) hd hd0 hta2.2 (by rfl)
  have h2 := parseFrac_digits _ rest hdne hdr (numberEnds_head hr)
  have hin : (showNat m).take ((showNat m).length - k) ++
        '.' :: (showNat m).drop ((showNat m).length - k) ++ rest =
      d :: (t.take ((showNat m).length - k - 1) ++
        '.' :: ((showNat m).drop ((showNat m).length - k) ++ rest)) := by
    rw [htake]
    simp
  rw [hin, parseUnsigned_parts neg h1 h2 (parseExp_end hr), ← htake, List.take_append_drop, hv,
    hdl, norm_canonical_mk neg hm hmod]
  simp

theorem digitsToNat_leading_zeros (j : Nat) (ds : List Char) :
    digitsToNat ('0' :: (List.replicate j '0' ++ ds)) 0 = digitsToNat ds 0 := by
  rw [← List.cons_append, digitsToNat_append]
  have : digitsToNat ('0' :: List.replicate j '0') 0 = 0 := by
    have h := digitsToNat_replicate (j + 1) 0
    rw [List.replicate_succ] at h
    simpa using h
  rw [this]

theorem parseUnsigned_small (neg : Bool) {m : Nat} (hm : m ≠ 0) (hmod : m % 10 ≠ 0) (k : Nat)
    (hkl : (showNat m).length ≤ k) (rest : List Char) (hr : numberEnds rest = true) :
    parseUnsigned neg ('0' :: '.' ::
        (List.replicate (k - (showNat m).length) '0' ++ showNat m) ++ rest) =
      some (⟨neg, m, -(k : Int)⟩, rest) := by
  have hall := all_isDigit_showNat m
  have hv := digitsToNat_showNat m
  have hne : List.replicate (k - (showNat m).length) '0' ++ showNat m ≠ [] := by
    intro h0
    exact showNat_ne_nil m (List.append_eq_nil.1 h0).2
  have h2 := parseFrac_digits _ rest hne (all_isDigit_append (all_isDigit_replicate _) hall)
    (numberEnds_head hr)
  have he : (0 : Int) - ((List.replicate (k - (showNat m).length) '0' ++ showNat m).length : Int) =
      -(k : Int) := by
    rw [List.length_append, List.length_replicate]
    omega
  rw [List.cons_append, List.cons_append,
    parseUnsigned_parts neg (parseInt_zero _) h2 (parseExp_end hr), he, List.singleton_append,
    digitsToNat_leading_zeros, hv, norm_canonical_mk neg hm hmod]

theorem parseNumber_neg (r : List Char) : parseNumber ('-' :: r) = parseUnsigned true r := rfl

theorem fixedBody_head (m : Nat) (e : Int) :
    ∃ d t, fixedBody m e = d :: t ∧ isDigit d = true := by
  obtain ⟨d, t, hdt, hd⟩ := showNat_head_digit m
  unfold fixedBody
  split
  · exact ⟨'0', [], rfl, rfl⟩
  · split
    · exact ⟨d, t ++ List.replicate e.toNat '0', by rw [hdt]; rfl, hd⟩
    · split
      · rename_i hk
        obtain ⟨j, hj⟩ : ∃ j, (showNat m).length - (-e).toNat = j + 1 :=
          ⟨(showNat m).length - (-e).toNat - 1, by omega⟩
        refine ⟨d, t.take j ++ '.' :: (showNat m).drop ((showNat m).length - (-e).toNat), ?_, hd⟩
        rw [hj, hdt, List.take_succ_cons]
        rfl
      · exact ⟨'0', _, rfl, rfl⟩

theorem parseUnsigned_fixedBody (neg : Bool) (m : Nat) (e : Int)
    (hc : (Dec.mk neg m e).canonical = true) (rest : List Char) (hr : numberEnds rest = true) :
    parseUnsigned neg (fixedBody m e ++ rest) = some (⟨neg, m, e⟩, rest) := by
  unfold fixedBody
  by_cases hm : m = 0
  · have he := canonical_zero hc hm
    simp only at he
    subst hm
    subst he
    rw [if_pos rfl]
    exact parseUnsigned_zero neg rest hr
  · have hmod : m % 10 ≠ 0 := canonical_mod hc hm
    rw [if_neg hm]
    by_cases he : 0 ≤ e
    · rw [if_pos he, parseUnsigned_integer neg hmod e.toNat rest hr]
      congr 2
      simp only [Dec.mk.injEq, true_and]
      omega
    · rw [if_neg he]
      by_cases hk : (-e).toNat < (showNat m).length
      · rw [if_pos hk, parseUnsigned_point neg hm hmod (-e).toNat (by omega) hk rest hr]
        congr 2
        simp only [Dec.mk.injEq, true_and]
        omega
      · rw [if_neg hk, parseUnsigned_small neg hm hmod (-e).toNat (by omega) rest hr]
        congr 2
        simp only [Dec.mk.injEq, true_and]
        omega

/-- Decoding the `%f` text of a decimal in lowest terms gives the decimal. -/
theorem parseNumber_printFixed (c : Dec) (hc : c.canonical = true) (rest : List Char)
    (hr : numberEnds rest = true) : parseNumber (printFixed c ++ rest) = some (c, rest) := by
  obtain ⟨neg, m, e⟩ := c
  unfold printFixed printSign
  cases neg with
  | true =>
    simp only [if_true, List.cons_append, List.nil_append]
    rw [parseNumber_neg]
    exact parseUnsigned_fixedBody true m e hc rest hr
  | false =>
    simp only [Bool.false_eq_true, if_false, List.nil_append]
    obtain ⟨d, t, hdt, hd⟩ := fixedBody_head m e
    have h := parseUnsigned_fixedBody false m e hc rest hr
    rw [hdt, List.cons_append] at h ⊢
    rw [parseNumber_of_digit _ hd]
    exact h

theorem sciBody_parse (neg : Bool) (m : Nat) (e : Int)
    (hc : (Dec.mk neg m e).canonical = true) (rest : List Char) (hr : numberEnds rest = true) :
    parseUnsigned neg (printMantissa (showNat m) ++ printExp (((showNat m).length : Int) + e - 1)
      ++ rest) = some (⟨neg, m, e⟩, rest) := by
  have hexp := parseExp_printExp (((showNat m).length : Int) + e - 1) rest (numberEnds_head hr)
  have hehead : ∃ u, printExp (((showNat m).length : Int) + e - 1) ++ rest = 'e' :: u :=
    ⟨_, rfl⟩
  obtain ⟨u, hu⟩ := hehead
  rw [List.append_assoc, hu]
  rw [hu] at hexp
  have hv := digitsToNat_showNat m
  have hall := all_isDigit_showNat m
  by_cases hm : m = 0
  · have he := canonical_zero hc hm
    simp only at he
    subst hm
    subst he
    rw [showNat_zero] at hexp ⊢
    simp only [printMantissa, List.cons_append, List.nil_append]
    rw [parseUnsigned_parts neg (parseInt_zero _) (parseFrac_exp u) hexp]
    rfl
  · have hmod : m % 10 ≠ 0 := canonical_mod hc hm
    obtain ⟨d, t, hdt, hd, hd0, -⟩ := showNat_head m (by omega)
    rw [hdt] at hv hall hexp ⊢
    rw [List.all_cons, Bool.and_eq_true] at hall
    cases t with
    | nil =>
      simp only [printMantissa, List.cons_append, List.nil_append]
      have h1 := parseInt_digits [] ('e' :: u) hd hd0 rfl rfl
      rw [List.nil_append] at h1
      rw [parseUnsigned_parts neg h1 (parseFrac_exp u) hexp, List.append_nil, hv]
      simp only [List.length_singleton, List.length_nil]
      rw [norm_canonical_mk neg hm hmod]
      congr 2
      simp only [Dec.mk.injEq, true_and]
      omega
    | cons d2 t2 =>
      simp only [printMantissa, List.cons_append]
      have h1 := parseInt_digits [] ('.' :: (d2 :: t2 ++ 'e' :: u)) hd hd0 rfl rfl
      rw [List.nil_append] at h1
      have h2 := parseFrac_digits (d2 :: t2) ('e' :: u) (List.cons_ne_nil _ _) hall.2 rfl
      rw [List.cons_append] at h2 h1
      rw [parseUnsigned_parts neg h1 h2 hexp, List.singleton_append, hv,
        norm_canonical_mk neg hm hmod]
      congr 2
      simp only [Dec.mk.injEq, true_and, List.length_cons]
      omega

theorem printMantissa_head (m : Nat) :
    ∃ d t, printMantissa (showNat m) = d :: t ∧ isDigit d = true := by
  obtain ⟨d, t, hdt, hd⟩ := showNat_head_digit m
  rw [hdt]
  cases t with
  | nil => exact ⟨d, [], rfl, hd⟩
  | cons d2 t2 => exact ⟨d, _, rfl, hd⟩

/-- Decoding the `%e` text of a decimal in lowest terms gives the decimal. -/
theorem parseNumber_printSci (c : Dec) (hc : c.canonical = true) (rest : List Char)
    (hr : numberEnds rest = true) : parseNumber (printSci c ++ rest) = some (c, rest) := by
  obtain ⟨neg, m, e⟩ := c
  unfold printSci printSign Dec.point
  cases neg with
  | true =>
    simp only [if_true, List.cons_append, List.nil_append]
    rw [parseNumber_neg]
    exact sciBody_parse true m e hc rest hr
  | false =>
    simp only [Bool.false_eq_true, if_false, List.nil_append]
    obtain ⟨d, t, hdt, hd⟩ := printMantissa_head m
    have h := sciBody_parse false m e hc rest hr
    rw [hdt, List.cons_append, List.cons_append] at h ⊢
    rw [parseNumber_of_digit _ hd]
    exact h

/-- Decoding the text `json.Marshal` writes for a `float64` gives its shortest
decimal, which `ParseFloat` reads as that `float64`. -/
theorem parseNumber_encodeNumber (c : Dec) (hc : c.isF64 = true) (rest : List Char)
    (hr : numberEnds rest = true) :
    parseNumber (encodeNumber c ++ rest) = some (shortest c, rest) := by
  unfold encodeNumber
  rw [if_pos hc]
  split
  · exact parseNumber_printSci _ (canonical_shortest hc) rest hr
  · exact parseNumber_printFixed _ (canonical_shortest hc) rest hr

theorem printSign_cases (neg : Bool) (body : List Char) (h : ∃ d t, body = d :: t ∧ isDigit d = true) :
    ∃ d t, printSign neg ++ body = d :: t ∧ (d = '-' ∨ isDigit d = true) := by
  obtain ⟨d, t, hdt, hd⟩ := h
  cases neg with
  | true => exact ⟨'-', body, rfl, Or.inl rfl⟩
  | false => exact ⟨d, t, by rw [hdt]; rfl, Or.inr hd⟩

/-- The text of a number starts with `-` or a digit. -/
theorem encodeNumber_head (c : Dec) :
    ∃ d t, encodeNumber c = d :: t ∧ (d = '-' ∨ isDigit d = true) := by
  have hf : ∀ c : Dec, ∃ d t, printFixed c = d :: t ∧ (d = '-' ∨ isDigit d = true) :=
    fun c => printSign_cases c.neg _ (fixedBody_head c.m c.e)
  have hs : ∀ c : Dec, ∃ d t, printSci c = d :: t ∧ (d = '-' ∨ isDigit d = true) := by
    intro c
    obtain ⟨d, t, hdt, hd⟩ := printMantissa_head c.m
    unfold printSci
    rw [List.append_assoc]
    exact printSign_cases c.neg _ ⟨d, t ++ printExp (c.point - 1), by rw [hdt]; rfl, hd⟩
  unfold encodeNumber
  split
  · split
    · exact hs _
    · exact hf _
  · exact hf _

/-! ## String literals -/

theorem hex4_control (n : Nat) (h : n < 32) :
    hex4 '0' '0' (hexChar (n / 16)) (hexChar (n % 16)) = some n := by
  interval_cases n <;> rfl

theorem uChar_toNat (c : Char) (h : ¬ (0xd800 ≤ c.toNat ∧ c.toNat ≤ 0xdfff)) :
    uChar c.toNat = c := by
  unfold uChar
  rw [if_neg h, Char.ofNat_toNat]

theorem parseChars_skip2 (b : Char) (tail acc : List Char) (x : Char)
    (hn : nextChar ('\\' :: b :: tail) = some (x, 1)) :
    parseChars ('\\' :: b :: tail) 0 acc = parseChars tail 0 (x :: acc) := by
  rw [parseChars, if_neg (by decide), hn]
  simp only [parseChars]

theorem parseChars_skip6 (b c d e f : Char) (tail acc : List Char) (x : Char)
    (hn : nextChar ('\\' :: b :: c :: d :: e :: f :: tail) = some (x, 5)) :
    parseChars ('\\' :: b :: c :: d :: e :: f :: tail) 0 acc = parseChars tail 0 (x :: acc) := by
  rw [parseChars, if_neg (by decide), hn]
  simp only [parseChars]

theorem nextChar_u (c d : Char) (tail : List Char) (n : Nat)
    (hx : hex4 '0' '0' c d = some n) (hs : n < 0xd800) :
    nextChar ('\\' :: 'u' :: '0' :: '0' :: c :: d :: tail) = some (Char.ofNat n, 5) := by
  have h1 : ¬ (0xd800 ≤ n ∧ n ≤ 0xdbff) := by omega
  have h2 : ¬ (0xd800 ≤ n ∧ n ≤ 0xdfff) := by omega
  simp only [nextChar, hx, uChar, if_neg h1, if_neg h2, if_true]

theorem nextChar_u2 (d : Char) (tail : List Char) (n : Nat)
    (hx : hex4 '2' '0' '2' d = some n) (hs : n < 0xd800) :
    nextChar ('\\' :: 'u' :: '2' :: '0' :: '2' :: d :: tail) = some (Char.ofNat n, 5) := by
  have h1 : ¬ (0xd800 ≤ n ∧ n ≤ 0xdbff) := by omega
  have h2 : ¬ (0xd800 ≤ n ∧ n ≤ 0xdfff) := by omega
  simp only [nextChar, hx, uChar, if_neg h1, if_neg h2, if_true]

theorem parseChars_short (e x : Char) (tail acc : List Char)
    (he : e ≠ 'u') (hu : unescape e = some x) :
    parseChars (['\\', e] ++ tail) 0 acc = parseChars tail 0 (x :: acc) :=
  parseChars_skip2 _ _ _ _ (by simp [nextChar, he, hu])

theorem parseChars_hex (a b x : Char) (n : Nat) (tail acc : List Char)
    (hx : hex4 '0' '0' a b = some n) (hs : n < 0xd800) (hc : Char.ofNat n = x) :
    parseChars (['\\', 'u', '0', '0', a, b] ++ tail) 0 acc = parseChars tail 0 (x :: acc) :=
  parseChars_skip6 _ _ _ _ _ _ _ _ (hc ▸ nextChar_u _ _ tail n hx hs)

theorem parseChars_hex2 (b x : Char) (n : Nat) (tail acc : List Char)
    (hx : hex4 '2' '0' '2' b = some n) (hs : n < 0xd800) (hc : Char.ofNat n = x) :
    parseChars (['\\', 'u', '2', '0', '2', b] ++ tail) 0 acc = parseChars tail 0 (x :: acc) :=
  parseChars_skip6 _ _ _ _ _ _ _ _ (hc ▸ nextChar_u2 _ tail n hx hs)

theorem parseChars_plain (c : Char) (tail acc : List Char)
    (h1 : c ≠ '"') (h2 : c ≠ '\\') (h3 : ¬ c.toNat < 32) :
    parseChars ([c] ++ tail) 0 acc = parseChars tail 0 (c :: acc) := by
  simp only [List.cons_append, List.nil_append]
  rw [parseChars, if_neg h1]
  simp only [nextChar, if_neg h2, if_neg h3]

theorem parseChars_escapeChar (c : Char) (tail acc : List Char) :
    parseChars (escapeChar c ++ tail) 0 acc = parseChars tail 0 (c :: acc) := by
  by_cases h1 : c = '"'
  · rw [escapeChar, if_pos h1, h1]
    exact parseChars_short _ _ _ _ (by decide) rfl
  by_cases h2 : c = '\\'
  · rw [escapeChar, if_neg h1, if_pos h2, h2]
    exact parseChars_short _ _ _ _ (by decide) rfl
  by_cases h3 : c = '\n'
  · rw [escapeChar, if_neg h1, if_neg h2, if_pos h3, h3]
    exact parseChars_short _ _ _ _ (by decide) rfl
  by_cases h4 : c = '\r'
  · rw [escapeChar, if_neg h1, if_neg h2, if_neg h3, if_pos h4, h4]
    exact parseChars_short _ _ _ _ (by decide) rfl
  by_cases h5 : c = '\t'
  · rw [escapeChar, if_neg h1, if_neg h2, if_neg h3, if_neg h4, if_pos h5, h5]
    exact parseChars_short _ _ _ _ (by decide) rfl
  by_cases hb : c = Char.ofNat 8
  · rw [escapeChar, if_neg h1, if_neg h2, if_neg h3, if_neg h4, if_neg h5, if_pos hb, hb]
    exact parseChars_short _ _ _ _ (by decide) rfl
  by_cases hf : c = Char.ofNat 12
  · rw [escapeChar, if_neg h1, if_neg h2, if_neg h3, if_neg h4, if_neg h5, if_neg hb, if_pos hf,
      hf]
    exact parseChars_short _ _ _ _ (by decide) rfl
  by_cases h6 : c.toNat < 32
  · rw [escapeChar, if_neg h1, if_neg h2, if_neg h3, if_neg h4, if_neg h5, if_neg hb, if_neg hf,
      if_pos h6]
    exact parseChars_hex _ _ _ c.toNat _ _ (hex4_control c.toNat h6) (by omega)
      (Char.ofNat_toNat c)
  by_cases h7 : c = '<'
  · rw [escapeChar, if_neg h1, if_neg h2, if_neg h3, if_neg h4, if_neg h5, if_neg hb, if_neg hf,
      if_neg h6,
      if_pos h7, h7]
    exact parseChars_hex _ _ _ 60 _ _ rfl (by decide) rfl
  by_cases h8 : c = '>'
  · rw [escapeChar, if_neg h1, if_neg h2, if_neg h3, if_neg h4, if_neg h5, if_neg hb, if_neg hf,
      if_neg h6,
      if_neg h7, if_pos h8, h8]
    exact parseChars_hex _ _ _ 62 _ _ rfl (by decide) rfl
  by_cases h9 : c = '&'
  · rw [escapeChar, if_neg h1, if_neg h2, if_neg h3, if_neg h4, if_neg h5, if_neg hb, if_neg hf,
      if_neg h6,
      if_neg h7, if_neg h8, if_pos h9, h9]
    exact parseChars_hex _ _ _ 38 _ _ rfl (by decide) rfl
  by_cases h10 : c.toNat = 0x2028
  · rw [escapeChar, if_neg h1, if_neg h2, if_neg h3, if_neg h4, if_neg h5, if_neg hb, if_neg hf,
      if_neg h6,
      if_neg h7, if_neg h8, if_neg h9, if_pos h10]
    exact parseChars_hex2 _ _ 0x2028 _ _ rfl (by decide) (by rw [← h10, Char.ofNat_toNat])
  by_cases h11 : c.toNat = 0x2029
  · rw [escapeChar, if_neg h1, if_neg h2, if_neg h3, if_neg h4, if_neg h5, if_neg hb, if_neg hf,
      if_neg h6,
      if_neg h7, if_neg h8, if_neg h9, if_neg h10, if_pos h11]
    exact parseChars_hex2 _ _ 0x2029 _ _ rfl (by decide) (by rw [← h11, Char.ofNat_toNat])
  · rw [escapeChar, if_neg h1, if_neg h2, if_neg h3, if_neg h4, if_neg h5, if_neg hb, if_neg hf,
      if_neg h6,
      if_neg h7, if_neg h8, if_neg h9, if_neg h10, if_neg h11]
    exact parseChars_plain c tail acc h1 h2 h6

theorem parseChars_encodeChars (cs rest acc : List Char) :
    parseChars (encodeChars cs ++ rest) 0 acc = some (String.mk (acc.reverse ++ cs), rest) := by
  induction cs generalizing acc with
  | nil => simp [encodeChars, parseChars]
  | cons c cs ih =>
    simp only [encodeChars, List.append_assoc]
    rw [parseChars_escapeChar, ih]
    simp

/-- Decoding the literal of a string gives the string back. -/
theorem parseChars_encodeString (s : String) (rest : List Char) :
    ∃ t, encodeString s ++ rest = '"' :: t ∧ parseChars t 0 [] = some (s, rest) :=
  ⟨encodeChars s.toList ++ rest, rfl, by rw [parseChars_encodeChars]; rfl⟩

/-! ## Decoding the text of a value -/

theorem skipWs_cons {c : Char} (r : List Char) (h : isWs c = false) :
    skipWs (c :: r) = c :: r := by
  simp [skipWs, h]

theorem isDigit_facts {d : Char} (h : d = '-' ∨ isDigit d = true) :
    isWs d = false ∧ d ≠ 'n' ∧ d ≠ 't' ∧ d ≠ 'f' ∧ d ≠ '"' ∧ d ≠ '[' ∧ d ≠ '{' ∧ d ≠ ']' := by
  rcases h with h | h
  · subst h; decide
  · refine ⟨?_, ?_, ?_, ?_, ?_, ?_, ?_, ?_⟩
    · cases hw : isWs d with
      | false => rfl
      | true =>
        simp only [isWs, Bool.or_eq_true, decide_eq_true_eq] at hw
        rcases hw with ((hw | hw) | hw) | hw <;> subst hw <;> exact absurd h (by decide)
    all_goals (intro e; subst e; exact absurd h (by decide))

/-- The text of a value starts with a character that is neither whitespace
nor a closing bracket. -/
theorem encodeValue_head (v : JSON) :
    ∃ c t, encodeValue v = c :: t ∧ isWs c = false ∧ c ≠ ']' := by
  cases v with
  | null => exact ⟨'n', _, by rw [encodeValue], by decide, by decide⟩
  | bool b =>
    cases b
    · exact ⟨'f', _, by rw [encodeValue], by decide, by decide⟩
    · exact ⟨'t', _, by rw [encodeValue], by decide, by decide⟩
  | num n =>
    obtain ⟨d, t, hdt, hd⟩ := encodeNumber_head n
    have := isDigit_facts hd
    exact ⟨d, t, by simp only [encodeValue, hdt], this.1, this.2.2.2.2.2.2.2⟩
  | str s => exact ⟨'"', _, by rw [encodeValue, encodeString], by decide, by decide⟩
  | arr xs => exact ⟨'[', _, by rw [encodeValue], by decide, by decide⟩
  | obj kvs => exact ⟨'{', _, by rw [encodeValue], by decide, by decide⟩

theorem parseValue_null (f : Nat) (rest : List Char) :
    parseValue (f + 1) ('n' :: 'u' :: 'l' :: 'l' :: rest) = some (.null, rest) := by
  rw [parseValue]
  simp [skipWs, isWs]

theorem parseValue_true (f : Nat) (rest : List Char) :
    parseValue (f + 1) ('t' :: 'r' :: 'u' :: 'e' :: rest) = some (.bool true, rest) := by
  rw [parseValue]
  simp [skipWs, isWs]

theorem parseValue_false (f : Nat) (rest : List Char) :
    parseValue (f + 1) ('f' :: 'a' :: 'l' :: 's' :: 'e' :: rest) = some (.bool false, rest) := by
  rw [parseValue]
  simp [skipWs, isWs]

theorem parseValue_num (f : Nat) (n : Dec) (hn : n.isF64 = true) (rest : List Char)
    (hr : numberEnds rest = true) :
    parseValue (f + 1) (encodeNumber n ++ rest) = some (.num (shortest n), rest) := by
  obtain ⟨d, t, hdt, hd⟩ := encodeNumber_head n
  have hp := parseNumber_encodeNumber n hn rest hr
  obtain ⟨h0, h1, h2, h3, h4, h5, h6, _⟩ := isDigit_facts hd
  rw [hdt] at hp ⊢
  simp only [List.cons_append] at hp ⊢
  rw [parseValue, skipWs_cons _ h0]
  simp only [if_neg h1, if_neg h2, if_neg h3, if_neg h4, if_neg h5, if_neg h6, hp]

theorem parseValue_str (f : Nat) (s : String) (rest : List Char) :
    parseValue (f + 1) (encodeString s ++ rest) = some (.str s, rest) := by
  obtain ⟨t, ht, hp⟩ := parseChars_encodeString s rest
  rw [ht, parseValue, skipWs_cons _ (by decide)]
  simp [hp]

theorem parseValue_arr_nil (f : Nat) (rest : List Char) :
    parseValue (f + 1) ('[' :: ']' :: rest) = some (.arr [], rest) := by
  rw [parseValue]
  simp [skipWs, isWs]

theorem parseValue_obj_nil (f : Nat) (rest : List Char) :
    parseValue (f + 1) ('{' :: '}' :: rest) = some (.obj [], rest) := by
  rw [parseValue]
  simp [skipWs, isWs]

theorem parseValue_arr_cons (f : Nat) (c : Char) (t : List Char) (xs : List JSON)
    (rest : List Char) (hc : isWs c = false) (hc' : c ≠ ']')
    (h : parseElems f (c :: t) = some (xs, rest)) :
    parseValue (f + 1) ('[' :: c :: t) = some (.arr xs, rest) := by
  rw [parseValue, skipWs_cons _ (by decide)]
  simp only [Char.reduceEq, if_false, if_true, skipWs_cons _ hc]
  split
  · rename_i heq
    simp only [List.cons.injEq] at heq
    exact absurd heq.1 hc'
  · simp [h]

theorem parseValue_obj_cons (f : Nat) (t : List Char) (raw : List (String × JSON))
    (rest : List Char) (h : parseMembers f ('"' :: t) = some (raw, rest)) :
    parseValue (f + 1) ('{' :: '"' :: t) = some (.obj (buildMap raw), rest) := by
  rw [parseValue, skipWs_cons _ (by decide)]
  simp only [Char.reduceEq, if_false, if_true, skipWs_cons _ (by decide : isWs '"' = false)]
  simp [h]

theorem parseElems_last (f : Nat) (cs rest : List Char) (v : JSON)
    (h : parseValue f cs = some (v, ']' :: rest)) :
    parseElems (f + 1) cs = some ([v], rest) := by
  rw [parseElems, h]
  simp [skipWs, isWs]

theorem parseElems_more (f : Nat) (cs r rest : List Char) (v : JSON) (vs : List JSON)
    (h : parseValue f cs = some (v, ',' :: r)) (h' : parseElems f r = some (vs, rest)) :
    parseElems (f + 1) cs = some (v :: vs, rest) := by
  rw [parseElems, h]
  simp [skipWs, isWs, h']

theorem parseMembers_last (f : Nat) (k : String) (cs rest : List Char) (v : JSON)
    (h : parseValue f cs = some (v, '}' :: rest)) :
    parseMembers (f + 1) (encodeString k ++ ':' :: cs) = some ([(k, v)], rest) := by
  obtain ⟨t, ht, hp⟩ := parseChars_encodeString k (':' :: cs)
  rw [ht, parseMembers, skipWs_cons _ (by decide)]
  simp [hp, skipWs, isWs, h]

theorem parseMembers_more (f : Nat) (k : String) (cs r rest : List Char) (v : JSON)
    (kvs : List (String × JSON))
    (h : parseValue f cs = some (v, ',' :: r)) (h' : parseMembers f r = some (kvs, rest)) :
    parseMembers (f + 1) (encodeString k ++ ':' :: cs) = some ((k, v) :: kvs, rest) := by
  obtain ⟨t, ht, hp⟩ := parseChars_encodeString k (':' :: cs)
  rw [ht, parseMembers, skipWs_cons _ (by decide)]
  simp [hp, skipWs, isWs, h, h']

theorem sortedKeys_asWritten : ∀ (m : List (String × JSON)),
    sortedKeys (asWrittenMembers m) = sortedKeys m
  | [] => rfl
  | [(k, x)] => by simp [asWrittenMembers, sortedKeys]
  | (k, x) :: (k2, x2) :: t => by
    have ih := sortedKeys_asWritten ((k2, x2) :: t)
    simp only [asWrittenMembers] at ih ⊢
    simp only [sortedKeys, ih]

mutual
/-- Decoding the text of a well-formed value gives the value as written, with
any number of calls allowed from its weight on. -/
theorem parseValue_encode : ∀ (v : JSON), v.wf = true → ∀ (f : Nat) (rest : List Char),
    v.weight ≤ f → numberEnds rest = true →
    parseValue f (encodeValue v ++ rest) = some (v.asWritten, rest)
  | .null, _, f, rest, hf, _ => by
    obtain ⟨f', rfl⟩ : ∃ f', f = f' + 1 := ⟨f - 1, by simp only [JSON.weight] at hf; omega⟩
    exact parseValue_null f' rest
  | .bool true, _, f, rest, hf, _ => by
    obtain ⟨f', rfl⟩ : ∃ f', f = f' + 1 := ⟨f - 1, by simp only [JSON.weight] at hf; omega⟩
    exact parseValue_true f' rest
  | .bool false, _, f, rest, hf, _ => by
    obtain ⟨f', rfl⟩ : ∃ f', f = f' + 1 := ⟨f - 1, by simp only [JSON.weight] at hf; omega⟩
    exact parseValue_false f' rest
  | .num n, hv, f, rest, hf, hr => by
    obtain ⟨f', rfl⟩ : ∃ f', f = f' + 1 := ⟨f - 1, by simp only [JSON.weight] at hf; omega⟩
    rw [encodeValue, JSON.asWritten]
    exact parseValue_num f' n (by simpa only [JSON.wf] using hv) rest hr
  | .str s, _, f, rest, hf, _ => by
    obtain ⟨f', rfl⟩ : ∃ f', f = f' + 1 := ⟨f - 1, by simp only [JSON.weight] at hf; omega⟩
    rw [encodeValue, JSON.asWritten]
    exact parseValue_str f' s rest
  | .arr [], _, f, rest, hf, _ => by
    obtain ⟨f', rfl⟩ : ∃ f', f = f' + 1 := ⟨f - 1, by simp only [JSON.weight] at hf; omega⟩
    exact parseValue_arr_nil f' rest
  | .arr (x :: t), hv, f, rest, hf, _ => by
    obtain ⟨f', rfl⟩ : ∃ f', f = f' + 1 := ⟨f - 1, by simp only [JSON.weight] at hf; omega⟩
    have hf' : weightList (x :: t) ≤ f' := by simp only [JSON.weight] at hf; omega
    have hwf : wfList (x :: t) = true := by simpa only [JSON.wf] using hv
    have ih := parseElems_encode (x :: t) (List.cons_ne_nil _ _) hwf f' rest hf'
    obtain ⟨c, u, hcu, hc, hc'⟩ := encodeValue_head x
    have hform : ∃ u', encodeElems (x :: t) ++ rest = c :: u' := by
      cases t with
      | nil => exact ⟨u ++ ']' :: rest, by simp [encodeElems, hcu]⟩
      | cons y t' => exact ⟨u ++ ',' :: (encodeElems (y :: t') ++ rest), by simp [encodeElems, hcu]⟩
    obtain ⟨u', hu'⟩ := hform
    rw [encodeValue, List.cons_append, hu', JSON.asWritten]
    rw [hu'] at ih
    exact parseValue_arr_cons f' c u' _ rest hc hc' ih
  | .obj [], _, f, rest, hf, _ => by
    obtain ⟨f', rfl⟩ : ∃ f', f = f' + 1 := ⟨f - 1, by simp only [JSON.weight] at hf; omega⟩
    exact parseValue_obj_nil f' rest
  | .obj (p :: t), hv, f, rest, hf, _ => by
    obtain ⟨f', rfl⟩ : ∃ f', f = f' + 1 := ⟨f - 1, by simp only [JSON.weight] at hf; omega⟩
    have hf' : weightMembers (p :: t) ≤ f' := by simp only [JSON.weight] at hf; omega
    have hwf : sortedKeys (p :: t) = true ∧ wfMembers (p :: t) = true := by
      simpa only [JSON.wf, Bool.and_eq_true] using hv
    have ih := parseMembers_encode (p :: t) (List.cons_ne_nil _ _) hwf.2 f' rest hf'
    have hform : ∃ u', encodeMembers (p :: t) ++ rest = '"' :: u' := by
      obtain ⟨k, x⟩ := p
      cases t with
      | nil => exact ⟨_, by simp only [encodeMembers, encodeString, List.cons_append]; rfl⟩
      | cons y t' => exact ⟨_, by simp only [encodeMembers, encodeString, List.cons_append]; rfl⟩
    obtain ⟨u', hu'⟩ := hform
    rw [encodeValue, List.cons_append, hu', JSON.asWritten]
    rw [hu'] at ih
    have := parseValue_obj_cons f' u' _ rest ih
    rw [buildMap_of_sorted (by rw [sortedKeys_asWritten]; exact hwf.1)] at this
    exact this
/-- Decoding the elements of a non-empty array text. -/
theorem parseElems_encode : ∀ (xs : List JSON), xs ≠ [] → wfList xs = true →
    ∀ (f : Nat) (rest : List Char), weightList xs ≤ f →
    parseElems f (encodeElems xs ++ rest) = some (asWrittenList xs, rest)
  | [], hne, _, _, _, _ => absurd rfl hne
  | [x], _, hv, f, rest, hf => by
    obtain ⟨f', rfl⟩ : ∃ f', f = f' + 1 := ⟨f - 1, by simp only [weightList] at hf; omega⟩
    have hx : x.wf = true := by
      simp only [wfList, Bool.and_true] at hv; exact hv
    have ih := parseValue_encode x hx f' (']' :: rest)
      (by simp only [weightList] at hf; omega) rfl
    rw [encodeElems, List.append_assoc]
    exact parseElems_last f' _ rest _ ih
  | x :: y :: t, _, hv, f, rest, hf => by
    obtain ⟨f', rfl⟩ : ∃ f', f = f' + 1 := ⟨f - 1, by simp only [weightList] at hf; omega⟩
    have hx : x.wf = true ∧ wfList (y :: t) = true := by
      rw [wfList, Bool.and_eq_true] at hv; exact hv
    have ih1 := parseValue_encode x hx.1 f' (',' :: (encodeElems (y :: t) ++ rest))
      (by rw [weightList] at hf; omega) rfl
    have ih2 := parseElems_encode (y :: t) (List.cons_ne_nil _ _) hx.2 f' rest
      (by rw [weightList] at hf; omega)
    rw [encodeElems, List.append_assoc, List.cons_append]
    exact parseElems_more f' _ _ rest _ _ ih1 ih2
/-- Decoding the members of a non-empty object text, in the order written. -/
theorem parseMembers_encode : ∀ (m : List (String × JSON)), m ≠ [] → wfMembers m = true →
    ∀ (f : Nat) (rest : List Char), weightMembers m ≤ f →
    parseMembers f (encodeMembers m ++ rest) = some (asWrittenMembers m, rest)
  | [], hne, _, _, _, _ => absurd rfl hne
  | [(k, x)], _, hv, f, rest, hf => by
    obtain ⟨f', rfl⟩ : ∃ f', f = f' + 1 := ⟨f - 1, by simp only [weightMembers] at hf; omega⟩
    have hx : x.wf = true := by
      simp only [wfMembers, Bool.and_true] at hv; exact hv
    have ih := parseValue_encode x hx f' ('}' :: rest)
      (by simp only [weightMembers] at hf; omega) rfl
    rw [encodeMembers]
    simp only [List.append_assoc, List.cons_append]
    exact parseMembers_last f' k _ rest _ ih
  | (k, x) :: y :: t, _, hv, f, rest, hf => by
    obtain ⟨f', rfl⟩ : ∃ f', f = f' + 1 := ⟨f - 1, by simp only [weightMembers] at hf; omega⟩
    have hx : x.wf = true ∧ wfMembers (y :: t) = true := by
      rw [wfMembers, Bool.and_eq_true] at hv; exact hv
    have ih1 := parseValue_encode x hx.1 f' (',' :: (encodeMembers (y :: t) ++ rest))
      (by rw [weightMembers] at hf; omega) rfl
    have ih2 := parseMembers_encode (y :: t) (List.cons_ne_nil _ _) hx.2 f' rest
      (by rw [weightMembers] at hf; omega)
    rw [encodeMembers]
    simp only [List.append_assoc, List.cons_append]
    exact parseMembers_more f' k _ _ rest _ _ ih1 ih2
end

/-! ## Decoded values are well formed -/

theorem wfMembers_insertKey (k : String) (v : JSON) (m : List (String × JSON))
    (hv : v.wf = true) (hm : wfMembers m = true) : wfMembers (insertKey k v m) = true := by
  induction m with
  | nil => simp [insertKey, wfMembers, hv]
  | cons p t ih =>
    obtain ⟨k1, v1⟩ := p
    simp only [wfMembers, Bool.and_eq_true] at hm
    simp only [insertKey]
    split
    · simp [wfMembers, hv, hm.1, hm.2]
    · split
      · simp [wfMembers, hv, hm.2]
      · simp [wfMembers, hm.1, ih hm.2]

theorem wfMembers_foldl (raw acc : List (String × JSON)) (hr : wfMembers raw = true)
    (ha : wfMembers acc = true) :
    wfMembers (raw.foldl (fun a kv => insertKey kv.1 kv.2 a) acc) = true := by
  induction raw generalizing acc with
  | nil => simpa
  | cons p t ih =>
    obtain ⟨k1, v1⟩ := p
    simp only [wfMembers, Bool.and_eq_true] at hr
    exact ih _ hr.2 (wfMembers_insertKey _ _ _ hr.1 ha)

theorem wf_obj_buildMap (raw : List (String × JSON)) (hr : wfMembers raw = true) :
    (JSON.obj (buildMap raw)).wf = true := by
  simp only [JSON.wf, Bool.and_eq_true]
  exact ⟨sortedKeys_buildMap raw, wfMembers_foldl raw [] hr rfl⟩

theorem keysOkMembers_insertKey (k : String) (v : JSON) (m : List (String × JSON))
    (hv : v.keysOk = true) (hm : keysOkMembers m = true) :
    keysOkMembers (insertKey k v m) = true := by
  induction m with
  | nil => simp [insertKey, keysOkMembers, hv]
  | cons p t ih =>
    obtain ⟨k1, v1⟩ := p
    simp only [keysOkMembers, Bool.and_eq_true] at hm
    simp only [insertKey]
    split
    · simp [keysOkMembers, hv, hm.1, hm.2]
    · split
      · simp [keysOkMembers, hv, hm.2]
      · simp [keysOkMembers, hm.1, ih hm.2]

theorem keysOkMembers_foldl (raw acc : List (String × JSON)) (hr : keysOkMembers raw = true)
    (ha : keysOkMembers acc = true) :
    keysOkMembers (raw.foldl (fun a kv => insertKey kv.1 kv.2 a) acc) = true := by
  induction raw generalizing acc with
  | nil => simpa
  | cons p t ih =>
    obtain ⟨k1, v1⟩ := p
    simp only [keysOkMembers, Bool.and_eq_true] at hr
    exact ih _ hr.2 (keysOkMembers_insertKey _ _ _ hr.1 ha)

theorem keysOk_obj_buildMap (raw : List (String × JSON)) (hr : keysOkMembers raw = true) :
    (JSON.obj (buildMap raw)).keysOk = true := by
  simp only [JSON.keysOk, Bool.and_eq_true]
  exact ⟨sortedKeys_buildMap raw, keysOkMembers_foldl raw [] hr rfl⟩

theorem parse_keysOk_aux (f : Nat) :
    (∀ cs v r, parseValue f cs = some (v, r) → v.keysOk = true) ∧
    (∀ cs xs r, parseElems f cs = some (xs, r) → keysOkList xs = true) ∧
    (∀ cs m r, parseMembers f cs = some (m, r) → keysOkMembers m = true) := by
  induction f with
  | zero => simp [parseValue, parseElems, parseMembers]
  | succ f ih =>
    obtain ⟨ihv, ihe, ihm⟩ := ih
    refine ⟨?_, ?_, ?_⟩
    · intro cs v r h
      rw [parseValue] at h
      repeat' split at h
      all_goals (try simp at h)
      all_goals (try (obtain ⟨rfl, -⟩ := h))
      all_goals (try simp [JSON.keysOk, keysOkList])
      · exact ihe _ _ _ (by assumption)
      · exact ⟨rfl, rfl⟩
      · have := keysOk_obj_buildMap _ (ihm _ _ _ (by assumption))
        simpa only [JSON.keysOk, Bool.and_eq_true] using this
    · intro cs xs r h
      rw [parseElems] at h
      repeat' split at h
      all_goals (try simp at h)
      all_goals (try (obtain ⟨rfl, -⟩ := h))
      · simp only [keysOkList, Bool.and_eq_true]
        exact ⟨ihv _ _ _ (by assumption), ihe _ _ _ (by assumption)⟩
      · simp only [keysOkList, Bool.and_eq_true]
        exact ⟨ihv _ _ _ (by assumption), trivial⟩
    · intro cs m r h
      rw [parseMembers] at h
      repeat' split at h
      all_goals (try simp at h)
      all_goals (try (obtain ⟨rfl, -⟩ := h))
      · simp only [keysOkMembers, Bool.and_eq_true]
        exact ⟨ihv _ _ _ (by assumption), ihm _ _ _ (by assumption)⟩
      · simp only [keysOkMembers, Bool.and_eq_true]
        exact ⟨ihv _ _ _ (by assumption), trivial⟩

/-- Every object of the value a text denotes has its keys in order. -/
theorem parseText_keysOk {s : String} {v : JSON} (h : parseText s = some v) :
    v.keysOk = true := by
  unfold parseText at h
  split at h
  · rename_i v' r heq
    split at h
    · simp only [Option.some.injEq] at h
      subst h
      exact (parse_keysOk_aux _).1 _ _ _ heq
    · simp at h
  · simp at h

theorem float64sMembers_cons {k : String} {x : JSON} {t m' : List (String × JSON)}
    (h : float64sMembers ((k, x) :: t) = some m') :
    ∃ y t', float64s x = some y ∧ float64sMembers t = some t' ∧ m' = (k, y) :: t' := by
  rw [float64sMembers] at h
  split at h
  · simp at h
  · rename_i y hy
    split at h
    · simp at h
    · rename_i t' ht
      simp only [Option.some.injEq] at h
      exact ⟨y, t', hy, ht, h.symm⟩

theorem float64sList_cons {x : JSON} {t ys : List JSON}
    (h : float64sList (x :: t) = some ys) :
    ∃ y t', float64s x = some y ∧ float64sList t = some t' ∧ ys = y :: t' := by
  rw [float64sList] at h
  split at h
  · simp at h
  · rename_i y hy
    split at h
    · simp at h
    · rename_i t' ht
      simp only [Option.some.injEq] at h
      exact ⟨y, t', hy, ht, h.symm⟩

theorem sortedKeys_float64s : ∀ (m m' : List (String × JSON)),
    float64sMembers m = some m' → sortedKeys m' = sortedKeys m
  | [], m', h => by
    simp only [float64sMembers, Option.some.injEq] at h
    rw [← h]
  | [(k, x)], m', h => by
    obtain ⟨y, t', -, ht, rfl⟩ := float64sMembers_cons h
    simp only [float64sMembers, Option.some.injEq] at ht
    rw [← ht]
    rfl
  | (k, x) :: (k2, x2) :: t, m', h => by
    obtain ⟨y, t', -, ht, rfl⟩ := float64sMembers_cons h
    have ih := sortedKeys_float64s ((k2, x2) :: t) t' ht
    obtain ⟨y2, t2, -, -, rfl⟩ := float64sMembers_cons ht
    simp only [sortedKeys] at ih ⊢
    rw [ih]

mutual
/-- The conversion of numbers to `float64` gives a well-formed value. -/
theorem float64s_wf : ∀ (v d : JSON), v.keysOk = true → float64s v = some d → d.wf = true
  | .null, d, _, h => by
    simp only [float64s, Option.some.injEq] at h
    rw [← h]; rfl
  | .bool b, d, _, h => by
    simp only [float64s, Option.some.injEq] at h
    rw [← h]; rfl
  | .num n, d, _, h => by
    rw [float64s] at h
    split at h
    · rename_i x hx
      simp only [Option.some.injEq] at h
      rw [← h, JSON.wf]
      exact isF64_of_parseFloat hx
    · simp at h
  | .str s, d, _, h => by
    simp only [float64s, Option.some.injEq] at h
    rw [← h]; rfl
  | .arr xs, d, hv, h => by
    rw [float64s] at h
    split at h
    · rename_i ys hys
      simp only [Option.some.injEq] at h
      rw [← h, JSON.wf]
      exact float64sList_wf xs ys (by simpa only [JSON.keysOk] using hv) hys
    · simp at h
  | .obj kvs, d, hv, h => by
    rw [float64s] at h
    split at h
    · rename_i m hm
      simp only [Option.some.injEq] at h
      simp only [JSON.keysOk, Bool.and_eq_true] at hv
      rw [← h, JSON.wf, Bool.and_eq_true]
      exact ⟨by rw [sortedKeys_float64s kvs m hm]; exact hv.1,
        float64sMembers_wf kvs m hv.2 hm⟩
    · simp at h
/-- The conversion on a list gives well-formed values. -/
theorem float64sList_wf : ∀ (xs ys : List JSON), keysOkList xs = true →
    float64sList xs = some ys → wfList ys = true
  | [], ys, _, h => by
    simp only [float64sList, Option.some.injEq] at h
    rw [← h]; rfl
  | x :: t, ys, hv, h => by
    obtain ⟨y, t', hy, ht, rfl⟩ := float64sList_cons h
    simp only [keysOkList, Bool.and_eq_true] at hv
    simp only [wfList, Bool.and_eq_true]
    exact ⟨float64s_wf x y hv.1 hy, float64sList_wf t t' hv.2 ht⟩
/-- The conversion on members gives well-formed values. -/
theorem float64sMembers_wf : ∀ (m m' : List (String × JSON)), keysOkMembers m = true →
    float64sMembers m = some m' → wfMembers m' = true
  | [], m', _, h => by
    simp only [float64sMembers, Option.some.injEq] at h
    rw [← h]; rfl
  | (k, x) :: t, m', hv, h => by
    obtain ⟨y, t', hy, ht, rfl⟩ := float64sMembers_cons h
    simp only [keysOkMembers, Bool.and_eq_true] at hv
    simp only [wfMembers, Bool.and_eq_true]
    exact ⟨float64s_wf x y hv.1 hy, float64sMembers_wf t t' hv.2 ht⟩
end

/-- Every value the decoder returns is well formed. -/
theorem parseJSON_wf {s : String} {v : JSON} (h : parseJSON s = some v) : v.wf = true := by
  unfold parseJSON at h
  split at h
  · simp at h
  · rename_i raw hraw
    exact float64s_wf raw v (parseText_keysOk hraw) h

mutual
/-- The conversion to `float64` of a well-formed value as written is the
value. -/
theorem float64s_asWritten : ∀ (v : JSON), v.wf = true → float64s v.asWritten = some v
  | .null, _ => rfl
  | .bool _, _ => rfl
  | .num n, hv => by
    rw [JSON.asWritten, float64s, parseFloat_shortest (by simpa only [JSON.wf] using hv)]
  | .str _, _ => rfl
  | .arr xs, hv => by
    rw [JSON.asWritten, float64s, float64sList_asWritten xs (by simpa only [JSON.wf] using hv)]
  | .obj kvs, hv => by
    simp only [JSON.wf, Bool.and_eq_true] at hv
    rw [JSON.asWritten, float64s, float64sMembers_asWritten kvs hv.2]
/-- The conversion of the elements as written. -/
theorem float64sList_asWritten : ∀ (xs : List JSON), wfList xs = true →
    float64sList (asWrittenList xs) = some xs
  | [], _ => rfl
  | x :: t, hv => by
    simp only [wfList, Bool.and_eq_true] at hv
    rw [asWrittenList, float64sList, float64s_asWritten x hv.1, float64sList_asWritten t hv.2]
/-- The conversion of the members as written. -/
theorem float64sMembers_asWritten : ∀ (m : List (String × JSON)), wfMembers m = true →
    float64sMembers (asWrittenMembers m) = some m
  | [], _ => rfl
  | (k, x) :: t, hv => by
    simp only [wfMembers, Bool.and_eq_true] at hv
    rw [asWrittenMembers, float64sMembers, float64s_asWritten x hv.1,
      float64sMembers_asWritten t hv.2]
end

mutual
theorem weight_le_length : ∀ (v : JSON), v.weight ≤ (encodeValue v).length
  | .null => by simp [JSON.weight, encodeValue]
  | .bool true => by simp [JSON.weight, encodeValue]
  | .bool false => by simp [JSON.weight, encodeValue]
  | .num n => by
    obtain ⟨d, t, hdt, _⟩ := encodeNumber_head n
    simp [JSON.weight, encodeValue, hdt]
  | .str s => by simp [JSON.weight, encodeValue, encodeString]
  | .arr xs => by
    have := weightList_le_length xs
    simp only [JSON.weight, encodeValue, List.length_cons]
    omega
  | .obj kvs => by
    have := weightMembers_le_length kvs
    simp only [JSON.weight, encodeValue, List.length_cons]
    omega
theorem weightList_le_length : ∀ (xs : List JSON), weightList xs ≤ (encodeElems xs).length
  | [] => by simp [weightList]
  | [x] => by
    have := weight_le_length x
    simp only [weightList, encodeElems, List.length_append, List.length_singleton]
    omega
  | x :: y :: t => by
    have := weight_le_length x
    have := weightList_le_length (y :: t)
    simp only [encodeElems, List.length_append, List.length_cons]
    rw [weightList]
    omega
theorem weightMembers_le_length :
    ∀ (m : List (String × JSON)), weightMembers m ≤ (encodeMembers m).length
  | [] => by simp [weightMembers]
  | [(k, x)] => by
    have := weight_le_length x
    simp only [weightMembers, encodeMembers, List.length_append, List.length_cons,
      List.length_singleton]
    omega
  | (k, x) :: y :: t => by
    have := weight_le_length x
    have := weightMembers_le_length (y :: t)
    simp only [encodeMembers, List.length_append, List.length_cons]
    rw [weightMembers]
    omega
end

/-- The function `json.Unmarshal` reads back what `json.Marshal` wrote. -/
theorem parseJSON_encode (v : JSON) (hv : v.wf = true) :
    parseJSON (String.mk (encodeValue v)) = some v := by
  have h := parseValue_encode v hv ((encodeValue v).length + 1) []
    (Nat.le_succ_of_le (weight_le_length v)) rfl
  rw [List.append_nil] at h
  have ht : parseText (String.mk (encodeValue v)) = some v.asWritten := by
    simp only [parseText, String.length, String.toList, h, skipWs, if_true]
  rw [parseJSON, ht]
  exact float64s_asWritten v hv

/-! ## The decoder never stops for lack of calls -/

theorem skipWs_length_le (cs : List Char) : (skipWs cs).length ≤ cs.length := by
  induction cs with
  | nil => simp [skipWs]
  | cons c t ih =>
    simp only [skipWs]
    split
    · simp only [List.length_cons]; omega
    · exact Nat.le_refl _

theorem parseChars_length_lt (cs : List Char) (skip : Nat) (acc : List Char) (s : String)
    (r : List Char) (h : parseChars cs skip acc = some (s, r)) : r.length < cs.length := by
  induction cs generalizing skip acc with
  | nil => simp [parseChars] at h
  | cons c t ih =>
    cases skip with
    | succ k =>
      rw [parseChars] at h
      have := ih k acc h
      simp only [List.length_cons]; omega
    | zero =>
      rw [parseChars] at h
      split at h
      · simp only [Option.some.injEq, Prod.mk.injEq] at h
        rw [← h.2]
        simp
      · split at h
        · simp at h
        · have := ih _ _ h
          simp only [List.length_cons]; omega

theorem spanDigits_length_le (cs : List Char) : (spanDigits cs).2.length ≤ cs.length := by
  induction cs with
  | nil => simp [spanDigits]
  | cons c t ih =>
    simp only [spanDigits]
    split
    · simp only [List.length_cons]; omega
    · exact Nat.le_refl _

theorem parseInt_length_lt {cs ip r : List Char} (h : parseInt cs = some (ip, r)) :
    r.length < cs.length := by
  unfold parseInt at h
  split at h
  · simp at h
  · rename_i d t
    split at h
    · simp only [Option.some.injEq, Prod.mk.injEq] at h
      rw [← h.2]; simp
    · split at h
      · rename_i hd
        simp only [Option.some.injEq] at h
        have h2 : (spanDigits (d :: t)).2 = r := by rw [h]
        rw [← h2]
        simp only [spanDigits, hd, if_true, List.length_cons]
        have := spanDigits_length_le t
        omega
      · simp at h

theorem parseFrac_length_le {cs fp r : List Char} (h : parseFrac cs = some (fp, r)) :
    r.length ≤ cs.length := by
  unfold parseFrac at h
  split at h
  · rename_i t
    split at h
    · simp at h
    · simp only [Option.some.injEq] at h
      have h2 : (spanDigits t).2 = r := by rw [h]
      rw [← h2]
      have := spanDigits_length_le t
      simp only [List.length_cons]
      omega
  · simp only [Option.some.injEq, Prod.mk.injEq] at h
    rw [← h.2]

theorem parseExpDigits_length_le {neg : Bool} {cs r : List Char} {x : Int}
    (h : parseExpDigits neg cs = some (x, r)) : r.length ≤ cs.length := by
  unfold parseExpDigits at h
  split at h
  · simp at h
  · simp only [Option.some.injEq, Prod.mk.injEq] at h
    rw [← h.2]
    exact spanDigits_length_le cs

theorem parseExp_length_le {cs r : List Char} {x : Int} (h : parseExp cs = some (x, r)) :
    r.length ≤ cs.length := by
  unfold parseExp at h
  split at h
  · simp only [Option.some.injEq, Prod.mk.injEq] at h
    rw [← h.2]
  · rename_i c t
    split at h
    · split at h
      · have := parseExpDigits_length_le h
        simp only [List.length_cons]; omega
      · have := parseExpDigits_length_le h
        simp only [List.length_cons]; omega
      · have := parseExpDigits_length_le h
        simp only [List.length_cons]; omega
    · simp only [Option.some.injEq, Prod.mk.injEq] at h
      rw [← h.2]

theorem parseUnsigned_length_lt {neg : Bool} {cs r : List Char} {n : Dec}
    (h : parseUnsigned neg cs = some (n, r)) : r.length < cs.length := by
  unfold parseUnsigned at h
  split at h
  · simp at h
  · rename_i ip r1 h1
    split at h
    · simp at h
    · rename_i fp r2 h2
      split at h
      · simp at h
      · rename_i x r3 h3
        simp only [Option.some.injEq, Prod.mk.injEq] at h
        have := parseInt_length_lt h1
        have := parseFrac_length_le h2
        have := parseExp_length_le h3
        rw [← h.2]
        omega

theorem parseNumber_length_lt (cs : List Char) (n : Dec) (r : List Char)
    (h : parseNumber cs = some (n, r)) : r.length < cs.length := by
  unfold parseNumber at h
  split at h
  · have := parseUnsigned_length_lt h
    simp only [List.length_cons]; omega
  · exact parseUnsigned_length_lt h

theorem parse_adequate_aux (f : Nat) :
    (∀ cs v r, parseValue f cs = some (v, r) →
      ∃ w, w + r.length ≤ cs.length ∧ ∀ f', w ≤ f' → parseValue f' cs = some (v, r)) ∧
    (∀ cs xs r, parseElems f cs = some (xs, r) →
      ∃ w, w + r.length ≤ cs.length ∧ ∀ f', w ≤ f' → parseElems f' cs = some (xs, r)) ∧
    (∀ cs m r, parseMembers f cs = some (m, r) →
      ∃ w, w + r.length ≤ cs.length ∧ ∀ f', w ≤ f' → parseMembers f' cs = some (m, r)) := by
  induction f with
  | zero => simp [parseValue, parseElems, parseMembers]
  | succ f ih =>
    obtain ⟨ihv, ihe, ihm⟩ := ih
    refine ⟨?_, ?_, ?_⟩
    · intro cs v r h
      have hws := skipWs_length_le cs
      rw [parseValue] at h
      split at h
      · simp at h
      · rename_i c t hsk
        rw [hsk] at hws
        simp only [List.length_cons] at hws
        by_cases hw1 : ∃ w, w + r.length ≤ t.length ∧
            ∀ f'', w ≤ f'' → parseValue (f'' + 1) cs = some (v, r)
        · obtain ⟨w, hw, hf⟩ := hw1
          refine ⟨w + 1, by omega, ?_⟩
          intro f' hf'
          obtain ⟨f'', rfl⟩ : ∃ f'', f' = f'' + 1 := ⟨f' - 1, by omega⟩
          exact hf f'' (by omega)
        · exfalso
          apply hw1
          split at h
          · split at h
            · simp only [Option.some.injEq, Prod.mk.injEq] at h
              obtain ⟨rfl, rfl⟩ := h
              refine ⟨0, by simp only [List.length_cons]; omega, ?_⟩
              intro f'' _
              rw [parseValue, hsk]
              simp only [*, if_true, Char.reduceEq]
            · simp at h
          · split at h
            · split at h
              · simp only [Option.some.injEq, Prod.mk.injEq] at h
                obtain ⟨rfl, rfl⟩ := h
                refine ⟨0, by simp only [List.length_cons]; omega, ?_⟩
                intro f'' _
                rw [parseValue, hsk]
                simp only [*, if_true, if_false, Char.reduceEq]
              · simp at h
            · split at h
              · split at h
                · simp only [Option.some.injEq, Prod.mk.injEq] at h
                  obtain ⟨rfl, rfl⟩ := h
                  refine ⟨0, by simp only [List.length_cons]; omega, ?_⟩
                  intro f'' _
                  rw [parseValue, hsk]
                  simp only [*, if_true, if_false, Char.reduceEq]
                · simp at h
              · split at h
                · split at h
                  · rename_i s r' hpc
                    simp only [Option.some.injEq, Prod.mk.injEq] at h
                    obtain ⟨rfl, rfl⟩ := h
                    have := parseChars_length_lt _ _ _ _ _ hpc
                    refine ⟨0, by omega, ?_⟩
                    intro f'' _
                    rw [parseValue, hsk]
                    simp only [*, if_true, if_false, Char.reduceEq]
                  · simp at h
                · split at h
                  · have hws2 := skipWs_length_le t
                    split at h
                    · rename_i r' hsk2
                      rw [hsk2] at hws2
                      simp only [Option.some.injEq, Prod.mk.injEq] at h
                      obtain ⟨rfl, rfl⟩ := h
                      refine ⟨0, by simp only [List.length_cons] at hws2; omega, ?_⟩
                      intro f'' _
                      rw [parseValue, hsk]
                      simp only [*, if_true, if_false, Char.reduceEq]
                    · rename_i hnot
                      split at h
                      · rename_i xs r' hpe
                        simp only [Option.some.injEq, Prod.mk.injEq] at h
                        obtain ⟨rfl, rfl⟩ := h
                        obtain ⟨w, hw, hf⟩ := ihe _ _ _ hpe
                        refine ⟨w, by omega, ?_⟩
                        intro f'' hf''
                        rw [parseValue, hsk]
                        simp only [*, if_true, if_false, Char.reduceEq]
                      · simp at h
                  · split at h
                    · have hws2 := skipWs_length_le t
                      split at h
                      · rename_i r' hsk2
                        rw [hsk2] at hws2
                        simp only [Option.some.injEq, Prod.mk.injEq] at h
                        obtain ⟨rfl, rfl⟩ := h
                        refine ⟨0, by simp only [List.length_cons] at hws2; omega, ?_⟩
                        intro f'' _
                        rw [parseValue, hsk]
                        simp only [*, if_true, if_false, Char.reduceEq]
                      · rename_i hnot
                        split at h
                        · rename_i raw r' hpm
                          simp only [Option.some.injEq, Prod.mk.injEq] at h
                          obtain ⟨rfl, rfl⟩ := h
                          obtain ⟨w, hw, hf⟩ := ihm _ _ _ hpm
                          refine ⟨w, by omega, ?_⟩
                          intro f'' hf''
                          rw [parseValue, hsk]
                          simp only [*, if_true, if_false, Char.reduceEq]
                        · simp at h
                    · split at h
                      · rename_i n r' hpn
                        simp only [Option.some.injEq, Prod.mk.injEq] at h
                        obtain ⟨rfl, rfl⟩ := h
                        have := parseNumber_length_lt _ _ _ hpn
                        simp only [List.length_cons] at this
                        refine ⟨0, by omega, ?_⟩
                        intro f'' _
                        rw [parseValue, hsk]
                        simp only [*, if_true, if_false, Char.reduceEq]
                      · simp at h
    · intro cs xs r h
      rw [parseElems] at h
      split at h
      · simp at h
      · rename_i v r1 hpv
        obtain ⟨w1, hw1, hf1⟩ := ihv _ _ _ hpv
        have hws := skipWs_length_le r1
        split at h
        · rename_i r' hsk
          rw [hsk] at hws
          simp only [List.length_cons] at hws
          split at h
          · rename_i vs r'' hpe
            simp only [Option.some.injEq, Prod.mk.injEq] at h
            obtain ⟨rfl, rfl⟩ := h
            obtain ⟨w2, hw2, hf2⟩ := ihe _ _ _ hpe
            refine ⟨w1 + w2 + 1, by omega, ?_⟩
            intro f' hf'
            obtain ⟨f'', rfl⟩ : ∃ f'', f' = f'' + 1 := ⟨f' - 1, by omega⟩
            rw [parseElems, hf1 f'' (by omega)]
            simp only [hsk, hf2 f'' (by omega)]
          · simp at h
        · rename_i r' hsk
          rw [hsk] at hws
          simp only [List.length_cons] at hws
          simp only [Option.some.injEq, Prod.mk.injEq] at h
          obtain ⟨rfl, rfl⟩ := h
          refine ⟨w1 + 1, by omega, ?_⟩
          intro f' hf'
          obtain ⟨f'', rfl⟩ : ∃ f'', f' = f'' + 1 := ⟨f' - 1, by omega⟩
          rw [parseElems, hf1 f'' (by omega)]
          simp only [hsk]
        · simp at h
    · intro cs m r h
      have hws0 := skipWs_length_le cs
      rw [parseMembers] at h
      split at h
      · rename_i r0 hsk0
        rw [hsk0] at hws0
        simp only [List.length_cons] at hws0
        split at h
        · simp at h
        · rename_i k r1 hpc
          have hk := parseChars_length_lt _ _ _ _ _ hpc
          have hws1 := skipWs_length_le r1
          split at h
          · rename_i r2 hsk1
            rw [hsk1] at hws1
            simp only [List.length_cons] at hws1
            split at h
            · simp at h
            · rename_i v r3 hpv
              obtain ⟨w1, hw1, hf1⟩ := ihv _ _ _ hpv
              have hws3 := skipWs_length_le r3
              split at h
              · rename_i r4 hsk3
                rw [hsk3] at hws3
                simp only [List.length_cons] at hws3
                split at h
                · rename_i kvs r5 hpm
                  simp only [Option.some.injEq, Prod.mk.injEq] at h
                  obtain ⟨rfl, rfl⟩ := h
                  obtain ⟨w2, hw2, hf2⟩ := ihm _ _ _ hpm
                  refine ⟨w1 + w2 + 1, by omega, ?_⟩
                  intro f' hf'
                  obtain ⟨f'', rfl⟩ : ∃ f'', f' = f'' + 1 := ⟨f' - 1, by omega⟩
                  rw [parseMembers]
                  simp only [hsk0, hpc, hsk1, hf1 f'' (by omega), hsk3, hf2 f'' (by omega)]
                · simp at h
              · rename_i r4 hsk3
                rw [hsk3] at hws3
                simp only [List.length_cons] at hws3
                simp only [Option.some.injEq, Prod.mk.injEq] at h
                obtain ⟨rfl, rfl⟩ := h
                refine ⟨w1 + 1, by omega, ?_⟩
                intro f' hf'
                obtain ⟨f'', rfl⟩ : ∃ f'', f' = f'' + 1 := ⟨f' - 1, by omega⟩
                rw [parseMembers]
                simp only [hsk0, hpc, hsk1, hf1 f'' (by omega), hsk3]
              · simp at h
          · simp at h
      · simp at h

/-- The bound on nested calls that `parseText` passes to the decoder never
makes it reject a text: whatever number of calls decodes the whole text,
`parseText` decodes it to the same value. -/
theorem parseText_adequate (s : String) (f : Nat) (v : JSON) (r : List Char)
    (h : parseValue f s.toList = some (v, r)) (hr : skipWs r = []) :
    parseText s = some v := by
  obtain ⟨w, hw, hf⟩ := (parse_adequate_aux f).1 _ _ _ h
  have hlen : w ≤ s.length + 1 := by
    have : s.toList.length = s.length := rfl
    omega
  simp only [parseText, hf _ hlen, hr, if_true]

/-! ## The program computes the value-level walk -/

theorem wf_getD (xs : List JSON) (i : Nat) (h : wfList xs = true) :
    (xs.getD i .null).wf = true := by
  induction xs generalizing i with
  | nil => rfl
  | cons x t ih =>
    simp only [wfList, Bool.and_eq_true] at h
    cases i with
    | zero => exact h.1
    | succ j => exact ih j h.2

theorem wf_lookupKey (kvs : List (String × JSON)) (k : String) (h : wfMembers kvs = true) :
    ((lookupKey k kvs).getD .null).wf = true := by
  induction kvs with
  | nil => rfl
  | cons p t ih =>
    obtain ⟨k1, v1⟩ := p
    simp only [wfMembers, Bool.and_eq_true] at h
    simp only [lookupKey]
    split
    · exact h.1
    · exact ih h.2

theorem wf_set (xs : List JSON) (i : Nat) (v : JSON) (h : wfList xs = true)
    (hv : v.wf = true) : wfList (xs.set i v) = true := by
  induction xs generalizing i with
  | nil => rfl
  | cons x t ih =>
    simp only [wfList, Bool.and_eq_true] at h
    cases i with
    | zero => simp [List.set, wfList, hv, h.2]
    | succ j => simp [List.set, wfList, h.1, ih j h.2]

theorem wf_insertKey (kvs : List (String × JSON)) (k : String) (v : JSON)
    (h : (JSON.obj kvs).wf = true) (hv : v.wf = true) :
    (JSON.obj (insertKey k v kvs)).wf = true := by
  simp only [JSON.wf, Bool.and_eq_true] at h ⊢
  exact ⟨sortedKeys_insertKey k v h.1, wfMembers_insertKey k v kvs hv h.2⟩

/-- A successful step of the walk returns a well-formed value. -/
theorem stepVal_wf {key : String} {d x : JSON} (hd : d.wf = true)
    (h : stepVal key d = (x, none)) : x.wf = true := by
  unfold stepVal at h
  split at h
  · cases d with
    | arr xs =>
      simp only [asList] at h
      split at h
      · exact absurd (congrArg Prod.snd h) (by simp)
      · have hx : _ = x := congrArg Prod.fst h
        rw [← hx]
        exact wf_getD _ _ (by simpa only [JSON.wf] using hd)
    | null =>
      simp only [asList] at h
      split at h
      · exact absurd (congrArg Prod.snd h) (by simp)
      · have hx : _ = x := congrArg Prod.fst h
        rw [← hx]
        rfl
    | bool b => exact absurd (congrArg Prod.snd h) (by simp [asList])
    | num n => exact absurd (congrArg Prod.snd h) (by simp [asList])
    | str n => exact absurd (congrArg Prod.snd h) (by simp [asList])
    | obj n => exact absurd (congrArg Prod.snd h) (by simp [asList])
  · cases d with
    | obj kvs =>
      simp only [asMap] at h
      have hx : _ = x := congrArg Prod.fst h
      rw [← hx]
      simp only [JSON.wf, Bool.and_eq_true] at hd
      exact wf_lookupKey _ _ hd.2
    | null =>
      simp only [asMap] at h
      have hx : _ = x := congrArg Prod.fst h
      rw [← hx]
      rfl
    | bool b => exact absurd (congrArg Prod.snd h) (by simp [asMap])
    | num n => exact absurd (congrArg Prod.snd h) (by simp [asMap])
    | str n => exact absurd (congrArg Prod.snd h) (by simp [asMap])
    | arr n => exact absurd (congrArg Prod.snd h) (by simp [asMap])

theorem getNewVal_of_parse {s : String} {d : JSON} (key : String)
    (h : parseJSON s = some d) : getNewVal key s = stepVal key d := by
  unfold getNewVal stepVal getList getMap unmarshalList unmarshalMap normIndex
  rw [h]

theorem getNewVal_of_invalid {s : String} (key : String) (h : parseJSON s = none) :
    getNewVal key s = (.null, some (unmarshalError s)) := by
  unfold getNewVal getList getMap unmarshalList unmarshalMap
  rw [h]
  split <;> rfl

/-- The function `get` on a text that decodes to `d` is the value-level walk on `d`. -/
theorem get_of_parse (keys : List String) (key : String) {s : String} {d : JSON}
    (h : parseJSON s = some d) (hd : d.wf = true) :
    get s (key :: keys) = getVal d (key :: keys) := by
  induction keys generalizing key s d with
  | nil =>
    simp only [get, getVal, getNewVal_of_parse key h, List.length_nil, if_true]
  | cons k2 ks ih =>
    rw [get, getVal, getNewVal_of_parse key h]
    rcases hs : stepVal key d with ⟨x, _ | e⟩
    · have hx := stepVal_wf hd hs
      simp only [List.length_cons, Nat.succ_ne_zero, if_false, jsonMarshal]
      exact ih k2 (parseJSON_encode x hx) hx
    · simp only

/-- The function `get` on a text that does not decode fails with the error of
`json.Unmarshal`. -/
theorem get_of_invalid (keys : List String) (key : String) {s : String}
    (h : parseJSON s = none) : get s (key :: keys) = (.null, some (unmarshalError s)) := by
  rw [get, getNewVal_of_invalid key h]

theorem asList_wf {d : JSON} {xs : List JSON} (hd : d.wf = true) (h : asList d = .ok xs) :
    wfList xs = true := by
  cases d with
  | null => simp only [asList, Except.ok.injEq] at h; subst h; rfl
  | arr ys => simp only [asList, Except.ok.injEq] at h; subst h; simpa only [JSON.wf] using hd
  | bool b => simp [asList] at h
  | num b => simp [asList] at h
  | str b => simp [asList] at h
  | obj b => simp [asList] at h

theorem asMap_wf {d : JSON} {m : Option (List (String × JSON))} (key : String)
    (hd : d.wf = true) (h : asMap d = .ok m) : (mapIndex m key).wf = true := by
  cases d with
  | null => simp only [asMap, Except.ok.injEq] at h; subst h; rfl
  | obj kvs =>
    simp only [asMap, Except.ok.injEq] at h
    subst h
    simp only [JSON.wf, Bool.and_eq_true] at hd
    exact wf_lookupKey _ _ hd.2
  | bool b => simp [asMap] at h
  | num b => simp [asMap] at h
  | str b => simp [asMap] at h
  | arr b => simp [asMap] at h

/-- The function `setNewVal` on a text that decodes to `d` is the value-level walk on `d`. -/
theorem setNewVal_of_parse (keys : List String) (key : String) {s : String} {d : JSON}
    (h : parseJSON s = some d) (hd : d.wf = true) (val : JSON) :
    setNewVal s (key :: keys) val = setVal d (key :: keys) val := by
  induction keys generalizing key s d with
  | nil =>
    unfold setNewVal setVal setList setMap unmarshalList unmarshalMap normIndex
    rw [h]
    simp only [List.length_nil, if_true]
  | cons k2 ks ih =>
    rw [setNewVal, setVal]
    unfold setList setMap unmarshalList unmarshalMap
    rw [h]
    simp only [List.length_cons, Nat.succ_ne_zero, if_false, jsonMarshal]
    split
    · rcases hl : asList d with e | xs
      · rfl
      · simp only [normIndex]
        generalize (if getIndexFromKey key < 0 then (xs.length : Int) + getIndexFromKey key
          else getIndexFromKey key) = i
        split
        · rfl
        · rw [ih k2 (parseJSON_encode _ (wf_getD xs _ (asList_wf hd hl)))
            (wf_getD xs _ (asList_wf hd hl))]
    · rcases hm : asMap d with e | m
      · rfl
      · simp only
        rw [ih k2 (parseJSON_encode _ (asMap_wf key hd hm)) (asMap_wf key hd hm)]

/-- The function `setNewVal` on a text that does not decode returns the error of
`json.Unmarshal`. -/
theorem setNewVal_of_invalid (keys : List String) (key : String) {s : String}
    (h : parseJSON s = none) (val : JSON) :
    setNewVal s (key :: keys) val = .ret (.null, some (unmarshalError s)) := by
  rw [setNewVal]
  unfold setList setMap unmarshalList unmarshalMap
  rw [h]
  split <;> rfl

/-! ## `Get` and `Set` on a decoded document -/

theorem splitDots_ne_nil (cs : List Char) : splitDots cs ≠ [] := by
  cases cs with
  | nil => simp [splitDots]
  | cons c t =>
    simp only [splitDots]
    split
    · simp
    · split <;> simp

/-- The function `strings.Split` never returns an empty slice. -/
theorem stringsSplit_ne_nil (key : String) : stringsSplit key ≠ [] := by
  unfold stringsSplit
  intro h
  exact splitDots_ne_nil _ (List.map_eq_nil_iff.1 h)

theorem stringsSplit_cons (key : String) : ∃ k ks, stringsSplit key = k :: ks := by
  cases h : stringsSplit key with
  | nil => exact absurd h (stringsSplit_ne_nil key)
  | cons k ks => exact ⟨k, ks, rfl⟩

/-- The function `Get` on a document that decodes to `d`. -/
theorem Get_of_parse {doc : String} {d : JSON} (path : String) (h : parseJSON doc = some d) :
    Get doc path =
      match getVal d (stringsSplit path) with
      | (val, some err) => (val, some (.cannotFetch path doc err))
      | (val, none) => (val, none) := by
  obtain ⟨k, ks, hk⟩ := stringsSplit_cons path
  have hg := get_of_parse ks k h (parseJSON_wf h)
  unfold Get
  rw [hk]
  dsimp only
  rw [hg]

/-- The function `Set` on a document that decodes to `d`. -/
theorem Set_of_parse {doc : String} {d : JSON} (path : String) (val : JSON)
    (h : parseJSON doc = some d) :
    Set doc path val =
      match setVal d (stringsSplit path) val with
      | .panic p => .panic p
      | .ret (_, some err) => .ret (doc, some (.cannotFetch path doc err))
      | .ret (newVal, none) => .ret (String.mk (encodeValue newVal), none) := by
  obtain ⟨k, ks, hk⟩ := stringsSplit_cons path
  unfold Set set
  simp only [hk, setNewVal_of_parse ks k h (parseJSON_wf h), List.length_cons,
    Nat.succ_ne_zero, if_false, jsonMarshal]
  rcases setVal d (k :: ks) val with ⟨x, _ | e⟩ | p <;> rfl

/-- The function `Set` on a text that does not decode returns the text and the wrapped decode
error. -/
theorem Set_of_invalid {doc : String} (path : String) (val : JSON)
    (h : parseJSON doc = none) :
    Set doc path val = .ret (doc, some (.cannotFetch path doc (unmarshalError doc))) := by
  obtain ⟨k, ks, hk⟩ := stringsSplit_cons path
  unfold Set set
  simp only [hk, setNewVal_of_invalid ks k h, List.length_cons, Nat.succ_ne_zero, if_false]

/-! ## The value-level walk -/

theorem getVal_error_null {d x : JSON} {keys : List String} {e : GoError}
    (h : getVal d keys = (x, some e)) : x = .null := by
  induction keys generalizing d with
  | nil => simp [getVal] at h
  | cons k ks ih =>
    rw [getVal] at h
    rcases hs : stepVal k d with ⟨y, _ | e'⟩
    · rw [hs] at h; exact ih h
    · rw [hs] at h
      exact (congrArg Prod.fst h).symm

/-- The walk over a concatenated key list is the walk over the first part
followed by the walk over the second. -/
theorem getVal_append (d : JSON) (p q : List String) :
    getVal d (p ++ q) =
      match getVal d p with
      | (x, none) => getVal x q
      | (_, some e) => (.null, some e) := by
  induction p generalizing d with
  | nil => rfl
  | cons k ks ih =>
    simp only [List.cons_append, getVal]
    rcases hs : stepVal k d with ⟨y, _ | e'⟩
    · exact ih y
    · rfl

theorem getVal_wf {d x : JSON} {keys : List String} (hd : d.wf = true)
    (h : getVal d keys = (x, none)) : x.wf = true := by
  induction keys generalizing d with
  | nil =>
    simp only [getVal, Prod.mk.injEq, and_true] at h
    exact h ▸ hd
  | cons k ks ih =>
    rw [getVal] at h
    rcases hs : stepVal k d with ⟨y, _ | e'⟩
    · rw [hs] at h
      exact ih (stepVal_wf hd hs) h
    · rw [hs] at h
      exact absurd (congrArg Prod.snd h) (by simp)

/-- One resolved level is one successful step of the walk. -/
theorem stepVal_arr (key : String) (xs : List JSON) (hk : isListKey key = true)
    (h0 : 0 ≤ normIndex (getIndexFromKey key) xs.length)
    (h1 : normIndex (getIndexFromKey key) xs.length < (xs.length : Int)) :
    stepVal key (.arr xs) =
      (xs.getD (normIndex (getIndexFromKey key) xs.length).toNat .null, none) := by
  unfold stepVal
  rw [if_pos hk]
  simp only [asList]
  rw [if_neg (by omega)]

theorem stepVal_arr_oob (key : String) (xs : List JSON) (hk : isListKey key = true)
    (h : normIndex (getIndexFromKey key) xs.length < 0 ∨
      (xs.length : Int) ≤ normIndex (getIndexFromKey key) xs.length) :
    stepVal key (.arr xs) = (.null, some .indexOutOfBound) := by
  unfold stepVal
  rw [if_pos hk]
  simp only [asList]
  rw [if_pos (by omega)]

theorem stepVal_obj (key : String) (kvs : List (String × JSON)) (hk : isListKey key = false) :
    stepVal key (.obj kvs) = ((lookupKey key kvs).getD .null, none) := by
  unfold stepVal
  rw [if_neg (by simp [hk])]
  rfl

/-- A path that resolves is walked without error to the value it addresses. -/
theorem getVal_of_resolve {d x : JSON} {keys : List String}
    (h : resolvePath d keys = some x) : getVal d keys = (x, none) := by
  induction keys generalizing d with
  | nil =>
    simp only [resolvePath, Option.some.injEq] at h
    rw [getVal, h]
  | cons k ks ih =>
    by_cases hk : isListKey k = true
    · cases d with
      | arr xs =>
        simp only [resolvePath, hk, if_true] at h
        split at h
        · rename_i hr
          rw [getVal, stepVal_arr k xs hk hr.1 hr.2]
          exact ih h
        · simp at h
      | null => simp [resolvePath, hk] at h
      | bool b => simp [resolvePath, hk] at h
      | num b => simp [resolvePath, hk] at h
      | str b => simp [resolvePath, hk] at h
      | obj b => simp [resolvePath, hk] at h
    · have hk' : isListKey k = false := by simpa using hk
      cases d with
      | obj kvs =>
        simp only [resolvePath, hk', Bool.false_eq_true, if_false] at h
        cases hy : lookupKey k kvs with
        | none => simp [hy] at h
        | some y =>
          rw [hy] at h
          rw [getVal, stepVal_obj k kvs hk', hy]
          exact ih h
      | null => simp [resolvePath, hk] at h
      | bool b => simp [resolvePath, hk] at h
      | num b => simp [resolvePath, hk] at h
      | str b => simp [resolvePath, hk] at h
      | arr b => simp [resolvePath, hk] at h

/-! ## Index segments -/

theorem atoi_neg (ds : List Char) (hne : ds ≠ []) (hd : ds.all isDigit = true) :
    atoi ('-' :: ds) =
      if digitsToNat ds 0 ≤ 2 ^ 63 then some (-((digitsToNat ds 0 : Nat) : Int)) else none := by
  simp only [atoi, hne, hd, false_or, Bool.true_eq_false, if_false]

theorem atoi_digits (ds : List Char) (hne : ds ≠ []) (hd : ds.all isDigit = true) :
    atoi ds =
      if digitsToNat ds 0 < 2 ^ 63 then some ((digitsToNat ds 0 : Nat) : Int) else none := by
  cases ds with
  | nil => exact absurd rfl hne
  | cons c t =>
    have hc : isDigit c = true := by
      simp only [List.all_cons, Bool.and_eq_true] at hd; exact hd.1
    have h1 : c ≠ '-' := by intro e; subst e; exact absurd hc (by decide)
    have h2 : c ≠ '+' := by intro e; subst e; exact absurd hc (by decide)
    unfold atoi
    split
    · rename_i heq
      simp only [List.cons.injEq] at heq
      exact absurd heq.1 h1
    · rename_i heq
      simp only [List.cons.injEq] at heq
      exact absurd heq.1 h2
    · simp only [hne, hd, false_or, Bool.true_eq_false, if_false]

theorem spanDigits_eq {r ds rest : List Char} (h : spanDigits r = (ds, rest)) :
    r = ds ++ rest ∧ ds.all isDigit = true ∧ headIsDigit rest = false := by
  have := spanDigits_spec r
  rw [h] at this
  exact ⟨this.1.symm, this.2.1, this.2.2⟩

/-- The shape of a segment that matches the anchored pattern. -/
theorem indexOfSegment_shape {s : String} {n : Int} (h : indexOfSegment s = some n) :
    ∃ ds, ds ≠ [] ∧ ds.all isDigit = true ∧
      ((s.toList = '[' :: '-' :: (ds ++ [']']) ∧ n = -((digitsToNat ds 0 : Nat) : Int)) ∨
       (s.toList = '[' :: (ds ++ [']']) ∧ n = ((digitsToNat ds 0 : Nat) : Int))) := by
  unfold indexOfSegment at h
  split at h
  · rename_i r heq
    split at h
    · rename_i ds hsp
      obtain ⟨hr, hd, -⟩ := spanDigits_eq hsp
      split at h
      · simp at h
      · rename_i hne
        simp only [Option.some.injEq] at h
        exact ⟨ds, hne, hd, Or.inl ⟨by rw [heq, hr], h.symm⟩⟩
    · simp at h
  · rename_i r hnot heq
    split at h
    · rename_i ds hsp
      obtain ⟨hr, hd, -⟩ := spanDigits_eq hsp
      split at h
      · simp at h
      · rename_i hne
        simp only [Option.some.injEq] at h
        exact ⟨ds, hne, hd, Or.inr ⟨by rw [heq, hr], h.symm⟩⟩
    · simp at h
  · simp at h

theorem head_digit_ne_minus {ds : List Char} (hne : ds ≠ []) (hd : ds.all isDigit = true)
    (rest : List Char) : ∀ r1, ds ++ rest ≠ '-' :: r1 := by
  intro r1 e
  cases ds with
  | nil => exact hne rfl
  | cons c t =>
    simp only [List.cons_append, List.cons.injEq] at e
    simp only [List.all_cons, Bool.and_eq_true] at hd
    rw [e.1] at hd
    exact absurd hd.1 (by decide)

theorem matchListKeyAt_neg (ds : List Char) (hne : ds ≠ []) (hd : ds.all isDigit = true)
    (post : List Char) :
    matchListKeyAt ('[' :: '-' :: (ds ++ ']' :: post)) = some ('-' :: ds) := by
  have hsp := spanDigits_append ds (']' :: post) hd rfl
  simp only [matchListKeyAt, hsp, hne, if_false]

theorem matchListKeyAt_pos (ds : List Char) (hne : ds ≠ []) (hd : ds.all isDigit = true)
    (post : List Char) :
    matchListKeyAt ('[' :: (ds ++ ']' :: post)) = some ds := by
  have hsp := spanDigits_append ds (']' :: post) hd rfl
  unfold matchListKeyAt
  simp only
  split
  · rename_i r1 heq
    exact absurd heq (head_digit_ne_minus hne hd _ r1)
  · simp only [hsp, hne, if_false]

/-- On a segment of the exact form `[n]` the program finds the index `n` when
`n` fits a 64-bit `int`, and `-1` otherwise. -/
theorem getIndexFromKey_of_anchored {s : String} {n : Int} (h : indexOfSegment s = some n) :
    isListKey s = true ∧
      getIndexFromKey s = if -(2 ^ 63 : Int) ≤ n ∧ n < 2 ^ 63 then n else -1 := by
  obtain ⟨ds, hne, hd, hs⟩ := indexOfSegment_shape h
  rcases hs with ⟨hs, hn⟩ | ⟨hs, hn⟩
  · have hm := matchListKeyAt_neg ds hne hd []
    have hf : findListKey s.toList = some ('-' :: ds) := by
      rw [hs, findListKey, hm]
    refine ⟨by rw [isListKey, hf]; rfl, ?_⟩
    simp only [getIndexFromKey, hf, atoi_neg ds hne hd]
    by_cases hb : digitsToNat ds 0 ≤ 2 ^ 63
    · have : -(2 ^ 63 : Int) ≤ n ∧ n < 2 ^ 63 := by
        subst hn; constructor <;> omega
      rw [if_pos hb, if_pos this, hn]
    · have : ¬ (-(2 ^ 63 : Int) ≤ n ∧ n < 2 ^ 63) := by
        subst hn; omega
      rw [if_neg hb, if_neg this]
  · have hm := matchListKeyAt_pos ds hne hd []
    have hf : findListKey s.toList = some ds := by
      rw [hs, findListKey, hm]
    refine ⟨by rw [isListKey, hf]; rfl, ?_⟩
    simp only [getIndexFromKey, hf, atoi_digits ds hne hd]
    by_cases hb : digitsToNat ds 0 < 2 ^ 63
    · have : -(2 ^ 63 : Int) ≤ n ∧ n < 2 ^ 63 := by
        subst hn; constructor <;> omega
      rw [if_pos hb, if_pos this, hn]
    · have : ¬ (-(2 ^ 63 : Int) ≤ n ∧ n < 2 ^ 63) := by
        subst hn; omega
      rw [if_neg hb, if_neg this]

/-! ## The unanchored pattern -/

/-- A match at the front of the input has the bracketed form there. -/
theorem matchListKeyAt_shape {cs g : List Char} (h : matchListKeyAt cs = some g) :
    ∃ ds post, ds ≠ [] ∧ ds.all isDigit = true ∧
      (cs = '[' :: (ds ++ ']' :: post) ∨ cs = '[' :: '-' :: (ds ++ ']' :: post)) := by
  unfold matchListKeyAt at h
  split at h
  · rename_i r
    split at h
    · rename_i r1
      split at h
      · rename_i ds post hsp
        obtain ⟨hr, hd, -⟩ := spanDigits_eq hsp
        split at h
        · simp at h
        · rename_i hne
          exact ⟨ds, post, hne, hd, Or.inr (by rw [hr])⟩
      · simp at h
    · split at h
      · rename_i ds post hsp
        obtain ⟨hr, hd, -⟩ := spanDigits_eq hsp
        split at h
        · simp at h
        · rename_i hne
          exact ⟨ds, post, hne, hd, Or.inl (by rw [hr])⟩
      · simp at h
  · simp at h

theorem findListKey_shape {cs g : List Char} (h : findListKey cs = some g) :
    ∃ pre ds post, ds ≠ [] ∧ ds.all isDigit = true ∧
      (cs = pre ++ '[' :: (ds ++ ']' :: post) ∨ cs = pre ++ '[' :: '-' :: (ds ++ ']' :: post)) := by
  induction cs with
  | nil => simp [findListKey] at h
  | cons c t ih =>
    rw [findListKey] at h
    cases hm : matchListKeyAt (c :: t) with
    | some g' =>
      obtain ⟨ds, post, hne, hd, hs⟩ := matchListKeyAt_shape hm
      exact ⟨[], ds, post, hne, hd, by simpa using hs⟩
    | none =>
      rw [hm] at h
      obtain ⟨pre, ds, post, hne, hd, hs⟩ := ih h
      refine ⟨c :: pre, ds, post, hne, hd, ?_⟩
      rcases hs with hs | hs
      · exact Or.inl (by rw [hs]; rfl)
      · exact Or.inr (by rw [hs]; rfl)

theorem findListKey_isSome_of_shape (pre ds post : List Char) (hne : ds ≠ [])
    (hd : ds.all isDigit = true) :
    (findListKey (pre ++ '[' :: (ds ++ ']' :: post))).isSome = true ∧
      (findListKey (pre ++ '[' :: '-' :: (ds ++ ']' :: post))).isSome = true := by
  induction pre with
  | nil =>
    simp only [List.nil_append, findListKey, matchListKeyAt_pos ds hne hd post,
      matchListKeyAt_neg ds hne hd post, Option.isSome_some, and_self]
  | cons c t ih =>
    simp only [List.cons_append, findListKey]
    constructor
    · cases matchListKeyAt (c :: (t ++ '[' :: (ds ++ ']' :: post))) with
      | some g => rfl
      | none => exact ih.1
    · cases matchListKeyAt (c :: (t ++ '[' :: '-' :: (ds ++ ']' :: post))) with
      | some g => rfl
      | none => exact ih.2

/-- The function `isListKey` holds exactly when the segment contains, anywhere, a bracket
pair around an optional `-` and one or more digits. -/
theorem isListKey_iff (s : String) :
    isListKey s = true ↔
      ∃ pre ds post, ds ≠ [] ∧ ds.all isDigit = true ∧
        (s.toList = pre ++ '[' :: (ds ++ ']' :: post) ∨
          s.toList = pre ++ '[' :: '-' :: (ds ++ ']' :: post)) := by
  constructor
  · intro h
    unfold isListKey at h
    cases hf : findListKey s.toList with
    | none => rw [hf] at h; exact absurd h (by simp)
    | some g => exact findListKey_shape hf
  · rintro ⟨pre, ds, post, hne, hd, hs | hs⟩
    · unfold isListKey
      rw [hs]
      exact (findListKey_isSome_of_shape pre ds post hne hd).1
    · unfold isListKey
      rw [hs]
      exact (findListKey_isSome_of_shape pre ds post hne hd).2

/-! ## Writing one slot of a container -/

theorem getD_set_self (xs : List JSON) (i : Nat) (w : JSON) (h : i < xs.length) :
    (xs.set i w).getD i .null = w := by
  induction xs generalizing i with
  | nil => simp at h
  | cons x t ih =>
    cases i with
    | zero => rfl
    | succ j =>
      simp only [List.set, List.getD_cons_succ]
      exact ih j (by simpa using h)

theorem getD_set_ne (xs : List JSON) (i j : Nat) (w : JSON) (h : i ≠ j) :
    (xs.set i w).getD j .null = xs.getD j .null := by
  induction xs generalizing i j with
  | nil => rfl
  | cons x t ih =>
    cases i with
    | zero =>
      cases j with
      | zero => exact absurd rfl h
      | succ j' => rfl
    | succ i' =>
      cases j with
      | zero => rfl
      | succ j' =>
        simp only [List.set, List.getD_cons_succ]
        exact ih i' j' (by omega)

theorem arrLen_written {key : String} {d w d' : JSON} (h : Written key d w d') :
    arrLen d' = arrLen d := by
  rcases h with ⟨-, xs, rfl, -, -, rfl⟩ | ⟨-, kvs, rfl, rfl⟩
  · simp [arrLen]
  · rfl

/-- After the write, the slot holds what was written. -/
theorem stepVal_written_self {key : String} {d w d' : JSON} (h : Written key d w d') :
    stepVal key d' = (w, none) := by
  rcases h with ⟨hk, xs, rfl, h0, h1, rfl⟩ | ⟨hk, kvs, rfl, rfl⟩
  · have hl : (xs.set (normIndex (getIndexFromKey key) xs.length).toNat w).length = xs.length :=
      List.length_set ..
    rw [stepVal_arr key _ hk (by rw [hl]; exact h0) (by rw [hl]; exact h1), hl,
      getD_set_self _ _ _ (by omega)]
  · rw [stepVal_obj key _ hk, lookupKey_insertKey_self]
    rfl

/-- Before the write, the slot could be read. -/
theorem stepVal_written_old {key : String} {d w d' : JSON} (h : Written key d w d') :
    ∃ x, stepVal key d = (x, none) := by
  rcases h with ⟨hk, xs, rfl, h0, h1, rfl⟩ | ⟨hk, kvs, rfl, rfl⟩
  · exact ⟨_, stepVal_arr key xs hk h0 h1⟩
  · exact ⟨_, stepVal_obj key kvs hk⟩

/-- Segments that address the same slot read the same. -/
theorem stepVal_walkSameSlot {d : JSON} {s t : String} (h : walkSameSlot d s t = true) :
    stepVal t d = stepVal s d := by
  unfold walkSameSlot at h
  split at h
  · rename_i hs
    simp only [Bool.and_eq_true, decide_eq_true_eq] at h
    obtain ⟨ht, hi⟩ := h
    unfold stepVal
    rw [if_pos hs, if_pos ht]
    cases d with
    | arr xs =>
      simp only [arrLen] at hi
      simp only [asList, hi]
    | null =>
      simp only [arrLen] at hi
      simp only [asList, List.length_nil, hi]
    | bool b => rfl
    | num b => rfl
    | str b => rfl
    | obj b => rfl
  · simp only [Bool.and_eq_true, Bool.not_eq_true', decide_eq_true_eq] at h
    rw [h.2]

/-- A segment that addresses another slot reads the same before and after
the write. -/
theorem stepVal_written_other {key t : String} {d w d' : JSON} (h : Written key d w d')
    (hs : walkSameSlot d key t = false) : stepVal t d' = stepVal t d := by
  rcases h with ⟨hk, xs, rfl, h0, h1, rfl⟩ | ⟨hk, kvs, rfl, rfl⟩
  · have hl : (xs.set (normIndex (getIndexFromKey key) xs.length).toNat w).length = xs.length :=
      List.length_set ..
    by_cases ht : isListKey t = true
    · simp only [walkSameSlot, hk, ht, if_true, Bool.true_and, decide_eq_false_iff_not, arrLen] at hs
      unfold stepVal
      simp only [ht, if_true, asList, hl]
      split
      · rfl
      · rename_i hr
        rw [getD_set_ne _ _ _ _ (by omega)]
    · have ht' : isListKey t = false := by simpa using ht
      unfold stepVal
      simp only [ht', Bool.false_eq_true, if_false, asMap]
  · by_cases ht : isListKey t = true
    · unfold stepVal
      simp only [ht, if_true, asList]
    · have ht' : isListKey t = false := by simpa using ht
      simp only [walkSameSlot, hk, ht', Bool.false_eq_true, if_false, Bool.not_false, Bool.true_and,
        decide_eq_false_iff_not] at hs
      rw [stepVal_obj t _ ht', stepVal_obj t _ ht',
        lookupKey_insertKey_ne (fun e => hs e.symm)]

theorem wf_written {key : String} {d w d' : JSON} (h : Written key d w d')
    (hd : d.wf = true) (hw : w.wf = true) : d'.wf = true := by
  rcases h with ⟨hk, xs, rfl, h0, h1, rfl⟩ | ⟨hk, kvs, rfl, rfl⟩
  · simp only [JSON.wf] at hd ⊢
    exact wf_set xs _ w hd hw
  · exact wf_insertKey kvs key w hd hw

/-- What a successful `setNewVal` did at its first level. -/
theorem setVal_inv {d d' v : JSON} {key : String} {rest : List String}
    (h : setVal d (key :: rest) v = .ret (d', none)) :
    ∃ w, Written key d w d' ∧
      ((rest = [] ∧ w = v) ∨
        (rest ≠ [] ∧ setVal (stepVal key d).1 rest v = .ret (w, none))) := by
  rw [setVal] at h
  split at h
  · rename_i hk
    cases d with
    | arr xs =>
      simp only [asList] at h
      split at h
      · simp at h
      · rename_i hr
        have h0 : 0 ≤ normIndex (getIndexFromKey key) xs.length := by omega
        have h1 : normIndex (getIndexFromKey key) xs.length < (xs.length : Int) := by omega
        split at h
        · rename_i hlen
          simp only [Exec.ret.injEq, Prod.mk.injEq, and_true] at h
          exact ⟨v, Or.inl ⟨hk, xs, rfl, h0, h1, h.symm⟩,
            Or.inl ⟨List.length_eq_zero.1 hlen, rfl⟩⟩
        · rename_i hlen
          rw [stepVal_arr key xs hk h0 h1]
          split at h
          · simp at h
          · simp at h
          · rename_i w hw
            simp only [Exec.ret.injEq, Prod.mk.injEq, and_true] at h
            exact ⟨w, Or.inl ⟨hk, xs, rfl, h0, h1, h.symm⟩,
              Or.inr ⟨fun e => hlen (by rw [e]; rfl), hw⟩⟩
    | null =>
      simp only [asList, List.length_nil] at h
      split at h
      · simp at h
      · rename_i hr
        exfalso
        unfold normIndex at hr
        split at hr <;> omega
    | bool b => simp [asList] at h
    | num b => simp [asList] at h
    | str b => simp [asList] at h
    | obj b => simp [asList] at h
  · rename_i hk
    have hk' : isListKey key = false := by simpa using hk
    cases d with
    | obj kvs =>
      simp only [asMap] at h
      split at h
      · rename_i hlen
        simp only [Exec.ret.injEq, Prod.mk.injEq, and_true] at h
        exact ⟨v, Or.inr ⟨hk', kvs, rfl, h.symm⟩, Or.inl ⟨List.length_eq_zero.1 hlen, rfl⟩⟩
      · rename_i hlen
        rw [stepVal_obj key kvs hk']
        simp only [mapIndex] at h
        split at h
        · simp at h
        · simp at h
        · rename_i w hw
          simp only [Exec.ret.injEq, Prod.mk.injEq, and_true] at h
          exact ⟨w, Or.inr ⟨hk', kvs, rfl, h.symm⟩,
            Or.inr ⟨fun e => hlen (by rw [e]; rfl), hw⟩⟩
    | null =>
      simp only [asMap] at h
      split at h
      · simp at h
      · split at h <;> simp at h
    | bool b => simp [asMap] at h
    | num b => simp [asMap] at h
    | str b => simp [asMap] at h
    | arr b => simp [asMap] at h

/-! ## Writing along a path -/

theorem setVal_arr (key : String) (rest : List String) (xs : List JSON) (v : JSON)
    (hk : isListKey key = true)
    (h0 : 0 ≤ normIndex (getIndexFromKey key) xs.length)
    (h1 : normIndex (getIndexFromKey key) xs.length < (xs.length : Int)) :
    setVal (.arr xs) (key :: rest) v =
      if rest.length = 0 then
        .ret (.arr (xs.set (normIndex (getIndexFromKey key) xs.length).toNat v), none)
      else
        match setVal (xs.getD (normIndex (getIndexFromKey key) xs.length).toNat .null) rest v with
        | .panic p => .panic p
        | .ret (_, some err) => .ret (.null, some err)
        | .ret (newSubVal, none) =>
          .ret (.arr (xs.set (normIndex (getIndexFromKey key) xs.length).toNat newSubVal), none) := by
  rw [setVal, if_pos hk]
  simp only [asList]
  rw [if_neg (by omega)]

theorem setVal_arr_oob (key : String) (rest : List String) (xs : List JSON) (v : JSON)
    (hk : isListKey key = true)
    (h : normIndex (getIndexFromKey key) xs.length < 0 ∨
      (xs.length : Int) ≤ normIndex (getIndexFromKey key) xs.length) :
    setVal (.arr xs) (key :: rest) v =
      .panic (.indexOutOfRange (normIndex (getIndexFromKey key) xs.length) xs.length) := by
  rw [setVal, if_pos hk]
  simp only [asList]
  rw [if_pos (by omega)]

theorem setVal_obj (key : String) (rest : List String) (kvs : List (String × JSON)) (v : JSON)
    (hk : isListKey key = false) :
    setVal (.obj kvs) (key :: rest) v =
      if rest.length = 0 then .ret (.obj (insertKey key v kvs), none)
      else
        match setVal ((lookupKey key kvs).getD .null) rest v with
        | .panic p => .panic p
        | .ret (_, some err) => .ret (.null, some err)
        | .ret (newSubVal, none) => .ret (.obj (insertKey key newSubVal kvs), none) := by
  rw [setVal, if_neg (by simp [hk])]
  simp only [asMap, mapIndex]

/-- A successful write keeps the document well formed. -/
theorem setVal_wf {d d' v : JSON} {keys : List String}
    (h : setVal d keys v = .ret (d', none)) (hd : d.wf = true) (hv : v.wf = true) :
    d'.wf = true := by
  induction keys generalizing d d' with
  | nil => simp [setVal] at h
  | cons k ks ih =>
    obtain ⟨w, hW, hw | hw⟩ := setVal_inv h
    · exact wf_written hW hd (hw.2 ▸ hv)
    · obtain ⟨x, hx⟩ := stepVal_written_old hW
      rw [hx] at hw
      exact wf_written hW hd (ih hw.2 (stepVal_wf hd hx))

/-- Writing at a valid path succeeds, and walking the same path in the result
reaches the written value. -/
theorem setVal_getVal_of_valid (keys : List String) (hne : keys ≠ []) (d v : JSON)
    (hvalid : (resolvePath d keys).isSome = true) :
    ∃ d', setVal d keys v = .ret (d', none) ∧ getVal d' keys = (v, none) := by
  induction keys generalizing d with
  | nil => exact absurd rfl hne
  | cons k ks ih =>
    by_cases hk : isListKey k = true
    · cases d with
      | arr xs =>
        simp only [resolvePath, hk, if_true] at hvalid
        split at hvalid
        · rename_i hr
          have hW : ∀ w, Written k (.arr xs) w
              (.arr (xs.set (normIndex (getIndexFromKey k) xs.length).toNat w)) :=
            fun w => Or.inl ⟨hk, xs, rfl, hr.1, hr.2, rfl⟩
          rw [setVal_arr k ks xs v hk hr.1 hr.2]
          cases ks with
          | nil =>
            refine ⟨.arr (xs.set (normIndex (getIndexFromKey k) xs.length).toNat v), by simp, ?_⟩
            rw [getVal, stepVal_written_self (hW v)]
            rfl
          | cons k2 ks' =>
            obtain ⟨w, hw1, hw2⟩ := ih (List.cons_ne_nil _ _) _ hvalid
            refine ⟨.arr (xs.set (normIndex (getIndexFromKey k) xs.length).toNat w), ?_, ?_⟩
            · simp only [List.length_cons, Nat.succ_ne_zero, if_false, hw1]
            · rw [getVal, stepVal_written_self (hW w)]
              exact hw2
        · simp at hvalid
      | null => simp [resolvePath, hk] at hvalid
      | bool b => simp [resolvePath, hk] at hvalid
      | num b => simp [resolvePath, hk] at hvalid
      | str b => simp [resolvePath, hk] at hvalid
      | obj b => simp [resolvePath, hk] at hvalid
    · have hk' : isListKey k = false := by simpa using hk
      cases d with
      | obj kvs =>
        simp only [resolvePath, hk', Bool.false_eq_true, if_false] at hvalid
        have hW : ∀ w, Written k (.obj kvs) w (.obj (insertKey k w kvs)) :=
          fun w => Or.inr ⟨hk', kvs, rfl, rfl⟩
        rw [setVal_obj k ks kvs v hk']
        cases hy : lookupKey k kvs with
        | none => simp [hy] at hvalid
        | some y =>
          rw [hy] at hvalid
          cases ks with
          | nil =>
            refine ⟨.obj (insertKey k v kvs), by simp, ?_⟩
            rw [getVal, stepVal_written_self (hW v)]
            rfl
          | cons k2 ks' =>
            obtain ⟨w, hw1, hw2⟩ := ih (List.cons_ne_nil _ _) y hvalid
            refine ⟨.obj (insertKey k w kvs), ?_, ?_⟩
            · simp only [List.length_cons, Nat.succ_ne_zero, if_false, Option.getD_some, hw1]
            · rw [getVal, stepVal_written_self (hW w)]
              exact hw2
      | null => simp [resolvePath, hk'] at hvalid
      | bool b => simp [resolvePath, hk'] at hvalid
      | num b => simp [resolvePath, hk'] at hvalid
      | str b => simp [resolvePath, hk'] at hvalid
      | arr b => simp [resolvePath, hk'] at hvalid

theorem walkSameSlot_congr {d d' : JSON} (s t : String) (h : arrLen d' = arrLen d) :
    walkSameSlot d' s t = walkSameSlot d s t := by
  unfold walkSameSlot
  rw [h]

/-- A write along `p` is invisible to a walk along a path that leaves
`p`. -/
theorem getVal_setVal_walkDiverges (p : List String) (v : JSON) :
    ∀ (d d' : JSON) (q : List String), setVal d p v = .ret (d', none) →
      walkDiverges d p q = true → getVal d' q = getVal d q := by
  induction p with
  | nil => intro d d' q _ hdiv; simp [walkDiverges] at hdiv
  | cons s ps ih =>
    intro d d' q h hdiv
    cases q with
    | nil => simp [walkDiverges] at hdiv
    | cons t qs =>
      obtain ⟨w, hW, hw⟩ := setVal_inv h
      rw [walkDiverges] at hdiv
      by_cases hs : walkSameSlot d s t = true
      · rw [if_pos hs] at hdiv
        obtain ⟨x, hx⟩ := stepVal_written_old hW
        rw [hx] at hdiv hw
        simp only at hdiv hw
        have hs' : walkSameSlot d' s t = true := by
          rw [walkSameSlot_congr s t (arrLen_written hW)]; exact hs
        rw [getVal, getVal, stepVal_walkSameSlot hs', stepVal_walkSameSlot hs,
          stepVal_written_self hW, hx]
        rcases hw with ⟨hnil, -⟩ | ⟨-, hw⟩
        · subst hnil
          simp [walkDiverges] at hdiv
        · exact ih x w qs hw hdiv
      · have hs' : walkSameSlot d s t = false := by simpa using hs
        rw [getVal, getVal, stepVal_written_other hW hs']

/-- What a successful `Set` did. -/
theorem Set_ret_inv {doc doc' path : String} {v : JSON}
    (h : Set doc path v = .ret (doc', none)) :
    ∃ d d', parseJSON doc = some d ∧ setVal d (stringsSplit path) v = .ret (d', none) ∧
      doc' = String.mk (encodeValue d') := by
  cases hp : parseJSON doc with
  | none =>
    rw [Set_of_invalid path v hp] at h
    simp at h
  | some d =>
    rw [Set_of_parse path v hp] at h
    rcases hs : setVal d (stringsSplit path) v with ⟨x, _ | e⟩ | p
    · rw [hs] at h
      simp only [Exec.ret.injEq, Prod.mk.injEq, and_true] at h
      exact ⟨d, x, rfl, hs, h.symm⟩
    · rw [hs] at h
      simp at h
    · rw [hs] at h
      simp at h

/-! ## Writing a slot again -/

theorem written_eq {key : String} {d w d' : JSON} (h : Written key d w d') :
    d' = writeSlot key d w := by
  rcases h with ⟨-, xs, rfl, -, -, rfl⟩ | ⟨-, kvs, rfl, rfl⟩ <;> rfl

theorem written_again {key : String} {d w d' : JSON} (h : Written key d w d') (w2 : JSON) :
    Written key d w2 (writeSlot key d w2) := by
  rcases h with ⟨hk, xs, rfl, h0, h1, rfl⟩ | ⟨hk, kvs, rfl, rfl⟩
  · exact Or.inl ⟨hk, xs, rfl, h0, h1, rfl⟩
  · exact Or.inr ⟨hk, kvs, rfl, rfl⟩

theorem insertKey_insertKey (k : String) (v1 v2 : JSON) (m : List (String × JSON)) :
    insertKey k v2 (insertKey k v1 m) = insertKey k v2 m := by
  induction m with
  | nil => simp [insertKey, keyLt_irrefl]
  | cons p t ih =>
    obtain ⟨k1, w1⟩ := p
    simp only [insertKey]
    by_cases h1 : keyLt k k1 = true
    · simp only [h1, if_true, insertKey, keyLt_irrefl, Bool.false_eq_true, if_false]
    · have h1' : keyLt k k1 = false := by simpa using h1
      by_cases h2 : k = k1
      · subst h2
        simp only [h1', if_true, insertKey, keyLt_irrefl, Bool.false_eq_true, if_false]
      · simp only [h1', h2, Bool.false_eq_true, if_false, insertKey, ih]

/-- Writing into the result of a write is writing into the original. -/
theorem writeSlot_written {key : String} {d w d' : JSON} (h : Written key d w d') (w2 : JSON) :
    writeSlot key d' w2 = writeSlot key d w2 := by
  rcases h with ⟨hk, xs, rfl, h0, h1, rfl⟩ | ⟨hk, kvs, rfl, rfl⟩
  · simp only [writeSlot, List.length_set, List.set_set]
  · simp only [writeSlot, insertKey_insertKey]

theorem written_written {key : String} {d w d' : JSON} (h : Written key d w d') (w2 : JSON) :
    Written key d' w2 (writeSlot key d w2) := by
  rw [← writeSlot_written h w2]
  rcases h with ⟨hk, xs, rfl, h0, h1, rfl⟩ | ⟨hk, kvs, rfl, rfl⟩
  · refine Or.inl ⟨hk, _, rfl, ?_, ?_, rfl⟩
    · rw [List.length_set]; exact h0
    · rw [List.length_set]; exact h1
  · exact Or.inr ⟨hk, _, rfl, rfl⟩

/-- The first level of `setNewVal` on a container whose slot can be
written. -/
theorem setVal_of_written {key : String} {d w0 d0 : JSON} (h : Written key d w0 d0)
    (rest : List String) (v : JSON) :
    setVal d (key :: rest) v =
      if rest.length = 0 then .ret (writeSlot key d v, none)
      else
        match setVal (stepVal key d).1 rest v with
        | .panic p => .panic p
        | .ret (_, some err) => .ret (.null, some err)
        | .ret (newSubVal, none) => .ret (writeSlot key d newSubVal, none) := by
  rcases h with ⟨hk, xs, rfl, h0, h1, rfl⟩ | ⟨hk, kvs, rfl, rfl⟩
  · rw [setVal_arr key rest xs v hk h0 h1, stepVal_arr key xs hk h0 h1]
    rfl
  · rw [setVal_obj key rest kvs v hk, stepVal_obj key kvs hk]
    rfl

/-- Writing the same path a second time gives what writing the second value
the first time gives. -/
theorem setVal_twice (p : List String) (v1 v2 : JSON) :
    ∀ (d d1 : JSON), setVal d p v1 = .ret (d1, none) →
      ∃ d2, setVal d p v2 = .ret (d2, none) ∧ setVal d1 p v2 = .ret (d2, none) := by
  induction p with
  | nil => intro d d1 h; simp [setVal] at h
  | cons k rest ih =>
    intro d d1 h
    obtain ⟨w1, hW, hw⟩ := setVal_inv h
    have hW1 := written_written hW
    rcases hw with ⟨hnil, -⟩ | ⟨hne, hw⟩
    · subst hnil
      refine ⟨writeSlot k d v2, ?_, ?_⟩
      · rw [setVal_of_written hW]; rfl
      · rw [setVal_of_written (hW1 v2), writeSlot_written hW]; rfl
    · obtain ⟨w2, hw2, hw2'⟩ := ih _ _ hw
      have hlen : ¬ rest.length = 0 := fun e => hne (List.length_eq_zero.1 e)
      refine ⟨writeSlot k d w2, ?_, ?_⟩
      · rw [setVal_of_written hW, if_neg hlen, hw2]
      · rw [setVal_of_written (hW1 v2), if_neg hlen, stepVal_written_self hW]
        simp only [hw2', writeSlot_written hW]

/-! ## Resolution, one segment at a time -/

theorem resolvePath_cons {d x : JSON} {k : String} {rest : List String}
    (h : resolvePath d (k :: rest) = some x) :
    ∃ y, resolvePath d [k] = some y ∧ resolvePath y rest = some x := by
  by_cases hk : isListKey k = true
  · cases d with
    | arr xs =>
      simp only [resolvePath, hk, if_true] at h ⊢
      split at h
      · rename_i hr
        rw [if_pos hr]
        exact ⟨_, rfl, h⟩
      · simp at h
    | null => simp [resolvePath, hk] at h
    | bool b => simp [resolvePath, hk] at h
    | num b => simp [resolvePath, hk] at h
    | str b => simp [resolvePath, hk] at h
    | obj b => simp [resolvePath, hk] at h
  · have hk' : isListKey k = false := by simpa using hk
    cases d with
    | obj kvs =>
      simp only [resolvePath, hk', Bool.false_eq_true, if_false] at h ⊢
      cases hy : lookupKey k kvs with
      | none => simp [hy] at h
      | some y =>
        rw [hy] at h
        exact ⟨y, rfl, h⟩
    | null => simp [resolvePath, hk'] at h
    | bool b => simp [resolvePath, hk'] at h
    | num b => simp [resolvePath, hk'] at h
    | str b => simp [resolvePath, hk'] at h
    | arr b => simp [resolvePath, hk'] at h

theorem set_getD_self (xs : List JSON) (i : Nat) (h : i < xs.length) :
    xs.set i (xs.getD i .null) = xs := by
  induction xs generalizing i with
  | nil => rfl
  | cons x t ih =>
    cases i with
    | zero => rfl
    | succ j =>
      simp only [List.set, List.getD_cons_succ]
      rw [ih j (by simpa using h)]

theorem lookupKey_mem {k : String} {y : JSON} {m : List (String × JSON)}
    (h : lookupKey k m = some y) : (k, y) ∈ m := by
  induction m with
  | nil => simp [lookupKey] at h
  | cons p t ih =>
    obtain ⟨k1, v1⟩ := p
    simp only [lookupKey] at h
    split at h
    · rename_i hk
      simp only [Option.some.injEq] at h
      rw [hk, h]
      exact List.mem_cons_self _ _
    · exact List.mem_cons_of_mem _ (ih h)

/-- Assigning to a key the value it already has leaves a map in key order as
it is. -/
theorem insertKey_lookup_self {k : String} {y : JSON} {m : List (String × JSON)}
    (hs : sortedKeys m = true) (h : lookupKey k m = some y) : insertKey k y m = m := by
  induction m with
  | nil => simp [lookupKey] at h
  | cons p t ih =>
    obtain ⟨k1, v1⟩ := p
    have hc := sortedKeys_cons.1 hs
    simp only [lookupKey] at h
    by_cases hk : k = k1
    · subst hk
      simp only [if_true, Option.some.injEq] at h
      subst h
      simp only [insertKey, keyLt_irrefl, Bool.false_eq_true, if_false, if_true]
    · simp only [hk, if_false] at h
      have hlt : keyLt k1 k = true := hc.1 (k, y) (lookupKey_mem h)
      simp only [insertKey, keyLt_asymm hlt, Bool.false_eq_true, if_false, hk, ih hc.2 h]

/-- A segment that resolves in a well-formed container: the container is its
own result of writing the resolved value back. -/
theorem written_self_of_resolve {d y : JSON} {k : String} (hd : d.wf = true)
    (h : resolvePath d [k] = some y) : Written k d y d ∧ stepVal k d = (y, none) := by
  by_cases hk : isListKey k = true
  · cases d with
    | arr xs =>
      simp only [resolvePath, hk, if_true] at h
      split at h
      · rename_i hr
        simp only [Option.some.injEq] at h
        subst h
        refine ⟨Or.inl ⟨hk, xs, rfl, hr.1, hr.2, ?_⟩, stepVal_arr k xs hk hr.1 hr.2⟩
        rw [set_getD_self xs _ (by omega)]
      · simp at h
    | null => simp [resolvePath, hk] at h
    | bool b => simp [resolvePath, hk] at h
    | num b => simp [resolvePath, hk] at h
    | str b => simp [resolvePath, hk] at h
    | obj b => simp [resolvePath, hk] at h
  · have hk' : isListKey k = false := by simpa using hk
    cases d with
    | obj kvs =>
      simp only [resolvePath, hk', Bool.false_eq_true, if_false] at h
      cases hy : lookupKey k kvs with
      | none => simp [hy] at h
      | some z =>
        rw [hy] at h
        simp only [Option.some.injEq] at h
        subst h
        simp only [JSON.wf, Bool.and_eq_true] at hd
        refine ⟨Or.inr ⟨hk', kvs, rfl, ?_⟩, ?_⟩
        · rw [insertKey_lookup_self hd.1 hy]
        · rw [stepVal_obj k kvs hk', hy]; rfl
    | null => simp [resolvePath, hk'] at h
    | bool b => simp [resolvePath, hk'] at h
    | num b => simp [resolvePath, hk'] at h
    | str b => simp [resolvePath, hk'] at h
    | arr b => simp [resolvePath, hk'] at h

/-- Writing back the value a path resolves to returns the document itself. -/
theorem setVal_resolved (p : List String) (hne : p ≠ []) :
    ∀ (d x : JSON), d.wf = true → resolvePath d p = some x → setVal d p x = .ret (d, none) := by
  induction p with
  | nil => exact absurd rfl hne
  | cons k rest ih =>
    intro d x hd h
    obtain ⟨y, hy, hrest⟩ := resolvePath_cons h
    obtain ⟨hW, hstep⟩ := written_self_of_resolve hd hy
    have hself : writeSlot k d y = d := (written_eq hW).symm
    rw [setVal_of_written hW]
    cases rest with
    | nil =>
      simp only [resolvePath, Option.some.injEq] at hrest
      subst hrest
      simp only [List.length_nil, if_true, hself]
    | cons k2 ks =>
      have := ih (List.cons_ne_nil _ _) y x (stepVal_wf hd hstep) hrest
      simp only [List.length_cons, Nat.succ_ne_zero, if_false, hstep, this, hself]

/-- In the result of a write, the written segment resolves to what was
written. -/
theorem resolvePath_written {key : String} {d w d' : JSON} (h : Written key d w d')
    (rest : List String) : resolvePath d' (key :: rest) = resolvePath w rest := by
  rcases h with ⟨hk, xs, rfl, h0, h1, rfl⟩ | ⟨hk, kvs, rfl, rfl⟩
  · simp only [resolvePath, hk, if_true, List.length_set]
    rw [if_pos ⟨h0, h1⟩, getD_set_self _ _ _ (by omega)]
  · simp only [resolvePath, hk, Bool.false_eq_true, if_false, lookupKey_insertKey_self]

theorem stepVal_of_resolve {d y : JSON} {k : String} (h : resolvePath d [k] = some y) :
    stepVal k d = (y, none) := by
  have hg := getVal_of_resolve h
  rw [getVal] at hg
  rcases hs : stepVal k d with ⟨a, _ | e⟩
  · rw [hs] at hg
    simpa [getVal] using hg
  · rw [hs] at hg
    exact absurd (congrArg Prod.snd hg) (by simp)

/-- A write keeps the length of every array its path passes through. -/
theorem setVal_keeps_length (pre : List String) (s : String) (post : List String) (v : JSON) :
    ∀ (d d' : JSON) (xs : List JSON), setVal d (pre ++ s :: post) v = .ret (d', none) →
      resolvePath d pre = some (.arr xs) →
      ∃ ys, resolvePath d' pre = some (.arr ys) ∧ ys.length = xs.length := by
  induction pre with
  | nil =>
    intro d d' xs h hres
    simp only [resolvePath, Option.some.injEq] at hres
    subst hres
    obtain ⟨w, hW, -⟩ := setVal_inv h
    rcases hW with ⟨-, ys, hys, -, -, rfl⟩ | ⟨-, kvs, hkvs, -⟩
    · simp only [JSON.arr.injEq] at hys
      subst hys
      exact ⟨_, rfl, List.length_set ..⟩
    · simp at hkvs
  | cons k pre' ih =>
    intro d d' xs h hres
    obtain ⟨y, hy, hrest⟩ := resolvePath_cons hres
    obtain ⟨w, hW, hw⟩ := setVal_inv h
    rcases hw with ⟨hnil, -⟩ | ⟨-, hw⟩
    · simp at hnil
    · have hstep : stepVal k d = (y, none) := stepVal_of_resolve hy
      rw [hstep] at hw
      obtain ⟨ys, hys, hlen⟩ := ih y w xs hw hrest
      exact ⟨ys, by rw [resolvePath_written hW]; exact hys, hlen⟩

/-! ## Splitting and joining paths -/

theorem splitDots_no_dot (cs : List Char) (h : '.' ∉ cs) : splitDots cs = [cs] := by
  induction cs with
  | nil => rfl
  | cons c t ih =>
    have hc : c ≠ '.' := fun e => h (e ▸ List.mem_cons_self _ _)
    have ht : '.' ∉ t := fun e => h (List.mem_cons_of_mem _ e)
    simp only [splitDots, if_neg hc, ih ht]

/-- A key without a dot is a path of one segment, the key itself. -/
theorem stringsSplit_no_dot (k : String) (h : '.' ∉ k.toList) : stringsSplit k = [k] := by
  unfold stringsSplit
  rw [splitDots_no_dot _ h]
  rfl

theorem splitDots_append_dot (a b : List Char) :
    splitDots (a ++ '.' :: b) = splitDots a ++ splitDots b := by
  induction a with
  | nil => simp [splitDots]
  | cons c t ih =>
    have ih2 : splitDots (t.append ('.' :: b)) = splitDots t ++ splitDots b := ih
    simp only [List.cons_append, splitDots]
    split
    · rw [ih2]; rfl
    · rw [ih2]
      cases hs : splitDots t with
      | nil => exact absurd hs (splitDots_ne_nil t)
      | cons seg rest => rfl

/-- The segments of two paths joined by a dot are the segments of the first
followed by the segments of the second. -/
theorem stringsSplit_join (p q : String) :
    stringsSplit (p ++ "." ++ q) = stringsSplit p ++ stringsSplit q := by
  unfold stringsSplit
  have h : (p ++ "." ++ q).toList = p.toList ++ '.' :: q.toList := by
    simp [String.toList]
  rw [h, splitDots_append_dot, List.map_append]

/-! ## `get` over a concatenated key list -/

theorem get_error_null {doc : String} {keys : List String} {x : JSON} {e : GoError}
    (h : get doc keys = (x, some e)) : x = .null := by
  induction keys generalizing doc with
  | nil =>
    simp only [get, Prod.mk.injEq] at h
    exact h.1.symm
  | cons k ks ih =>
    rw [get] at h
    rcases hs : getNewVal k doc with ⟨y, _ | e'⟩
    · rw [hs] at h
      simp only at h
      split at h
      · exact absurd (congrArg Prod.snd h) (by simp)
      · simp only [jsonMarshal] at h
        exact ih h
    · rw [hs] at h
      exact (congrArg Prod.fst h).symm

/-- The function `get` walks a concatenated key list by walking the first part and,
when that succeeds with `x`, walking the second part on the encoding of
`x`. -/
theorem get_append (P Q : List String) (hP : P ≠ []) (hQ : Q ≠ []) (doc : String) :
    get doc (P ++ Q) =
      match get doc P with
      | (x, none) => get (String.mk (encodeValue x)) Q
      | (_, some e) => (.null, some e) := by
  induction P generalizing doc with
  | nil => exact absurd rfl hP
  | cons k ks ih =>
    have hlen : ¬ (ks ++ Q).length = 0 := by
      intro e
      exact hQ (List.append_eq_nil.1 (List.length_eq_zero.1 e)).2
    rw [List.cons_append, get, get]
    rcases hs : getNewVal k doc with ⟨y, _ | e'⟩
    · simp only [if_neg hlen, jsonMarshal]
      cases ks with
      | nil => simp only [List.length_nil, if_true, List.nil_append]
      | cons k2 ks' =>
        simp only [List.length_cons, Nat.succ_ne_zero, if_false]
        exact ih (List.cons_ne_nil _ _) _
    · rfl

/-! ## What `Get` and `Set` add to `get` and `set` -/

theorem Get_wrap (doc path : String) :
    Get doc path = wrapGet path doc (get doc (stringsSplit path)) := rfl

theorem wrapGet_none_inv {key jsonStr : String} {r : JSON × Option GoError} {x : JSON}
    (h : wrapGet key jsonStr r = (x, none)) : r = (x, none) := by
  rcases r with ⟨y, _ | e⟩
  · exact h
  · exact absurd (congrArg Prod.snd h) (by simp [wrapGet])

theorem wrapGet_some_inv {key jsonStr : String} {r : JSON × Option GoError} {x : JSON}
    {e : GoError} (h : wrapGet key jsonStr r = (x, some e)) :
    ∃ e0, r = (x, some e0) ∧ e = .cannotFetch key jsonStr e0 := by
  rcases r with ⟨y, _ | e0⟩
  · exact absurd (congrArg Prod.snd h) (by simp [wrapGet])
  · simp only [wrapGet, Prod.mk.injEq, Option.some.injEq] at h
    exact ⟨e0, by rw [h.1], h.2.symm⟩

theorem wrapGet_cause (key jsonStr : String) (r : JSON × Option GoError) :
    (wrapGet key jsonStr r).2.map errCause = r.2 := by
  rcases r with ⟨y, _ | e0⟩ <;> rfl

/-! ## Segments with the same index -/

theorem getNewVal_same_index {s t : String} (hs : isListKey s = true) (ht : isListKey t = true)
    (hi : getIndexFromKey s = getIndexFromKey t) (doc : String) :
    getNewVal s doc = getNewVal t doc := by
  unfold getNewVal getList
  rw [if_pos hs, if_pos ht, hi]

/-- The function `get` reads an index segment only through its index. -/
theorem get_same_index {s t : String} (hs : isListKey s = true) (ht : isListKey t = true)
    (hi : getIndexFromKey s = getIndexFromKey t) (pre post : List String) (doc : String) :
    get doc (pre ++ s :: post) = get doc (pre ++ t :: post) := by
  induction pre generalizing doc with
  | nil =>
    simp only [List.nil_append, get, getNewVal_same_index hs ht hi]
  | cons k ks ih =>
    have hl1 : ¬ (ks ++ s :: post).length = 0 := by simp
    have hl2 : ¬ (ks ++ t :: post).length = 0 := by simp
    rw [List.cons_append, List.cons_append, get, get]
    rcases getNewVal k doc with ⟨y, _ | e⟩
    · simp only [if_neg hl1, if_neg hl2, jsonMarshal]
      exact ih _
    · rfl

theorem setList_same_index {s t : String} (hi : getIndexFromKey s = getIndexFromKey t)
    (doc : String) (keys : List String) (v : JSON)
    (recur : String → Exec (JSON × Option GoError)) :
    setList doc s keys v recur = setList doc t keys v recur := by
  unfold setList
  rw [hi]

theorem setList_same_length (doc k : String) (keys keys2 : List String) (v : JSON)
    (recur : String → Exec (JSON × Option GoError)) (h : keys.length = keys2.length) :
    setList doc k keys v recur = setList doc k keys2 v recur := by
  unfold setList
  rw [h]

theorem setMap_same_length (doc k : String) (keys keys2 : List String) (v : JSON)
    (recur : String → Exec (JSON × Option GoError)) (h : keys.length = keys2.length) :
    setMap doc k keys v recur = setMap doc k keys2 v recur := by
  unfold setMap
  rw [h]

/-- The function `setNewVal` reads an index segment only through its index. -/
theorem setNewVal_same_index {s t : String} (hs : isListKey s = true) (ht : isListKey t = true)
    (hi : getIndexFromKey s = getIndexFromKey t) (pre post : List String) (v : JSON)
    (doc : String) :
    setNewVal doc (pre ++ s :: post) v = setNewVal doc (pre ++ t :: post) v := by
  induction pre generalizing doc with
  | nil =>
    simp only [List.nil_append, setNewVal, if_pos hs, if_pos ht]
    exact setList_same_index hi doc post v _
  | cons k ks ih =>
    have hf : (fun sub => setNewVal sub (ks ++ s :: post) v) =
        (fun sub => setNewVal sub (ks ++ t :: post) v) := funext ih
    have hl : (ks ++ s :: post).length = (ks ++ t :: post).length := by simp
    rw [List.cons_append, List.cons_append, setNewVal, setNewVal, hf,
      setList_same_length doc k _ _ v _ hl, setMap_same_length doc k _ _ v _ hl]

theorem set_same_index {s t : String} (hs : isListKey s = true) (ht : isListKey t = true)
    (hi : getIndexFromKey s = getIndexFromKey t) (pre post : List String) (v : JSON)
    (doc : String) :
    set doc (pre ++ s :: post) v = set doc (pre ++ t :: post) v := by
  have hl1 : ¬ (pre ++ s :: post).length = 0 := by simp
  have hl2 : ¬ (pre ++ t :: post).length = 0 := by simp
  unfold set
  rw [setNewVal_same_index hs ht hi, if_neg hl1, if_neg hl2]

/-- A match whose digits `strconv.Atoi` rejects gives the index `-1`. -/
theorem getIndexFromKey_sentinel {s : String} {g : List Char}
    (hf : findListKey s.toList = some g) (ha : atoi g = none) :
    isListKey s = true ∧ getIndexFromKey s = -1 := by
  constructor
  · rw [isListKey, hf]; rfl
  · rw [getIndexFromKey, hf]
    simp only [ha]

theorem insertKey_length_absent {k : String} (v : JSON) {m : List (String × JSON)}
    (h : lookupKey k m = none) : (insertKey k v m).length = m.length + 1 := by
  induction m with
  | nil => rfl
  | cons p t ih =>
    obtain ⟨k1, v1⟩ := p
    simp only [lookupKey] at h
    split at h
    · exact absurd h (by simp)
    · rename_i hne
      simp only [insertKey]
      split
      · rfl
      · simp only [List.length_cons, ih h]

/-! ## The specification's reading of a path and the program's -/

theorem plainSegment_index {s : String} {n : Int} (h : indexOfSegment s = some n)
    (hp : plainSegment s = true) : isListKey s = true ∧ getIndexFromKey s = n := by
  obtain ⟨hl, hi⟩ := getIndexFromKey_of_anchored h
  unfold plainSegment at hp
  rw [h] at hp
  simp only [Bool.and_eq_true, decide_eq_true_eq] at hp
  rw [if_pos hp] at hi
  exact ⟨hl, hi⟩

theorem plainSegment_field {s : String} (h : indexOfSegment s = none)
    (hp : plainSegment s = true) : isListKey s = false := by
  unfold plainSegment at hp
  rw [h] at hp
  simpa using hp

/-- On a segment the program reads as the specification does, the slot the
specification addresses is the one the program steps to. -/
theorem slot_step {s : String} {d x : JSON} (hp : plainSegment s = true)
    (h : slot s d = some x) :
    stepVal s d = (x, none) ∧ ∀ rest, resolvePath d (s :: rest) = resolvePath x rest := by
  unfold slot at h
  cases hi : indexOfSegment s with
  | some n =>
    obtain ⟨hl, hn⟩ := plainSegment_index hi hp
    rw [hi] at h
    cases d with
    | arr xs =>
      simp only at h
      split at h
      · rename_i hr
        simp only [Option.some.injEq] at h
        rw [← hn] at hr h
        refine ⟨by rw [stepVal_arr s xs hl hr.1 hr.2, h], ?_⟩
        intro rest
        rw [resolvePath, if_pos hl]
        simp only [hr, and_self, if_true, h]
      · simp at h
    | null => simp at h
    | bool b => simp at h
    | num c => simp at h
    | str t => simp at h
    | obj kvs => simp at h
  | none =>
    have hl := plainSegment_field hi hp
    rw [hi] at h
    cases d with
    | obj kvs =>
      simp only at h
      refine ⟨by rw [stepVal_obj s kvs hl, h]; rfl, ?_⟩
      intro rest
      rw [resolvePath, if_neg (by simp [hl])]
      simp only [h]
    | null => simp at h
    | bool b => simp at h
    | num c => simp at h
    | str t => simp at h
    | arr xs => simp at h

/-- A path that resolves in the words of the specification, and whose segments
the program reads as the specification does, resolves for the program to the
same value. -/
theorem addressed_resolve (keys : List String) :
    ∀ (d x : JSON), (∀ s ∈ keys, plainSegment s = true) → addressed d keys = some x →
      resolvePath d keys = some x := by
  induction keys with
  | nil =>
    intro d x _ h
    simpa [addressed, resolvePath] using h
  | cons s rest ih =>
    intro d x hp h
    rw [addressed] at h
    split at h
    · rename_i y hy
      rw [(slot_step (hp s (List.mem_cons_self _ _)) hy).2 rest]
      exact ih y x (fun t ht => hp t (List.mem_cons_of_mem _ ht)) h
    · simp at h

theorem length_le_weightList (xs : List JSON) : xs.length ≤ weightList xs := by
  induction xs with
  | nil => simp [weightList]
  | cons x t ih =>
    rw [weightList, List.length_cons]
    omega

theorem weight_getD (xs : List JSON) (i : Nat) (h : i < xs.length) :
    (xs.getD i .null).weight ≤ weightList xs := by
  induction xs generalizing i with
  | nil => simp at h
  | cons x t ih =>
    rw [weightList]
    cases i with
    | zero =>
      simp only [List.getD_cons_zero]
      omega
    | succ j =>
      simp only [List.getD_cons_succ]
      have := ih j (by simpa using h)
      omega

theorem weight_lookupKey {k : String} {kvs : List (String × JSON)} {x : JSON}
    (h : lookupKey k kvs = some x) : x.weight ≤ weightMembers kvs := by
  induction kvs with
  | nil => simp [lookupKey] at h
  | cons p t ih =>
    obtain ⟨k1, v1⟩ := p
    rw [weightMembers]
    rw [lookupKey] at h
    split at h
    · simp only [Option.some.injEq] at h
      rw [← h]
      omega
    · have := ih h
      omega

theorem slot_weight {s : String} {d x : JSON} (h : slot s d = some x) : x.weight ≤ d.weight := by
  unfold slot at h
  split at h
  · rename_i n hi
    cases d with
    | arr xs =>
      simp only at h
      split at h
      · rename_i hr
        simp only [Option.some.injEq] at h
        rw [← h, JSON.weight]
        have := weight_getD xs (normIndex n xs.length).toNat (by omega)
        omega
      · simp at h
    | null => simp at h
    | bool b => simp at h
    | num c => simp at h
    | str t => simp at h
    | obj kvs => simp at h
  · cases d with
    | obj kvs =>
      simp only at h
      rw [JSON.weight]
      have := weight_lookupKey h
      omega
    | null => simp at h
    | bool b => simp at h
    | num c => simp at h
    | str t => simp at h
    | arr xs => simp at h

/-- In a document of fewer than `2^63` values, a segment that addresses a slot
and is not a field segment with a bracketed integer is read by the program as
the specification reads it: a valid index is in the range of `int`. -/
theorem plainSegment_of_slot {s : String} {d x : JSON} (h : slot s d = some x)
    (hd : d.weight < 2 ^ 63) (hs : (anchoredListKey s || !isListKey s) = true) :
    plainSegment s = true := by
  unfold plainSegment
  unfold slot at h
  cases hi : indexOfSegment s with
  | some n =>
    rw [hi] at h
    simp only [Bool.and_eq_true, decide_eq_true_eq]
    cases d with
    | arr xs =>
      simp only at h
      split at h
      · rename_i hr
        have hl := length_le_weightList xs
        rw [JSON.weight] at hd
        unfold normIndex at hr
        split at hr <;> constructor <;> omega
      · simp at h
    | null => simp at h
    | bool b => simp at h
    | num c => simp at h
    | str t => simp at h
    | obj kvs => simp at h
  | none =>
    have ha : anchoredListKey s = false := by
      rw [anchoredListKey, hi]; rfl
    rw [ha] at hs
    simpa using hs

/-- A path valid in a document of fewer than `2^63` values, none of whose field
segments contains a bracketed integer, resolves for the program to the value it
addresses. -/
theorem addressed_resolve_plain (keys : List String) :
    ∀ (d x : JSON), fieldsPlain keys = true → d.weight < 2 ^ 63 →
      addressed d keys = some x → resolvePath d keys = some x := by
  induction keys with
  | nil =>
    intro d x _ _ h
    simpa [addressed, resolvePath] using h
  | cons s rest ih =>
    intro d x hp hd h
    unfold fieldsPlain at hp
    rw [List.all_cons, Bool.and_eq_true] at hp
    rw [addressed] at h
    split at h
    · rename_i y hy
      have hps := plainSegment_of_slot hy hd hp.1
      rw [(slot_step hps hy).2 rest]
      exact ih y x hp.2 (by have := slot_weight hy; omega) h
    · simp at h

/-- A path valid in a document of fewer than `2^63` values, along which the
walk of the program succeeds, resolves for the program to the value it
addresses. -/
theorem addressed_resolve_of_getVal (keys : List String) :
    ∀ (d x y : JSON), d.weight < 2 ^ 63 → addressed d keys = some y →
      getVal d keys = (x, none) → resolvePath d keys = some y := by
  induction keys with
  | nil =>
    intro d x y _ h _
    simpa [addressed, resolvePath] using h
  | cons s rest ih =>
    intro d x y hd h hg
    rw [addressed] at h
    split at h
    · rename_i c hc
      have hs : (anchoredListKey s || !isListKey s) = true := by
        cases hi : indexOfSegment s with
        | some n => simp [anchoredListKey, hi]
        | none =>
          cases hl : isListKey s with
          | false => simp
          | true =>
            exfalso
            unfold slot at hc
            rw [hi] at hc
            cases d with
            | obj kvs =>
              have hstep : stepVal s (.obj kvs) = (.null, some .unmarshalType) := by
                unfold stepVal
                rw [if_pos hl]
                rfl
              rw [getVal, hstep] at hg
              simp at hg
            | null => simp at hc
            | bool b => simp at hc
            | num c => simp at hc
            | str t => simp at hc
            | arr xs => simp at hc
      have hps := plainSegment_of_slot hc hd hs
      obtain ⟨hstep, hres⟩ := slot_step hps hc
      rw [hres rest]
      rw [getVal, hstep] at hg
      exact ih c x y (by have := slot_weight hc; omega) h hg
    · simp at h

theorem walkSameSlot_of_plain {s t : String} (d : JSON) (hs : plainSegment s = true)
    (ht : plainSegment t = true) : walkSameSlot d s t = sameSlot d s t := by
  unfold walkSameSlot sameSlot
  cases his : indexOfSegment s with
  | some a =>
    obtain ⟨hl, ha⟩ := plainSegment_index his hs
    cases hit : indexOfSegment t with
    | some b =>
      obtain ⟨hl', hb⟩ := plainSegment_index hit ht
      simp only [hl, hl', ha, hb, if_true, Bool.true_and]
    | none =>
      have hl' := plainSegment_field hit ht
      simp only [hl, hl', if_true, Bool.false_and]
  | none =>
    have hl := plainSegment_field his hs
    cases hit : indexOfSegment t with
    | some b =>
      obtain ⟨hl', hb⟩ := plainSegment_index hit ht
      simp only [hl, hl', Bool.false_eq_true, if_false, Bool.not_true, Bool.false_and]
    | none =>
      have hl' := plainSegment_field hit ht
      simp only [hl, hl', Bool.false_eq_true, if_false, Bool.not_false, Bool.true_and]

/-- Paths that diverge in the words of the specification, and whose segments
the program reads as the specification does, are walked apart by the
program. -/
theorem walkDiverges_of_diverges (p : List String) :
    ∀ (d : JSON) (q : List String), (∀ s ∈ p, plainSegment s = true) →
      (∀ t ∈ q, plainSegment t = true) → diverges d p q = true → walkDiverges d p q = true := by
  induction p with
  | nil => intro d q _ _ h; simp [diverges] at h
  | cons s ps ih =>
    intro d q hp hq h
    cases q with
    | nil => simp [diverges] at h
    | cons t qs =>
      have hs := hp s (List.mem_cons_self _ _)
      have ht := hq t (List.mem_cons_self _ _)
      rw [diverges] at h
      rw [walkDiverges, walkSameSlot_of_plain d hs ht]
      split at h
      · rename_i hsame
        rw [if_pos hsame]
        split at h
        · rename_i x hx
          rw [(slot_step hs hx).1]
          exact ih x qs (fun u hu => hp u (List.mem_cons_of_mem _ hu))
            (fun u hu => hq u (List.mem_cons_of_mem _ hu)) h
        · simp at h
      · rename_i hsame
        rw [if_neg hsame]

/-! ## From a resolved prefix to the result of `Get` -/

theorem Get_eq_wrapGet {doc : String} {d : JSON} (path : String) (h : parseJSON doc = some d) :
    Get doc path = wrapGet path doc (getVal d (stringsSplit path)) :=
  Get_of_parse path h

/-- The function `Get` on a path whose first segments resolve to the value `c` continues
the walk from `c`. -/
theorem Get_of_resolved {doc path : String} {d c : JSON} {pre rest : List String}
    (hdoc : parseJSON doc = some d) (hsplit : stringsSplit path = pre ++ rest)
    (hres : resolvePath d pre = some c) :
    Get doc path = wrapGet path doc (getVal c rest) := by
  rw [Get_eq_wrapGet path hdoc, hsplit, getVal_append, getVal_of_resolve hres]

theorem get_of_resolved {doc : String} {d c : JSON} {pre rest : List String}
    (hdoc : parseJSON doc = some d) (hne : pre ++ rest ≠ [])
    (hres : resolvePath d pre = some c) :
    get doc (pre ++ rest) = getVal c rest := by
  cases hk : pre ++ rest with
  | nil => exact absurd hk hne
  | cons k ks =>
    rw [get_of_parse ks k hdoc (parseJSON_wf hdoc), ← hk, getVal_append,
      getVal_of_resolve hres]

/-! ## The claims -/

set_option maxRecDepth 1000000 in
/-- Counterexample to C1 as stated.  The path `a[0]` is valid in the document
with the single key `a[0]` (its only segment is a field segment naming an
existing key), yet the program reads the segment as an index segment and
`Set` fails with the decode (type) error.  And the value `9007199254740993`
written at the valid path `a` is read back by `Get` as `9007199254740992`,
the nearest `float64`. -/
theorem C1_counterexample :
    (parseJSON "\x7b\"a[0]\":7\x7d" = some (.obj [("a[0]", .num 7)]) ∧
      validPath (.obj [("a[0]", .num 7)]) (stringsSplit "a[0]") = true ∧
      Set "\x7b\"a[0]\":7\x7d" "a[0]" (.num 1) =
        .ret ("\x7b\"a[0]\":7\x7d",
          some (.cannotFetch "a[0]" "\x7b\"a[0]\":7\x7d" .unmarshalType))) ∧
    (parseJSON "\x7b\"a\":1\x7d" = some (.obj [("a", .num 1)]) ∧
      validPath (.obj [("a", .num 1)]) (stringsSplit "a") = true ∧
      Set "\x7b\"a\":1\x7d" "a" (.num 9007199254740993) =
        .ret ("\x7b\"a\":9007199254740993\x7d", none) ∧
      Get "\x7b\"a\":9007199254740993\x7d" "a" = (.num 9007199254740992, none)) :=
  ⟨⟨by rfl, by rfl, by rfl⟩, by rfl, by rfl, by rfl, by rfl⟩

/-- Claim C1 (amended). Round trip of `Set` then `Get`: for every document `doc`
that decodes to `d` (of fewer than `2^63` values), every path valid in `d`
(each segment resolves to an existing object key or to an in-range array
index) none of whose field segments contains a bracketed integer, and every
value `v` as `json.Unmarshal` produces them (its numbers are `float64`
values), `Set doc path v` returns a new text `doc'` with no error, and
`Get doc' path` returns `v` with no error. -/
theorem C1_set_then_get (doc path : String) (d v : JSON)
    (hdoc : parseJSON doc = some d)
    (hsize : d.weight < 2 ^ 63)
    (hvalid : validPath d (stringsSplit path) = true)
    (hplain : fieldsPlain (stringsSplit path) = true)
    (hv : v.wf = true) :
    ∃ doc', Set doc path v = .ret (doc', none) ∧ Get doc' path = (v, none) := by
  unfold validPath at hvalid
  obtain ⟨x, hx⟩ := Option.isSome_iff_exists.1 hvalid
  have hres := addressed_resolve_plain (stringsSplit path) d x hplain hsize hx
  obtain ⟨d', hset, hget⟩ :=
    setVal_getVal_of_valid (stringsSplit path) (stringsSplit_ne_nil path) d v
      (by rw [hres]; rfl)
  have hd' : d'.wf = true := setVal_wf hset (parseJSON_wf hdoc) hv
  refine ⟨String.mk (encodeValue d'), ?_, ?_⟩
  · rw [Set_of_parse path v hdoc, hset]
  · rw [Get_eq_wrapGet path (parseJSON_encode d' hd'), hget]
    rfl

set_option maxRecDepth 1000000 in
/-- Witness of C1 on the sample document: the description of the second hobby
is replaced and read back. -/
theorem C1_set_then_get_witness :
    parseJSON jsonSample = some jsonSampleValue ∧
    jsonSampleValue.weight < 2 ^ 63 ∧
    validPath jsonSampleValue (stringsSplit "hobby.[1].description") = true ∧
    fieldsPlain (stringsSplit "hobby.[1].description") = true ∧
    (JSON.str "memancing perkara").wf = true ∧
    ∃ doc', Set jsonSample "hobby.[1].description" (.str "memancing perkara") = .ret (doc', none) ∧
      Get doc' "hobby.[1].description" = (.str "memancing perkara", none) :=
  ⟨by rfl, by decide, by rfl, by rfl, by rfl,
    C1_set_then_get jsonSample "hobby.[1].description" jsonSampleValue
      (.str "memancing perkara") (by rfl) (by decide) (by rfl) (by rfl) (by rfl)⟩

set_option maxRecDepth 1000000 in
/-- Counterexample to C2 as stated.  In the document with the single key
`a[0]` the path `a[0]` resolves to the scalar `7`, yet `Get` fails with the
decode (type) error.  In the text `\x7b"a":9007199254740993\x7d` the path `a`
resolves to the scalar `9007199254740993`, and `Get` returns
`9007199254740992`.  In the text `[1e400]` the path `[0]` resolves to the
scalar `1e400`, and `Get` fails with the decode error. -/
theorem C2_counterexample :
    (parseText "\x7b\"a[0]\":7\x7d" = some (.obj [("a[0]", .num 7)]) ∧
      addressed (.obj [("a[0]", .num 7)]) (stringsSplit "a[0]") = some (.num 7) ∧
      Get "\x7b\"a[0]\":7\x7d" "a[0]" =
        (.null, some (.cannotFetch "a[0]" "\x7b\"a[0]\":7\x7d" .unmarshalType))) ∧
    (parseText "\x7b\"a\":9007199254740993\x7d" =
        some (.obj [("a", .num 9007199254740993)]) ∧
      addressed (.obj [("a", .num 9007199254740993)]) (stringsSplit "a") =
        some (.num 9007199254740993) ∧
      Get "\x7b\"a\":9007199254740993\x7d" "a" = (.num 9007199254740992, none)) ∧
    (parseText "[1e400]" = some (.arr [.num ⟨false, 1, 400⟩]) ∧
      addressed (.arr [.num ⟨false, 1, 400⟩]) (stringsSplit "[0]") =
        some (.num ⟨false, 1, 400⟩) ∧
      Get "[1e400]" "[0]" = (.null, some (.cannotFetch "[0]" "[1e400]" .unmarshalType))) :=
  ⟨⟨by rfl, by rfl, by rfl⟩, ⟨by rfl, by rfl, by rfl⟩, by rfl, by rfl, by rfl⟩

set_option maxRecDepth 1000000 in
/-- Claim C2 (amended). `Get` returns the addressed value: for every document
that `json.Unmarshal` decodes, to `d` (of fewer than `2^63` values, its numbers
the nearest `float64` values), and every path none of whose field segments
contains a bracketed integer, whenever the segments of the path resolve in
`d`, level by level, to an existing object key or an in-range array index,
ending at the value `x` (a scalar in particular), `Get` returns exactly `x`
with no error.  On the sample document `Get` returns `"Naruto"` for `name`,
`"eating ramen"` for `hobby.[0].name` and `"coret-coret patung hokage"` for
`hobby.[-1].description`. -/
theorem C2_get_returns_addressed_value :
    (∀ (doc path : String) (d x : JSON), parseJSON doc = some d → d.weight < 2 ^ 63 →
      fieldsPlain (stringsSplit path) = true →
      addressed d (stringsSplit path) = some x → Get doc path = (x, none)) ∧
    Get jsonSample "name" = (.str "Naruto", none) ∧
    Get jsonSample "hobby.[0].name" = (.str "eating ramen", none) ∧
    Get jsonSample "hobby.[-1].description" = (.str "coret-coret patung hokage", none) := by
  refine ⟨?_, by rfl, by rfl, by rfl⟩
  intro doc path d x hdoc hsize hplain hres
  rw [Get_eq_wrapGet path hdoc,
    getVal_of_resolve (addressed_resolve_plain (stringsSplit path) d x hplain hsize hres)]
  rfl

set_option maxRecDepth 1000000 in
/-- Witness of C2: the general statement applied to the sample document and
the path `hobby.[0].description`. -/
theorem C2_get_returns_addressed_value_witness :
    parseJSON jsonSample = some jsonSampleValue ∧
    jsonSampleValue.weight < 2 ^ 63 ∧
    fieldsPlain (stringsSplit "hobby.[0].description") = true ∧
    addressed jsonSampleValue (stringsSplit "hobby.[0].description") =
      some (.str "makan ichiraku ramen") ∧
    Get jsonSample "hobby.[0].description" = (.str "makan ichiraku ramen", none) :=
  ⟨by rfl, by decide, by rfl, by rfl,
    C2_get_returns_addressed_value.1 jsonSample "hobby.[0].description" jsonSampleValue
      (.str "makan ichiraku ramen") (by rfl) (by decide) (by rfl) (by rfl)⟩

set_option maxRecDepth 1000000 in
/-- Claim C3 (the program departs from the claim). `Set` with an index segment
whose sign-normalised index is outside `[0, length)` does not return an error
as `Get` does: `setList` indexes the slice without the bounds check of
`getList`, and the program panics.  This is so for a too large and for a too
negative index, for a last and for an intermediate segment, and on every
array document. -/
theorem C3_set_out_of_range_panics :
    Set "[1]" "[5]" (.num 0) = .panic (.indexOutOfRange 5 1) ∧
    Get "[1]" "[5]" = (.null, some (.cannotFetch "[5]" "[1]" .indexOutOfBound)) ∧
    Set "[1]" "[-2]" (.num 0) = .panic (.indexOutOfRange (-1) 1) ∧
    Get "[1]" "[-2]" = (.null, some (.cannotFetch "[-2]" "[1]" .indexOutOfBound)) ∧
    Set "[[1]]" "[3].[0]" (.num 0) = .panic (.indexOutOfRange 3 1) ∧
    Get "[[1]]" "[3].[0]" = (.null, some (.cannotFetch "[3].[0]" "[[1]]" .indexOutOfBound)) ∧
    (∀ (doc path s : String) (rest : List String) (xs : List JSON) (v : JSON),
      parseJSON doc = some (.arr xs) → stringsSplit path = s :: rest → isListKey s = true →
      (normIndex (getIndexFromKey s) xs.length < 0 ∨
        (xs.length : Int) ≤ normIndex (getIndexFromKey s) xs.length) →
      Set doc path v =
          .panic (.indexOutOfRange (normIndex (getIndexFromKey s) xs.length) xs.length) ∧
        Get doc path = (.null, some (.cannotFetch path doc .indexOutOfBound))) := by
  refine ⟨by rfl, by rfl, by rfl, by rfl, by rfl, by rfl, ?_⟩
  intro doc path s rest xs v hdoc hsplit hs hoob
  constructor
  · rw [Set_of_parse path v hdoc, hsplit, setVal_arr_oob s rest xs v hs hoob]
  · rw [Get_eq_wrapGet path hdoc, hsplit, getVal, stepVal_arr_oob s xs hs hoob]
    rfl

/-- Claim C4 (the program departs from the claim). The empty path is not a path
of zero segments: `strings.Split("", ".")` is the one-element list `[""]`, so
the `len(keys) == 0` guards of `get` and `set` are never reached from `Get` and
`Set`, and the empty string is looked up as an object key.  `Get("{}", "")`
returns nil with no error and `Set("{}", "", 1)` returns `{"":1}` with no
error. -/
theorem C4_empty_path_is_one_segment :
    stringsSplit "" = [""] ∧
    Get "\x7b\x7d" "" = (.null, none) ∧
    Set "\x7b\x7d" "" (.num 1) = .ret ("\x7b\"\":1\x7d", none) ∧
    (∀ key : String, stringsSplit key ≠ []) ∧
    (∀ doc : String, get doc [] = (.null, some (.keyNotFound doc []))) ∧
    (∀ (doc : String) (v : JSON), set doc [] v = .ret (doc, some (.keyNotFound doc []))) :=
  ⟨by rfl, by rfl, by rfl, stringsSplit_ne_nil, fun _ => rfl, fun _ _ => rfl⟩

/-- Counterexample to C5 as stated: `a[0]` does not have the whole-segment
form `^\[-?\d+\]$`, yet `isListKey` accepts it, and `Get` uses it as index 0
of an array and not as the key `a[0]` of an object. -/
theorem C5_counterexample :
    ¬ (isListKey "a[0]" = true ↔ anchoredListKey "a[0]" = true) ∧
    isListKey "[0]x" = true ∧ anchoredListKey "[0]x" = false ∧
    Get "[7]" "a[0]" = (.num 7, none) ∧
    Get "\x7b\"a[0]\":7\x7d" "a[0]" =
      (.null, some (.cannotFetch "a[0]" "\x7b\"a[0]\":7\x7d" .unmarshalType)) := by
  refine ⟨?_, by rfl, by rfl, by rfl, by rfl⟩
  intro h
  have h1 : isListKey "a[0]" = true := by rfl
  have h2 : anchoredListKey "a[0]" = false := by rfl
  rw [h2] at h
  exact absurd (h.1 h1) (by decide)

/-- Claim C5 (amended). Segment classification is by a match anywhere in the
segment: `isListKey s` holds exactly when `s` contains a substring of the form
`[`, optional `-`, one or more decimal digits, `]` (the pattern carries no
anchors).  A segment of the whole-segment form is such a segment.  Every
segment for which `isListKey` fails is a field segment whose full text is the
object key used by `Get` (`getNewVal` is `getMap`) and by `Set` (`setNewVal` is
`setMap`). -/
theorem C5_classification_by_substring (s : String) :
    (isListKey s = true ↔
      ∃ pre ds post, ds ≠ [] ∧ ds.all isDigit = true ∧
        (s.toList = pre ++ '[' :: (ds ++ ']' :: post) ∨
          s.toList = pre ++ '[' :: '-' :: (ds ++ ']' :: post))) ∧
    (anchoredListKey s = true → isListKey s = true) ∧
    (isListKey s = false →
      (∀ jsonStr, getNewVal s jsonStr = getMap jsonStr s) ∧
      (∀ jsonStr rest v, setNewVal jsonStr (s :: rest) v =
        setMap jsonStr s rest v (fun sub => setNewVal sub rest v))) := by
  refine ⟨isListKey_iff s, ?_, ?_⟩
  · intro h
    unfold anchoredListKey at h
    cases hi : indexOfSegment s with
    | none => rw [hi] at h; exact absurd h (by simp)
    | some n => exact (getIndexFromKey_of_anchored hi).1
  · intro h
    constructor
    · intro jsonStr
      rw [getNewVal, h]
      rfl
    · intro jsonStr rest v
      rw [setNewVal, h]
      rfl

/-- Witness of C5 (amended): `[0]x` contains `[0]` behind the empty prefix,
so it is an index segment. -/
theorem C5_classification_by_substring_witness : isListKey "[0]x" = true :=
  (C5_classification_by_substring "[0]x").1.2
    ⟨[], ['0'], ['x'], by decide, by rfl, Or.inl (by rfl)⟩

set_option maxRecDepth 1000000 in
/-- Counterexample to C6 as stated: the index segment `[9223372036854775808]`
on an array of length 1 has `n ≥ N`, but `strconv.Atoi` fails on it,
`getIndexFromKey` returns `-1`, and `Get` returns the last element with no
error. -/
theorem C6_counterexample :
    indexOfSegment "[9223372036854775808]" = some 9223372036854775808 ∧
    parseJSON "[1]" = some (.arr [.num 1]) ∧
    Get "[1]" "[9223372036854775808]" = (.num 1, none) :=
  ⟨by rfl, by rfl, by rfl⟩

/-- Claim C6 (amended). Out-of-bounds `Get`: when the first segments of the path
resolve to an array of length `N` (the document itself when there are none),
and the next segment is `[n]` with `n` in the range of a 64-bit `int` and
`n ≥ N` or `n < -N`, `Get` fails with the index-out-of-bound error and returns
no value. -/
theorem C6_get_out_of_bounds (doc path : String) (d : JSON) (pre post : List String)
    (s : String) (xs : List JSON) (n : Int)
    (hdoc : parseJSON doc = some d)
    (hsplit : stringsSplit path = pre ++ s :: post)
    (hres : resolvePath d pre = some (.arr xs))
    (hs : indexOfSegment s = some n)
    (hrange : -(2 ^ 63 : Int) ≤ n ∧ n < 2 ^ 63)
    (hoob : (xs.length : Int) ≤ n ∨ n < -(xs.length : Int)) :
    Get doc path = (.null, some (.cannotFetch path doc .indexOutOfBound)) := by
  obtain ⟨hk, hi⟩ := getIndexFromKey_of_anchored hs
  rw [if_pos hrange] at hi
  rw [Get_of_resolved hdoc hsplit hres, getVal, stepVal_arr_oob s xs hk ?_]
  · rfl
  · rw [hi]
    unfold normIndex
    split <;> omega

set_option maxRecDepth 1000000 in
/-- Witness of C6 (amended): index 2 on the two hobbies of the sample
document. -/
theorem C6_get_out_of_bounds_witness :
    Get jsonSample "hobby.[2].name" =
      (.null, some (.cannotFetch "hobby.[2].name" jsonSample .indexOutOfBound)) :=
  C6_get_out_of_bounds jsonSample "hobby.[2].name" jsonSampleValue ["hobby"] ["name"] "[2]"
    [.obj [("description", .str "makan ichiraku ramen"), ("name", .str "eating ramen")],
     .obj [("description", .str "coret-coret patung hokage"), ("name", .str "vandalism")]]
    2 (by rfl) (by rfl) (by rfl) (by rfl) (by decide) (by decide)

theorem wrapGet_fst (key jsonStr : String) (r : JSON × Option GoError) :
    (wrapGet key jsonStr r).1 = r.1 := by
  rcases r with ⟨x, _ | e⟩ <;> rfl

theorem wrapGet_snd_none (key jsonStr : String) (r : JSON × Option GoError) :
    (wrapGet key jsonStr r).2 = none ↔ r.2 = none := by
  rcases r with ⟨x, _ | e⟩ <;> simp [wrapGet]

/-- The segments `[-k]` and `[N-k]` read the same element of an array of
length `N`. -/
theorem stepVal_negative_index (xs : List JSON) (s1 s2 : String) (k : Nat)
    (hk1 : 1 ≤ k) (hk2 : k ≤ xs.length) (hlen : xs.length < 2 ^ 63)
    (h1 : indexOfSegment s1 = some (-(k : Int)))
    (h2 : indexOfSegment s2 = some ((xs.length : Int) - k)) :
    stepVal s1 (.arr xs) = stepVal s2 (.arr xs) := by
  obtain ⟨hl1, hi1⟩ := getIndexFromKey_of_anchored h1
  obtain ⟨hl2, hi2⟩ := getIndexFromKey_of_anchored h2
  rw [if_pos (by constructor <;> omega)] at hi1 hi2
  have hn : normIndex (getIndexFromKey s1) xs.length =
      normIndex (getIndexFromKey s2) xs.length := by
    rw [hi1, hi2]
    unfold normIndex
    split <;> split <;> omega
  unfold stepVal
  rw [if_pos hl1, if_pos hl2]
  simp only [asList, hn]

set_option maxRecDepth 1000000 in
/-- Claim C7. Negative indices count from the end: when the first segments of two
paths resolve to an array of length `N` (a Go slice, so `N < 2^63`), the next
segment is `[-k]` in one and `[N-k]` in the other with `1 ≤ k ≤ N`, and the
remaining segments are the same, `get` returns the same result on both, and
`Get` the same value and an error on both or on neither.  On the sample
document `hobby.[-1].description` and `hobby.[1].description` give the same
result. -/
theorem C7_negative_index_from_end :
    (∀ (doc p1 p2 : String) (d : JSON) (pre post : List String) (s1 s2 : String)
      (xs : List JSON) (k : Nat),
      parseJSON doc = some d → resolvePath d pre = some (.arr xs) →
      1 ≤ k → k ≤ xs.length → xs.length < 2 ^ 63 →
      indexOfSegment s1 = some (-(k : Int)) →
      indexOfSegment s2 = some ((xs.length : Int) - k) →
      stringsSplit p1 = pre ++ s1 :: post → stringsSplit p2 = pre ++ s2 :: post →
      get doc (stringsSplit p1) = get doc (stringsSplit p2) ∧
        (Get doc p1).1 = (Get doc p2).1 ∧
        ((Get doc p1).2 = none ↔ (Get doc p2).2 = none)) ∧
    Get jsonSample "hobby.[-1].description" = Get jsonSample "hobby.[1].description" := by
  refine ⟨?_, by rfl⟩
  intro doc p1 p2 d pre post s1 s2 xs k hdoc hres hk1 hk2 hlen h1 h2 hp1 hp2
  have hstep := stepVal_negative_index xs s1 s2 k hk1 hk2 hlen h1 h2
  have hval : getVal (.arr xs) (s1 :: post) = getVal (.arr xs) (s2 :: post) := by
    rw [getVal, getVal, hstep]
  refine ⟨?_, ?_, ?_⟩
  · rw [hp1, hp2, get_of_resolved hdoc (by simp) hres, get_of_resolved hdoc (by simp) hres, hval]
  · rw [Get_of_resolved hdoc hp1 hres, Get_of_resolved hdoc hp2 hres, wrapGet_fst, wrapGet_fst,
      hval]
  · rw [Get_of_resolved hdoc hp1 hres, Get_of_resolved hdoc hp2 hres, wrapGet_snd_none,
      wrapGet_snd_none, hval]

set_option maxRecDepth 1000000 in
/-- Witness of C7: the general statement applied to the two hobbies of the
sample document, with `k = 1`. -/
theorem C7_negative_index_from_end_witness :
    get jsonSample (stringsSplit "hobby.[-1].name") =
      get jsonSample (stringsSplit "hobby.[1].name") ∧
    (Get jsonSample "hobby.[-1].name").1 = (Get jsonSample "hobby.[1].name").1 ∧
    ((Get jsonSample "hobby.[-1].name").2 = none ↔
      (Get jsonSample "hobby.[1].name").2 = none) :=
  C7_negative_index_from_end.1 jsonSample "hobby.[-1].name" "hobby.[1].name" jsonSampleValue
    ["hobby"] ["name"] "[-1]" "[1]"
    [.obj [("description", .str "makan ichiraku ramen"), ("name", .str "eating ramen")],
     .obj [("description", .str "coret-coret patung hokage"), ("name", .str "vandalism")]]
    1 (by rfl) (by rfl) (by decide) (by decide) (by decide) (by rfl) (by rfl) (by rfl) (by rfl)

/-- Counterexample to C8 as stated: the key `a` is absent from `{}`, and `Get`
on `a.[0]` fails with the index-out-of-bound error instead of returning
null. -/
theorem C8_counterexample :
    parseJSON "\x7b\x7d" = some (.obj []) ∧ isListKey "a" = false ∧ lookupKey "a" [] = none ∧
    Get "\x7b\x7d" "a.[0]" = (.null, some (.cannotFetch "a.[0]" "\x7b\x7d" .indexOutOfBound)) :=
  ⟨by rfl, by rfl, by rfl, by rfl⟩

/-- On null every walk through field segments returns null. -/
theorem getVal_null_fields (post : List String) (h : ∀ t ∈ post, isListKey t = false) :
    getVal .null post = (.null, none) := by
  induction post with
  | nil => rfl
  | cons t ts ih =>
    have ht : isListKey t = false := h t (List.mem_cons_self _ _)
    have hs : stepVal t .null = (.null, none) := by
      unfold stepVal
      rw [if_neg (by simp [ht])]
      rfl
    rw [getVal, hs]
    exact ih (fun u hu => h u (List.mem_cons_of_mem _ hu))

/-- Claim C8 (amended). Object field miss on `Get` returns null: whenever a field
segment, final or not, names a key that is absent from the object reached at
that level, and every segment after it is a field segment too, `Get` returns
a null value with no error. -/
theorem C8_field_miss_returns_null (doc path : String) (d : JSON) (pre post : List String)
    (s : String) (kvs : List (String × JSON))
    (hdoc : parseJSON doc = some d)
    (hsplit : stringsSplit path = pre ++ s :: post)
    (hres : resolvePath d pre = some (.obj kvs))
    (hs : isListKey s = false)
    (hmiss : lookupKey s kvs = none)
    (hpost : ∀ t ∈ post, isListKey t = false) :
    Get doc path = (.null, none) := by
  rw [Get_of_resolved hdoc hsplit hres, getVal, stepVal_obj s kvs hs, hmiss]
  simp only [Option.getD_none]
  rw [getVal_null_fields post hpost]
  rfl

set_option maxRecDepth 1000000 in
/-- Witness of C8 (amended): the first hobby of the sample document has no key
`place`, and `Get` on `hobby.[0].place.city` returns null. -/
theorem C8_field_miss_returns_null_witness :
    Get jsonSample "hobby.[0].place.city" = (.null, none) :=
  C8_field_miss_returns_null jsonSample "hobby.[0].place.city" jsonSampleValue
    ["hobby", "[0]"] ["city"] "place"
    [("description", .str "makan ichiraku ramen"), ("name", .str "eating ramen")]
    (by rfl) (by rfl) (by rfl) (by rfl) (by rfl)
    (by intro t ht; rw [List.mem_singleton.1 ht]; rfl)

set_option maxRecDepth 1000000 in
/-- Counterexample to C9 as stated.  On the array `[1,2]` the path `[0]`
diverges from the path `a[0]`, whose only segment is a field segment, yet
`Set` with `a[0]` replaces the element at index 0, which `Get` with `[0]` then
reads.  The path `[-1]` diverges from the path `[99999999999999999999]` (the
indices 1 and 99999999999999999999 differ), yet `Set` with the latter replaces
the last element.  And `Set` with the path `b` rewrites the untouched sibling
`a` of the text `\x7b"a":9007199254740993,"b":1\x7d` to `9007199254740992`. -/
theorem C9_counterexample :
    (parseJSON "[1,2]" = some (.arr [.num 1, .num 2]) ∧
      diverges (.arr [.num 1, .num 2]) (stringsSplit "a[0]") (stringsSplit "[0]") = true ∧
      Set "[1,2]" "a[0]" (.num 9) = .ret ("[9,2]", none) ∧
      Get "[9,2]" "[0]" = (.num 9, none) ∧ Get "[1,2]" "[0]" = (.num 1, none)) ∧
    (diverges (.arr [.num 1, .num 2]) (stringsSplit "[99999999999999999999]")
        (stringsSplit "[-1]") = true ∧
      Set "[1,2]" "[99999999999999999999]" (.num 9) = .ret ("[1,9]", none) ∧
      Get "[1,9]" "[-1]" = (.num 9, none) ∧ Get "[1,2]" "[-1]" = (.num 2, none)) ∧
    (parseText "\x7b\"a\":9007199254740993,\"b\":1\x7d" =
        some (.obj [("a", .num 9007199254740993), ("b", .num 1)]) ∧
      Set "\x7b\"a\":9007199254740993,\"b\":1\x7d" "b" (.num 2) =
        .ret ("\x7b\"a\":9007199254740992,\"b\":2\x7d", none) ∧
      parseText "\x7b\"a\":9007199254740992,\"b\":2\x7d" =
        some (.obj [("a", .num 9007199254740992), ("b", .num 2)])) :=
  ⟨⟨by rfl, by rfl, by rfl, by rfl, by rfl⟩, ⟨by rfl, by rfl, by rfl, by rfl⟩,
    by rfl, by rfl, by rfl⟩

set_option maxRecDepth 1000000 in
/-- Claim C9 (amended). `Set` changes only the addressed location: when
`Set doc p v` succeeds with the text `doc'`, and the program reads the
segments of `p` and `q` as the specification does (a segment of the form `[n]`
has `n` in the range of a 64-bit `int`, any other segment contains no
bracketed integer), every path `q` that diverges from `p` at some level (the
two address the same slots down to a container in which they address
different keys or different indices) reads the same in `doc'` as in `doc`,
values taken as `json.Unmarshal` decodes them: `get` returns the same result,
and `Get` the same value and an error on both or on neither.  On the sample
document, setting `name` leaves the `hobby` array unchanged, and setting
`hobby.[1].description` leaves `hobby.[0]` and `hobby.[1].name` unchanged. -/
theorem C9_set_changes_only_addressed :
    (∀ (doc p q doc' : String) (d v : JSON), v.wf = true → parseJSON doc = some d →
      Set doc p v = .ret (doc', none) →
      (stringsSplit p).all plainSegment = true →
      (stringsSplit q).all plainSegment = true →
      diverges d (stringsSplit p) (stringsSplit q) = true →
      get doc' (stringsSplit q) = get doc (stringsSplit q) ∧
        (Get doc' q).1 = (Get doc q).1 ∧
        ((Get doc' q).2 = none ↔ (Get doc q).2 = none)) ∧
    (∃ doc', Set jsonSample "name" (.str "Naruto Uzumaki") = .ret (doc', none) ∧
      Get doc' "hobby" = Get jsonSample "hobby") ∧
    (∃ doc', Set jsonSample "hobby.[1].description" (.str "memancing perkara") =
        .ret (doc', none) ∧
      Get doc' "hobby.[0]" = Get jsonSample "hobby.[0]" ∧
      Get doc' "hobby.[1].name" = Get jsonSample "hobby.[1].name") := by
  refine ⟨?_, ?_, ?_⟩
  · intro doc p q doc' d v hv hdoc hset hp hq hdiv
    obtain ⟨d0, d', hdoc0, hsv, hdoc'⟩ := Set_ret_inv hset
    rw [hdoc] at hdoc0
    simp only [Option.some.injEq] at hdoc0
    subst hdoc0
    have hd' : d'.wf = true := setVal_wf hsv (parseJSON_wf hdoc) hv
    have hparse' : parseJSON doc' = some d' := by
      rw [hdoc']; exact parseJSON_encode d' hd'
    have hwalk := walkDiverges_of_diverges (stringsSplit p) d (stringsSplit q)
      (List.all_eq_true.1 hp) (List.all_eq_true.1 hq) hdiv
    have hval := getVal_setVal_walkDiverges (stringsSplit p) v d d' (stringsSplit q) hsv hwalk
    obtain ⟨k, ks, hk⟩ := stringsSplit_cons q
    refine ⟨?_, ?_, ?_⟩
    · rw [hk, get_of_parse ks k hparse' hd', get_of_parse ks k hdoc (parseJSON_wf hdoc),
        ← hk, hval]
    · rw [Get_eq_wrapGet q hparse', Get_eq_wrapGet q hdoc, wrapGet_fst, wrapGet_fst, hval]
    · rw [Get_eq_wrapGet q hparse', Get_eq_wrapGet q hdoc, wrapGet_snd_none,
        wrapGet_snd_none, hval]
  · exact ⟨"\x7b\"hobby\":[\x7b\"description\":\"makan ichiraku ramen\",\"name\":\"eating ramen\"\x7d,\x7b\"description\":\"coret-coret patung hokage\",\"name\":\"vandalism\"\x7d],\"name\":\"Naruto Uzumaki\"\x7d",
      by rfl, by rfl⟩
  · exact ⟨"\x7b\"hobby\":[\x7b\"description\":\"makan ichiraku ramen\",\"name\":\"eating ramen\"\x7d,\x7b\"description\":\"memancing perkara\",\"name\":\"vandalism\"\x7d],\"name\":\"Naruto\"\x7d",
      by rfl, by rfl, by rfl⟩

set_option maxRecDepth 1000000 in
/-- Witness of C9: the general statement applied to the sample document, with
`hobby.[0].description` written and `hobby.[-1].description` read. -/
theorem C9_set_changes_only_addressed_witness :
    (JSON.str "x").wf = true ∧ parseJSON jsonSample = some jsonSampleValue ∧
    (stringsSplit "hobby.[0].description").all plainSegment = true ∧
    (stringsSplit "hobby.[-1].description").all plainSegment = true ∧
    diverges jsonSampleValue (stringsSplit "hobby.[0].description")
      (stringsSplit "hobby.[-1].description") = true ∧
    get "\x7b\"hobby\":[\x7b\"description\":\"x\",\"name\":\"eating ramen\"\x7d,\x7b\"description\":\"coret-coret patung hokage\",\"name\":\"vandalism\"\x7d],\"name\":\"Naruto\"\x7d"
        (stringsSplit "hobby.[-1].description") =
      get jsonSample (stringsSplit "hobby.[-1].description") :=
  ⟨by rfl, by rfl, by rfl, by rfl, by rfl,
    (C9_set_changes_only_addressed.1 jsonSample "hobby.[0].description"
      "hobby.[-1].description" _ jsonSampleValue (.str "x") (by rfl) (by rfl) (by rfl)
      (by rfl) (by rfl) (by rfl)).1⟩

/-- Counterexample to C10 as stated: null is a scalar, and `Get` with a
further field segment on it succeeds with null, at the top level and below;
with a further index segment it fails with the index-out-of-bound error, which
is not a decode error. -/
theorem C10_counterexample :
    Get "null" "a" = (.null, none) ∧
    Get "\x7b\"a\":null\x7d" "a.b" = (.null, none) ∧
    Get "null" "[0]" = (.null, some (.cannotFetch "[0]" "null" .indexOutOfBound)) :=
  ⟨by rfl, by rfl, by rfl⟩

/-- Claim C10 (amended). `Get` fails on a shape mismatch at any level: when the
value reached by the first segments of the path is a string, a number or a
boolean, whatever the next segment, or an array and the next segment is a
field segment, or an object and the next segment is an index segment, `Get`
returns the decode (type) error of `json.Unmarshal` and no value. -/
theorem C10_shape_mismatch_fails (doc path : String) (d x : JSON) (pre post : List String)
    (s : String)
    (hdoc : parseJSON doc = some d)
    (hsplit : stringsSplit path = pre ++ s :: post)
    (hres : resolvePath d pre = some x)
    (hshape : shapeMismatch x s = true) :
    Get doc path = (.null, some (.cannotFetch path doc .unmarshalType)) := by
  have hstep : stepVal s x = (.null, some .unmarshalType) := by
    unfold stepVal
    cases x with
    | null => simp [shapeMismatch] at hshape
    | bool b => split <;> rfl
    | num n => split <;> rfl
    | str t => split <;> rfl
    | arr xs =>
      simp only [shapeMismatch, Bool.not_eq_true'] at hshape
      rw [if_neg (by simp [hshape])]
      rfl
    | obj kvs =>
      simp only [shapeMismatch] at hshape
      rw [if_pos hshape]
      rfl
  rw [Get_of_resolved hdoc hsplit hres, getVal, hstep]
  rfl

set_option maxRecDepth 1000000 in
/-- Witness of C10 (amended): `name` of the sample document is a string, and
`Get` on `name.first` fails with the type error. -/
theorem C10_shape_mismatch_fails_witness :
    Get jsonSample "name.first" =
      (.null, some (.cannotFetch "name.first" jsonSample .unmarshalType)) :=
  C10_shape_mismatch_fails jsonSample "name.first" jsonSampleValue (.str "Naruto")
    ["name"] [] "first" (by rfl) (by rfl) (by rfl) (by rfl)

set_option maxRecDepth 1000000 in
/-- Counterexample to C11 as stated: the key `a[0]` is not of the index form
`^\[-?\d+\]$`, has no dot and is absent from the empty object, yet the program
classifies it as an index segment, and `Set` fails with the decode (type) error
and returns the document unchanged.  With the absent key `b` and the value
`9007199254740993`, the result of `Set` decodes to the mapping with `b` mapped
to `9007199254740992`.  And creating `b` in the text
`\x7b"a":9007199254740993\x7d` rewrites `a` to `9007199254740992`. -/
theorem C11_counterexample :
    (anchoredListKey "a[0]" = false ∧ '.' ∉ "a[0]".toList ∧
      parseJSON "\x7b\x7d" = some (.obj []) ∧ lookupKey "a[0]" [] = none ∧
      Set "\x7b\x7d" "a[0]" (.num 1) =
        .ret ("\x7b\x7d", some (.cannotFetch "a[0]" "\x7b\x7d" .unmarshalType))) ∧
    (Set "\x7b\x7d" "b" (.num 9007199254740993) = .ret ("\x7b\"b\":9007199254740993\x7d", none) ∧
      parseJSON "\x7b\"b\":9007199254740993\x7d" = some (.obj [("b", .num 9007199254740992)])) ∧
    (parseText "\x7b\"a\":9007199254740993\x7d" = some (.obj [("a", .num 9007199254740993)]) ∧
      Set "\x7b\"a\":9007199254740993\x7d" "b" (.num 1) =
        .ret ("\x7b\"a\":9007199254740992,\"b\":1\x7d", none)) :=
  ⟨⟨by rfl, by decide, by rfl, by rfl, by rfl⟩, ⟨by rfl, by rfl⟩, by rfl, by rfl⟩

/-- Claim C11 (amended). `Set` on an object with a field segment naming a key
that does not exist creates the key: when the document decodes to an object,
the key `k` is absent from it, contains no bracketed integer anywhere (the
program does not classify it as an index segment) and no dot, and `v` is a
value as `json.Unmarshal` produces them (its numbers are `float64` values),
`Set doc k v` succeeds and its result decodes to the mapping the document
decodes to, extended with `k` mapped to `v`: `k` reads `v`, every other key
reads as before, and there is one more key. -/
theorem C11_set_creates_missing_key (doc k : String) (kvs : List (String × JSON)) (v : JSON)
    (hdoc : parseJSON doc = some (.obj kvs)) (hmiss : lookupKey k kvs = none)
    (hk : isListKey k = false) (hdot : '.' ∉ k.toList) (hv : v.wf = true) :
    ∃ doc', Set doc k v = .ret (doc', none) ∧
      parseJSON doc' = some (.obj (insertKey k v kvs)) ∧
      lookupKey k (insertKey k v kvs) = some v ∧
      (∀ k', k' ≠ k → lookupKey k' (insertKey k v kvs) = lookupKey k' kvs) ∧
      (insertKey k v kvs).length = kvs.length + 1 := by
  have hsv : setVal (.obj kvs) [k] v = .ret (.obj (insertKey k v kvs), none) := by
    rw [setVal_obj k [] kvs v hk]
    rfl
  have hwf : (JSON.obj (insertKey k v kvs)).wf = true := setVal_wf hsv (parseJSON_wf hdoc) hv
  refine ⟨String.mk (encodeValue (.obj (insertKey k v kvs))), ?_, parseJSON_encode _ hwf,
    lookupKey_insertKey_self k v kvs, fun k' hne => lookupKey_insertKey_ne hne v kvs,
    insertKey_length_absent v hmiss⟩
  rw [Set_of_parse k v hdoc, stringsSplit_no_dot k hdot, hsv]

set_option maxRecDepth 1000000 in
/-- Witness of C11: the key `b` is created in the object with the single key
`a`. -/
theorem C11_set_creates_missing_key_witness :
    parseJSON "\x7b\"a\":1\x7d" = some (.obj [("a", .num 1)]) ∧
    lookupKey "b" [("a", .num 1)] = none ∧ isListKey "b" = false ∧ '.' ∉ "b".toList ∧
    (JSON.num 2).wf = true ∧
    ∃ doc', Set "\x7b\"a\":1\x7d" "b" (.num 2) = .ret (doc', none) ∧
      parseJSON doc' = some (.obj (insertKey "b" (.num 2) [("a", .num 1)])) ∧
      lookupKey "b" (insertKey "b" (.num 2) [("a", .num 1)]) = some (.num 2) ∧
      (∀ k', k' ≠ "b" →
        lookupKey k' (insertKey "b" (.num 2) [("a", .num 1)]) = lookupKey k' [("a", .num 1)]) ∧
      (insertKey "b" (.num 2) [("a", .num 1)]).length = [("a", JSON.num 1)].length + 1 :=
  ⟨by rfl, by rfl, by rfl, by decide, by rfl,
    C11_set_creates_missing_key "\x7b\"a\":1\x7d" "b" [("a", .num 1)] (.num 2)
      (by rfl) (by rfl) (by rfl) (by decide) (by rfl)⟩

set_option maxRecDepth 1000000 in
/-- Claim C12. Sentinel index: when the pattern matches in a segment and
`strconv.Atoi` rejects the matched digits, as in `[99999999999999999999999]`,
the segment is an index segment and `getIndexFromKey` returns `-1`.  A segment
with that index is read by `get` and `set` exactly as the segment `[-1]`, at
any position of the path.  On a document that is a non-empty array, `Get`
returns its last element and `Set` replaces its last element, both without
error; on the empty array `Get` fails with the index-out-of-bound error and
`Set` stops on the index `-1` being out of range for length 0. -/
theorem C12_sentinel_index :
    (∀ (s : String) (g : List Char), findListKey s.toList = some g → atoi g = none →
      isListKey s = true ∧ getIndexFromKey s = -1) ∧
    (isListKey "[99999999999999999999999]" = true ∧
      getIndexFromKey "[99999999999999999999999]" = -1) ∧
    (∀ (s : String), isListKey s = true → getIndexFromKey s = -1 →
      (∀ (doc : String) (pre post : List String),
        get doc (pre ++ s :: post) = get doc (pre ++ "[-1]" :: post)) ∧
      (∀ (doc : String) (pre post : List String) (v : JSON),
        set doc (pre ++ s :: post) v = set doc (pre ++ "[-1]" :: post) v) ∧
      (∀ (doc : String) (xs : List JSON) (v : JSON), '.' ∉ s.toList →
        parseJSON doc = some (.arr xs) →
        (xs ≠ [] →
          Get doc s = (xs.getD (xs.length - 1) .null, none) ∧
          Set doc s v = .ret (String.mk (encodeValue (.arr (xs.set (xs.length - 1) v))), none)) ∧
        (xs = [] →
          Get doc s = (.null, some (.cannotFetch s doc .indexOutOfBound)) ∧
          Set doc s v = .panic (.indexOutOfRange (-1) 0)))) ∧
    Get "[1,2,3]" "[99999999999999999999999]" = (.num 3, none) ∧
    Set "[1,2,3]" "[99999999999999999999999]" (.num 0) = .ret ("[1,2,0]", none) ∧
    Get "[]" "[99999999999999999999999]" =
      (.null, some (.cannotFetch "[99999999999999999999999]" "[]" .indexOutOfBound)) ∧
    Set "[]" "[99999999999999999999999]" (.num 0) = .panic (.indexOutOfRange (-1) 0) := by
  refine ⟨fun s g hf ha => getIndexFromKey_sentinel hf ha, ⟨by rfl, by rfl⟩, ?_,
    by rfl, by rfl, by rfl, by rfl⟩
  intro s hs hi
  have ht : isListKey "[-1]" = true := by rfl
  have hit : getIndexFromKey s = getIndexFromKey "[-1]" := by rw [hi]; rfl
  refine ⟨fun doc pre post => get_same_index hs ht hit pre post doc,
    fun doc pre post v => set_same_index hs ht hit pre post v doc, ?_⟩
  intro doc xs v hdot hdoc
  have hsplit := stringsSplit_no_dot s hdot
  constructor
  · intro hne
    have hpos : 0 < xs.length := List.length_pos.2 hne
    have hn : normIndex (getIndexFromKey s) xs.length = (xs.length : Int) - 1 := by
      rw [hi, normIndex]
      simp only [Int.reduceNeg, Left.neg_neg_iff, zero_lt_one, if_true]
      omega
    have hnat : ((xs.length : Int) - 1).toNat = xs.length - 1 := by omega
    constructor
    · rw [Get_eq_wrapGet s hdoc, hsplit, getVal,
        stepVal_arr s xs hs (by rw [hn]; omega) (by rw [hn]; omega), hn, hnat]
      rfl
    · rw [Set_of_parse s v hdoc, hsplit,
        setVal_arr s [] xs v hs (by rw [hn]; omega) (by rw [hn]; omega), hn, hnat]
      rfl
  · intro hnil
    subst hnil
    have hn : normIndex (getIndexFromKey s) ([] : List JSON).length = -1 := by
      rw [hi, normIndex]
      rfl
    constructor
    · rw [Get_eq_wrapGet s hdoc, hsplit, getVal,
        stepVal_arr_oob s [] hs (Or.inl (by rw [hn]; decide))]
      rfl
    · rw [Set_of_parse s v hdoc, hsplit,
        setVal_arr_oob s [] [] v hs (Or.inl (by rw [hn]; decide)), hn]
      rfl

set_option maxRecDepth 1000000 in
/-- Witness of C12: the segment `[18446744073709551616]` on the array
`["a","b"]` reads the last element. -/
theorem C12_sentinel_index_witness :
    isListKey "[18446744073709551616]" = true ∧
    getIndexFromKey "[18446744073709551616]" = -1 ∧
    '.' ∉ "[18446744073709551616]".toList ∧
    parseJSON "[\"a\",\"b\"]" = some (.arr [.str "a", .str "b"]) ∧
    Get "[\"a\",\"b\"]" "[18446744073709551616]" =
      ([JSON.str "a", JSON.str "b"].getD ([JSON.str "a", JSON.str "b"].length - 1) .null, none) :=
  ⟨by rfl, by rfl, by decide, by rfl,
    (((C12_sentinel_index.2.2.1 "[18446744073709551616]" (by rfl) (by rfl)).2.2
      "[\"a\",\"b\"]" [.str "a", .str "b"] .null (by decide) (by rfl)).1 (by simp)).1⟩

/-- Claim C13. `Get` is compositional over the path: `get` on the segments of
`p + "." + q` is `get` on the segments of `q` applied to the encoding of the
value that `get` reaches along `p`, and the error of `get` along `p` when
there is one.  Hence, when `Get doc p` succeeds with `x`, `Get` on
`p + "." + q` returns the same value as `Get` on the encoding of `x` with
path `q`, and an error with the same cause or no error as the latter does (the
error of `Get` also carries the path and the document it was called with);
when `Get doc p` fails, `Get` on `p + "." + q` fails with the same cause and
returns no value. -/
theorem C13_get_compositional (doc p q : String) :
    get doc (stringsSplit (p ++ "." ++ q)) =
      (match get doc (stringsSplit p) with
      | (x, none) => get (String.mk (encodeValue x)) (stringsSplit q)
      | (_, some e) => (.null, some e)) ∧
    (∀ x, Get doc p = (x, none) →
      (Get doc (p ++ "." ++ q)).1 = (Get (String.mk (encodeValue x)) q).1 ∧
      (Get doc (p ++ "." ++ q)).2.map errCause =
        (Get (String.mk (encodeValue x)) q).2.map errCause) ∧
    (∀ x e, Get doc p = (x, some e) →
      ∃ e', Get doc (p ++ "." ++ q) = (.null, some e') ∧ errCause e' = errCause e) := by
  have hcomp := get_append (stringsSplit p) (stringsSplit q) (stringsSplit_ne_nil p)
    (stringsSplit_ne_nil q) doc
  rw [← stringsSplit_join] at hcomp
  refine ⟨hcomp, ?_, ?_⟩
  · intro x hx
    rw [Get_wrap] at hx
    have hg := wrapGet_none_inv hx
    rw [hg] at hcomp
    simp only at hcomp
    rw [Get_wrap doc (p ++ "." ++ q), Get_wrap _ q, wrapGet_fst, wrapGet_fst, wrapGet_cause,
      wrapGet_cause, hcomp]
    exact ⟨rfl, rfl⟩
  · intro x e hx
    rw [Get_wrap] at hx
    obtain ⟨e0, hg, he⟩ := wrapGet_some_inv hx
    rw [hg] at hcomp
    simp only at hcomp
    refine ⟨.cannotFetch (p ++ "." ++ q) doc e0, ?_, ?_⟩
    · rw [Get_wrap, hcomp]
      rfl
    · rw [he]
      rfl

set_option maxRecDepth 1000000 in
/-- Witness of C13 on the sample document, with the paths `hobby` and
`[0].name`. -/
theorem C13_get_compositional_witness :
    Get jsonSample "hobby" =
      (.arr [
        .obj [("description", .str "makan ichiraku ramen"), ("name", .str "eating ramen")],
        .obj [("description", .str "coret-coret patung hokage"), ("name", .str "vandalism")]],
        none) ∧
    (Get jsonSample ("hobby" ++ "." ++ "[0].name")).1 =
      (Get (String.mk (encodeValue (.arr [
        .obj [("description", .str "makan ichiraku ramen"), ("name", .str "eating ramen")],
        .obj [("description", .str "coret-coret patung hokage"), ("name", .str "vandalism")]])))
        "[0].name").1 :=
  ⟨by rfl, ((C13_get_compositional jsonSample "hobby" "[0].name").2.1 _ (by rfl)).1⟩

/-- Claim C14. `Set` never appends: when `Set doc p v` succeeds with the text
`doc'` and the path passes through an array (the segments before some segment
of the path resolve to an array in the document), the same segments resolve to
an array of the same length in the value that `doc'` decodes to. -/
theorem C14_set_keeps_array_length (doc p doc' : String) (d v : JSON)
    (pre post : List String) (s : String) (xs : List JSON)
    (hv : v.wf = true) (hdoc : parseJSON doc = some d)
    (hset : Set doc p v = .ret (doc', none))
    (hsplit : stringsSplit p = pre ++ s :: post)
    (hres : resolvePath d pre = some (.arr xs)) :
    ∃ d' ys, parseJSON doc' = some d' ∧ resolvePath d' pre = some (.arr ys) ∧
      ys.length = xs.length := by
  obtain ⟨d0, d', hdoc0, hsv, hdoc'⟩ := Set_ret_inv hset
  rw [hdoc] at hdoc0
  simp only [Option.some.injEq] at hdoc0
  subst hdoc0
  have hd' : d'.wf = true := setVal_wf hsv (parseJSON_wf hdoc) hv
  rw [hsplit] at hsv
  obtain ⟨ys, hys, hlen⟩ := setVal_keeps_length pre s post v d d' xs hsv hres
  exact ⟨d', ys, by rw [hdoc']; exact parseJSON_encode d' hd', hys, hlen⟩

set_option maxRecDepth 1000000 in
/-- Witness of C14 on the sample document: writing `hobby.[0].description`
leaves the array `hobby` with its two elements. -/
theorem C14_set_keeps_array_length_witness :
    (JSON.str "x").wf = true ∧ parseJSON jsonSample = some jsonSampleValue ∧
    Set jsonSample "hobby.[0].description" (.str "x") =
      .ret ("\x7b\"hobby\":[\x7b\"description\":\"x\",\"name\":\"eating ramen\"\x7d,\x7b\"description\":\"coret-coret patung hokage\",\"name\":\"vandalism\"\x7d],\"name\":\"Naruto\"\x7d", none) ∧
    stringsSplit "hobby.[0].description" = ["hobby"] ++ "[0]" :: ["description"] ∧
    ∃ d' ys,
      parseJSON "\x7b\"hobby\":[\x7b\"description\":\"x\",\"name\":\"eating ramen\"\x7d,\x7b\"description\":\"coret-coret patung hokage\",\"name\":\"vandalism\"\x7d],\"name\":\"Naruto\"\x7d" = some d' ∧
      resolvePath d' ["hobby"] = some (.arr ys) ∧
      ys.length = [
        JSON.obj [("description", .str "makan ichiraku ramen"), ("name", .str "eating ramen")],
        JSON.obj [("description", .str "coret-coret patung hokage"), ("name", .str "vandalism")]
        ].length :=
  ⟨by rfl, by rfl, by rfl, by rfl,
    C14_set_keeps_array_length jsonSample "hobby.[0].description" _ jsonSampleValue (.str "x")
      ["hobby"] ["description"] "[0]" _ (by rfl) (by rfl) (by rfl) (by rfl) (by rfl)⟩

/-- Claim C15. Last write wins: when `Set doc p v1` succeeds with the text
`doc1`, `Set doc1 p v2` succeeds, and it returns the very text that
`Set doc p v2` returns, which decodes; in particular `Set doc1 p v1` returns
`doc1` again. -/
theorem C15_last_write_wins (doc p doc1 : String) (v1 v2 : JSON) (hv1 : v1.wf = true)
    (hv2 : v2.wf = true) (hset : Set doc p v1 = .ret (doc1, none)) :
    (∃ doc2 d2, Set doc1 p v2 = .ret (doc2, none) ∧ Set doc p v2 = .ret (doc2, none) ∧
      parseJSON doc2 = some d2) ∧
    Set doc1 p v1 = .ret (doc1, none) := by
  obtain ⟨d, d1, hdoc, hsv, hdoc1⟩ := Set_ret_inv hset
  have hd1 : d1.wf = true := setVal_wf hsv (parseJSON_wf hdoc) hv1
  have hparse1 : parseJSON doc1 = some d1 := by
    rw [hdoc1]; exact parseJSON_encode d1 hd1
  constructor
  · obtain ⟨d2, h2, h12⟩ := setVal_twice (stringsSplit p) v1 v2 d d1 hsv
    refine ⟨String.mk (encodeValue d2), d2, ?_, ?_,
      parseJSON_encode d2 (setVal_wf h2 (parseJSON_wf hdoc) hv2)⟩
    · rw [Set_of_parse p v2 hparse1, h12]
    · rw [Set_of_parse p v2 hdoc, h2]
  · obtain ⟨d2, h2, h12⟩ := setVal_twice (stringsSplit p) v1 v1 d d1 hsv
    rw [hsv] at h2
    simp only [Exec.ret.injEq, Prod.mk.injEq, and_true] at h2
    subst h2
    rw [Set_of_parse p v1 hparse1, h12, hdoc1]

set_option maxRecDepth 1000000 in
/-- Witness of C15 on the sample document: `name` is written twice. -/
theorem C15_last_write_wins_witness :
    (JSON.str "Sasuke").wf = true ∧ (JSON.num 7).wf = true ∧
    Set jsonSample "name" (.str "Sasuke") =
      .ret ("\x7b\"hobby\":[\x7b\"description\":\"makan ichiraku ramen\",\"name\":\"eating ramen\"\x7d,\x7b\"description\":\"coret-coret patung hokage\",\"name\":\"vandalism\"\x7d],\"name\":\"Sasuke\"\x7d", none) ∧
    ((∃ doc2 d2,
      Set "\x7b\"hobby\":[\x7b\"description\":\"makan ichiraku ramen\",\"name\":\"eating ramen\"\x7d,\x7b\"description\":\"coret-coret patung hokage\",\"name\":\"vandalism\"\x7d],\"name\":\"Sasuke\"\x7d"
        "name" (.num 7) = .ret (doc2, none) ∧
      Set jsonSample "name" (.num 7) = .ret (doc2, none) ∧ parseJSON doc2 = some d2) ∧
    Set "\x7b\"hobby\":[\x7b\"description\":\"makan ichiraku ramen\",\"name\":\"eating ramen\"\x7d,\x7b\"description\":\"coret-coret patung hokage\",\"name\":\"vandalism\"\x7d],\"name\":\"Sasuke\"\x7d"
        "name" (.str "Sasuke") =
      .ret ("\x7b\"hobby\":[\x7b\"description\":\"makan ichiraku ramen\",\"name\":\"eating ramen\"\x7d,\x7b\"description\":\"coret-coret patung hokage\",\"name\":\"vandalism\"\x7d],\"name\":\"Sasuke\"\x7d", none)) :=
  ⟨by rfl, by rfl, by rfl,
    C15_last_write_wins jsonSample "name" _ (.str "Sasuke") (.num 7) (by rfl) (by rfl) (by rfl)⟩

set_option maxRecDepth 1000000 in
/-- Counterexample to C16 as stated: in the text
`\x7b"a":9007199254740993,"b":1\x7d` the path `b` is valid and `Get` reads `1`;
writing `1` back succeeds, and the result has `9007199254740992` for `a`,
which is not the value of `a` in the document. -/
theorem C16_counterexample :
    parseText "\x7b\"a\":9007199254740993,\"b\":1\x7d" =
      some (.obj [("a", .num 9007199254740993), ("b", .num 1)]) ∧
    validPath (.obj [("a", .num 9007199254740993), ("b", .num 1)]) (stringsSplit "b") = true ∧
    Get "\x7b\"a\":9007199254740993,\"b\":1\x7d" "b" = (.num 1, none) ∧
    Set "\x7b\"a\":9007199254740993,\"b\":1\x7d" "b" (.num 1) =
      .ret ("\x7b\"a\":9007199254740992,\"b\":1\x7d", none) ∧
    parseText "\x7b\"a\":9007199254740992,\"b\":1\x7d" =
      some (.obj [("a", .num 9007199254740992), ("b", .num 1)]) ∧
    JSON.num 9007199254740992 ≠ JSON.num 9007199254740993 :=
  ⟨by rfl, by rfl, by rfl, by rfl, by rfl, by
    intro h
    injection h with h
    exact absurd h (by decide)⟩

/-- Claim C16 (amended). Writing back what was read changes nothing of the
decoded document: when `json.Unmarshal` decodes the document to `d` (of fewer
than `2^63` values, its numbers the nearest `float64` values), the path is
valid in `d` (every segment resolves to an existing key or an in-range index)
and `Get doc p` returns `x`, `Set doc p x` succeeds and `json.Unmarshal`
decodes its result to `d`. -/
theorem C16_write_back_read (doc p : String) (d x : JSON)
    (hdoc : parseJSON doc = some d)
    (hsize : d.weight < 2 ^ 63)
    (hvalid : validPath d (stringsSplit p) = true)
    (hget : Get doc p = (x, none)) :
    ∃ doc', Set doc p x = .ret (doc', none) ∧ parseJSON doc' = some d := by
  unfold validPath at hvalid
  obtain ⟨y, hy⟩ := Option.isSome_iff_exists.1 hvalid
  have hg : getVal d (stringsSplit p) = (x, none) := by
    rw [Get_eq_wrapGet p hdoc] at hget
    exact wrapGet_none_inv hget
  have hres := addressed_resolve_of_getVal (stringsSplit p) d x y hsize hy hg
  have hxy : x = y := by
    have h2 := getVal_of_resolve hres
    rw [hg] at h2
    exact congrArg Prod.fst h2
  subst hxy
  have hsv := setVal_resolved (stringsSplit p) (stringsSplit_ne_nil p) d x (parseJSON_wf hdoc)
    hres
  refine ⟨String.mk (encodeValue d), ?_, parseJSON_encode d (parseJSON_wf hdoc)⟩
  rw [Set_of_parse p x hdoc, hsv]

set_option maxRecDepth 1000000 in
/-- Witness of C16 on the sample document and the path `hobby.[-1].name`. -/
theorem C16_write_back_read_witness :
    parseJSON jsonSample = some jsonSampleValue ∧
    jsonSampleValue.weight < 2 ^ 63 ∧
    validPath jsonSampleValue (stringsSplit "hobby.[-1].name") = true ∧
    Get jsonSample "hobby.[-1].name" = (.str "vandalism", none) ∧
    ∃ doc', Set jsonSample "hobby.[-1].name" (.str "vandalism") = .ret (doc', none) ∧
      parseJSON doc' = some jsonSampleValue :=
  ⟨by rfl, by decide, by rfl, by rfl,
    C16_write_back_read jsonSample "hobby.[-1].name" jsonSampleValue (.str "vandalism")
      (by rfl) (by decide) (by rfl) (by rfl)⟩

/-- Claim C17. `Set` is all-or-nothing on a returned error: whenever `Set`
returns an error, its first result is the input document text; whenever it
returns no error, its first result is the encoding of the value that
`setNewVal` returned, which is the top-level container of the document with
the slot of the first segment written. -/
theorem C17_set_all_or_nothing (doc path : String) (v : JSON) :
    (∀ r e, Set doc path v = .ret (r, some e) → r = doc) ∧
    (∀ r, Set doc path v = .ret (r, none) →
      ∃ newVal, setNewVal doc (stringsSplit path) v = .ret (newVal, none) ∧
        r = String.mk (encodeValue newVal) ∧
        ∃ d k rest w, parseJSON doc = some d ∧ stringsSplit path = k :: rest ∧
          Written k d w newVal) := by
  constructor
  · intro r e h
    unfold Set set at h
    by_cases hl : (stringsSplit path).length = 0
    · simp only [hl, if_true, Exec.ret.injEq, Prod.mk.injEq] at h
      exact h.1.symm
    · rcases hs : setNewVal doc (stringsSplit path) v with ⟨y, _ | e0⟩ | pn
      · simp only [hl, if_false, hs, jsonMarshal] at h
        simp at h
      · simp only [hl, if_false, hs, Exec.ret.injEq, Prod.mk.injEq] at h
        exact h.1.symm
      · simp only [hl, if_false, hs] at h
        simp at h
  · intro r h
    obtain ⟨d, d', hdoc, hsv, hr⟩ := Set_ret_inv h
    obtain ⟨k, ks, hk⟩ := stringsSplit_cons path
    rw [hk] at hsv
    obtain ⟨w, hW, -⟩ := setVal_inv hsv
    refine ⟨d', ?_, hr, d, k, ks, w, hdoc, hk, hW⟩
    rw [hk, setNewVal_of_parse ks k hdoc (parseJSON_wf hdoc) v, hsv]

set_option maxRecDepth 1000000 in
/-- Witness of C17: a write that succeeds on the array `[1,2]`, and a write that
fails on it with the document returned as it was. -/
theorem C17_set_all_or_nothing_witness :
    Set "[1,2]" "[0]" (.num 5) = .ret ("[5,2]", none) ∧
    Set "[1,2]" "a" (.num 5) = .ret ("[1,2]", some (.cannotFetch "a" "[1,2]" .unmarshalType)) ∧
    ∃ newVal, setNewVal "[1,2]" (stringsSplit "[0]") (.num 5) = .ret (newVal, none) ∧
      "[5,2]" = String.mk (encodeValue newVal) ∧
      ∃ d k rest w, parseJSON "[1,2]" = some d ∧ stringsSplit "[0]" = k :: rest ∧
        Written k d w newVal :=
  ⟨by rfl, by rfl, (C17_set_all_or_nothing "[1,2]" "[0]" (.num 5)).2 "[5,2]" (by rfl)⟩

end JqLike
